import Mathlib

/-!
Verification of the JSON-to-S-expression converter (C sources: parser.c,
memory.c, main.c, sexpr_output.c, json_to_sexpr.h).

The development shallowly embeds the C code:

* the input text is a `List Char`; the C parser's `(input, pos)` pair is
  represented by the remaining suffix `input.drop pos` (the code never reads
  before `pos`, and `pos` only grows);
* C `double` values are modelled as exact rationals `ℚ` (the C library
  `atof` is modelled as the exact decimal value of the literal; binary64
  rounding is not modelled — every concrete number exercised below is
  exactly representable either way);
* fallible C functions returning `NULL` are modelled with `Option`;
* heap behaviour is made visible by threading a ghost counter of live
  `malloc` blocks through the parsing functions, mirroring every `malloc`
  and `free`/`json_memory_free_value` call of the C code (`malloc` is
  assumed to succeed; the `!value`/`!member` out-of-memory branches are
  therefore never taken);
* loops are either structural recursion on the remaining character list or
  use an explicit fuel parameter; the canonical fuel chosen at top level is
  proved sufficient.

Token and value buffers: the C token buffer is `char value[1024]` filled at
increasing indices guarded by `value_pos < MAX_TOKEN_SIZE - 1`; the string
literal loop accumulates the written bytes in reverse (constant-time writes)
and reverses at the end, with the explicit `value_pos` counter mirroring the
C guard.
-/

/-- Whitespace characters skipped between tokens, per `tokenizer_skip_whitespace`
(space, tab, carriage return; line feed is handled separately for line counting). -/
def isWsChar (c : Char) : Bool :=
  c = ' ' || c = '\t' || c = '\r'

/-- ASCII digit test, modelling C `isdigit` on the characters that occur. -/
def isDigitChar (c : Char) : Bool :=
  '0' ≤ c && c ≤ '9'

/-- Token kinds, mirroring `token_type_t` of `json_to_sexpr.h`. -/
inductive token_type_t where
  | TOKEN_LBRACE
  | TOKEN_RBRACE
  | TOKEN_LBRACKET
  | TOKEN_RBRACKET
  | TOKEN_COLON
  | TOKEN_COMMA
  | TOKEN_STRING
  | TOKEN_NUMBER
  | TOKEN_TRUE
  | TOKEN_FALSE
  | TOKEN_NULL
  | TOKEN_EOF
  | TOKEN_ERROR
deriving DecidableEq

open token_type_t

/-- Tokens, mirroring `token_t`: kind, captured text, and the numeric value
(`double number_value`, modelled as `ℚ`). -/
structure token_t where
  type : token_type_t
  value : List Char
  number_value : ℚ
deriving DecidableEq

/-- Tokenizer state: the remaining input suffix plus the 1-based line/column
counters of `parser_t` (`input`+`pos`+`length` collapse to `rest`). -/
structure lexer_state where
  rest : List Char
  line : ℕ
  column : ℕ
deriving DecidableEq

/-- Mirrors `tokenizer_skip_whitespace`: consume space/tab/CR (column+1) and
LF (line+1, column:=1) until a non-whitespace character or end of input. -/
def tokenizer_skip_whitespace : List Char → ℕ → ℕ → lexer_state
  | [], line, column => ⟨[], line, column⟩
  | ch :: rest, line, column =>
    if ch = ' ' || ch = '\t' || ch = '\r' then
      tokenizer_skip_whitespace rest line (column + 1)
    else if ch = '\n' then
      tokenizer_skip_whitespace rest (line + 1) 1
    else ⟨ch :: rest, line, column⟩

/-- Bytes written to the token buffer for one escape sequence `\\<escaped>`,
in reverse order (the accumulator below is reversed): recognized escapes
resolve to a single byte; an unrecognized escape writes the backslash and
then — only if the buffer cap still allows — the escaped character itself. -/
def escape_written (escaped : Char) (value_pos : ℕ) : List Char :=
  if escaped = '"' then ['"']
  else if escaped = '\\' then ['\\']
  else if escaped = '/' then ['/']
  else if escaped = 'b' then ['\x08']
  else if escaped = 'f' then ['\x0c']
  else if escaped = 'n' then ['\n']
  else if escaped = 'r' then ['\r']
  else if escaped = 't' then ['\t']
  else if value_pos + 1 < 1023 then [escaped, '\\'] else ['\\']

/-- Loop of `tokenizer_parse_string_literal`: `accRev` holds the bytes written
to `token.value` so far in reverse order, `value_pos` the C write index
(so `value_pos = accRev.length` throughout).  Returns `some` decoded content
(still reversed) on a consumed closing quote and `none` when the loop ends
without one (end of input or buffer cap), together with the lexer state after
the loop. -/
def string_lit_loop : List Char → ℕ → ℕ → List Char → ℕ → Option (List Char) × lexer_state
  | rest, line, column, accRev, value_pos =>
    if value_pos < 1023 then
      match rest with
      | [] => (none, ⟨[], line, column⟩)
      | ch :: rest1 =>
        if ch = '"' then (some accRev, ⟨rest1, line, column + 1⟩)
        else if ch = '\\' then
          match rest1 with
          | escaped :: rest2 =>
            string_lit_loop rest2 line (column + 2) (escape_written escaped value_pos ++ accRev)
              (value_pos + (escape_written escaped value_pos).length)
          | [] =>
            -- `pos + 1 < length` fails: the backslash is copied as a plain byte
            string_lit_loop [] line (column + 1) ('\\' :: accRev) (value_pos + 1)
        else string_lit_loop rest1 line (column + 1) (ch :: accRev) (value_pos + 1)
    else (none, ⟨rest, line, column⟩)

/-- Mirrors `tokenizer_parse_string_literal`: skip the opening quote, run the
copy loop, and return either the decoded `TOKEN_STRING` or `TOKEN_ERROR` for
an unterminated (or buffer-capped) string. -/
def tokenizer_parse_string_literal : List Char → ℕ → ℕ → token_t × lexer_state
  | rest, line, column =>
    let afterQuote : List Char := rest.tail
    let res := string_lit_loop afterQuote line (column + 1) [] 0
    match res.1 with
    | some accRev => (⟨TOKEN_STRING, accRev.reverse, 0⟩, res.2)
    | none => (⟨TOKEN_ERROR, [], 0⟩, res.2)

/-- Guarded write into the token buffer: in C,
`if (value_pos < MAX_TOKEN_SIZE - 1) token.value[value_pos++] = c;` — the
accumulated list length is exactly `value_pos`. -/
def capWrite (acc : List Char) (c : Char) : List Char :=
  if acc.length < 1023 then acc ++ [c] else acc

/-- Digit-copying loop shared by the integer, fraction and exponent parts of
`tokenizer_parse_numeric_literal`: `while (pos < length && isdigit(...))`
with a guarded capture; the cursor always advances. -/
def num_digit_loop : List Char → ℕ → ℕ → List Char → List Char × lexer_state
  | [], line, column, acc => (acc, ⟨[], line, column⟩)
  | d :: rest, line, column, acc =>
    if isDigitChar d then num_digit_loop rest line (column + 1) (capWrite acc d)
    else (acc, ⟨d :: rest, line, column⟩)

/-- Value of a digit character. -/
def digitVal (c : Char) : ℕ := c.toNat - '0'.toNat

/-- Decimal value of a digit string (left fold, most significant first). -/
def digitsToNat : List Char → ℕ → ℕ
  | [], n => n
  | d :: rest, n => digitsToNat rest (n * 10 + digitVal d)

/-- Models the C library `atof` applied to the captured literal text: optional
sign, digits, optional `.` digits, optional exponent whose digits must be
present for the exponent to count (`strtod` longest-valid-prefix rule); the
result is the exact rational value (binary64 rounding is not modelled).  The
captured text never begins with whitespace, so the `isspace` prefix skip of
`strtod` is omitted. -/
def atof (s : List Char) : ℚ :=
  let p : ℤ × List Char :=
    match s with
    | '-' :: r => (-1, r)
    | '+' :: r => (1, r)
    | _ => (1, s)
  let ip := p.2.takeWhile isDigitChar
  let r1 := p.2.dropWhile isDigitChar
  let fr : List Char × List Char :=
    match r1 with
    | '.' :: r => (r.takeWhile isDigitChar, r.dropWhile isDigitChar)
    | _ => ([], r1)
  let expVal : ℤ :=
    match fr.2 with
    | e :: r =>
      if e = 'e' || e = 'E' then
        let es : ℤ × List Char :=
          match r with
          | '-' :: rr => (-1, rr)
          | '+' :: rr => (1, rr)
          | _ => (1, r)
        let ed := es.2.takeWhile isDigitChar
        if ed = [] then 0 else es.1 * (digitsToNat ed 0 : ℤ)
      else 0
    | [] => 0
  -- (sign) * (intpart.fracpart) * 10^expVal, assembled as a single exact
  -- fraction of integers (`mkRat` normalizes); `Nat.pow` keeps kernel
  -- reduction fast.
  let k := fr.1.length
  let mantNum : ℤ :=
    (digitsToNat ip 0 * Nat.pow 10 k + digitsToNat fr.1 0 : ℕ)
  if 0 ≤ expVal then
    mkRat (p.1 * mantNum * (Nat.pow 10 expVal.toNat : ℕ)) (Nat.pow 10 k)
  else
    mkRat (p.1 * mantNum) (Nat.pow 10 k * Nat.pow 10 (-expVal).toNat)

/-- Fraction phase of `tokenizer_parse_numeric_literal`: an optional `.`
followed by a digit run (guarded captures). -/
def numeric_frac (acc : List Char) (s : lexer_state) : List Char × lexer_state :=
  match s.rest with
  | c2 :: r =>
    if c2 = '.' then num_digit_loop r s.line (s.column + 1) (capWrite acc '.')
    else (acc, s)
  | [] => (acc, s)

/-- Exponent phase of `tokenizer_parse_numeric_literal`: an optional `e`/`E`
with optional sign and a digit run; the marker and sign are consumed even
when no digits follow (the captured text still parses via `atof`). -/
def numeric_exp (acc : List Char) (s : lexer_state) : List Char × lexer_state :=
  match s.rest with
  | e :: r =>
    if e = 'e' || e = 'E' then
      match r with
      | c3 :: rr =>
        if c3 = '+' || c3 = '-' then
          num_digit_loop rr s.line (s.column + 2) (capWrite (capWrite acc e) c3)
        else num_digit_loop (c3 :: rr) s.line (s.column + 1) (capWrite acc e)
      | [] => num_digit_loop [] s.line (s.column + 1) (capWrite acc e)
    else (acc, s)
  | [] => (acc, s)

/-- Mirrors `tokenizer_parse_numeric_literal`: optional `-`; a single `0`
(rejecting a following digit — the leading-zero rule) or a digit run;
fraction and exponent phases; the captured text is fed to `atof`.  The `-`
and `0` writes are unguarded in C (indices 0/1 are always below the cap),
all loop writes are guarded. -/
def tokenizer_parse_numeric_literal (rest : List Char) (line column : ℕ) :
    token_t × lexer_state :=
  let sgn : List Char × lexer_state :=
    match rest with
    | c0 :: r =>
      if c0 = '-' then (['-'], ⟨r, line, column + 1⟩) else ([], ⟨c0 :: r, line, column⟩)
    | [] => ([], ⟨[], line, column⟩)
  match sgn.2.rest with
  | c1 :: r0 =>
    if c1 = '0' then
      match r0 with
      | d :: _ =>
        if isDigitChar d then
          (⟨TOKEN_ERROR, sgn.1 ++ ['0'], 0⟩, ⟨r0, sgn.2.line, sgn.2.column + 1⟩)
        else numeric_tail (sgn.1 ++ ['0']) ⟨r0, sgn.2.line, sgn.2.column + 1⟩
      | [] => numeric_tail (sgn.1 ++ ['0']) ⟨r0, sgn.2.line, sgn.2.column + 1⟩
    else numeric_tail (num_digit_loop (c1 :: r0) sgn.2.line sgn.2.column sgn.1).1
      (num_digit_loop (c1 :: r0) sgn.2.line sgn.2.column sgn.1).2
  | [] => numeric_tail sgn.1 sgn.2
where
  /-- Fraction and exponent phases plus token construction. -/
  numeric_tail (acc : List Char) (s : lexer_state) : token_t × lexer_state :=
    (⟨TOKEN_NUMBER, (numeric_exp (numeric_frac acc s).1 (numeric_frac acc s).2).1,
      atof (numeric_exp (numeric_frac acc s).1 (numeric_frac acc s).2).1⟩,
     (numeric_exp (numeric_frac acc s).1 (numeric_frac acc s).2).2)

/-- Models `strncmp(input + pos, lit, lit.length) == 0`: the literal is a
prefix of the remaining text. -/
def litMatches : List Char → List Char → Bool
  | [], _ => true
  | _ :: _, [] => false
  | p :: ps, c :: cs => p = c && litMatches ps cs

/-- Mirrors `tokenizer_parse_keyword_literal`: exact prefix match of `true`,
`false` or `null` (consuming 4/5/4 characters), otherwise `TOKEN_ERROR`
without advancing. -/
def tokenizer_parse_keyword_literal (rest : List Char) (line column : ℕ) :
    token_t × lexer_state :=
  if litMatches ['t', 'r', 'u', 'e'] rest then
    (⟨TOKEN_TRUE, ['t', 'r', 'u', 'e'], 0⟩, ⟨rest.drop 4, line, column + 4⟩)
  else if litMatches ['f', 'a', 'l', 's', 'e'] rest then
    (⟨TOKEN_FALSE, ['f', 'a', 'l', 's', 'e'], 0⟩, ⟨rest.drop 5, line, column + 5⟩)
  else if litMatches ['n', 'u', 'l', 'l'] rest then
    (⟨TOKEN_NULL, ['n', 'u', 'l', 'l'], 0⟩, ⟨rest.drop 4, line, column + 4⟩)
  else (⟨TOKEN_ERROR, [], 0⟩, ⟨rest, line, column⟩)

/-- Dispatch on the first character after whitespace skipping, mirroring the
`switch (c)` of `tokenizer_get_next_token` (the EOF check and the default
unexpected-character case included; the latter does not advance). -/
def tokenizer_next_token_dispatch : List Char → ℕ → ℕ → token_t × lexer_state
  | [], line, column => (⟨TOKEN_EOF, [], 0⟩, ⟨[], line, column⟩)
  | ch :: rest, line, column =>
    if ch = '{' then (⟨TOKEN_LBRACE, [ch], 0⟩, ⟨rest, line, column + 1⟩)
    else if ch = '}' then (⟨TOKEN_RBRACE, [ch], 0⟩, ⟨rest, line, column + 1⟩)
    else if ch = '[' then (⟨TOKEN_LBRACKET, [ch], 0⟩, ⟨rest, line, column + 1⟩)
    else if ch = ']' then (⟨TOKEN_RBRACKET, [ch], 0⟩, ⟨rest, line, column + 1⟩)
    else if ch = ':' then (⟨TOKEN_COLON, [ch], 0⟩, ⟨rest, line, column + 1⟩)
    else if ch = ',' then (⟨TOKEN_COMMA, [ch], 0⟩, ⟨rest, line, column + 1⟩)
    else if ch = '"' then tokenizer_parse_string_literal (ch :: rest) line column
    else if ch = '-' || isDigitChar ch then
      tokenizer_parse_numeric_literal (ch :: rest) line column
    else if ch = 't' || ch = 'f' || ch = 'n' then
      tokenizer_parse_keyword_literal (ch :: rest) line column
    else (⟨TOKEN_ERROR, [], 0⟩, ⟨ch :: rest, line, column⟩)

/-- Mirrors `tokenizer_get_next_token`: skip whitespace, then dispatch. -/
def tokenizer_get_next_token (rest : List Char) (line column : ℕ) :
    token_t × lexer_state :=
  let s := tokenizer_skip_whitespace rest line column
  tokenizer_next_token_dispatch s.rest s.line s.column

/-- Stop tokens: the token stream is cut after `TOKEN_EOF` (no characters
remain) or `TOKEN_ERROR` (the default lexer case does not advance, and the
parser fails at the first error token it consults). -/
def stopToken (t : token_t) : Bool :=
  t.type = TOKEN_EOF || t.type = TOKEN_ERROR

/-- Fuelled token stream of a lexer state: pull tokens until a stop token,
which is kept as the final element.  `tokenListF_fuel_irrel` below shows any
fuel above the remaining length gives the same list. -/
def tokenListF : ℕ → List Char → ℕ → ℕ → List token_t
  | 0, _, _, _ => []
  | fuel + 1, rest, line, column =>
    let p := tokenizer_get_next_token rest line column
    if stopToken p.1 then [p.1]
    else p.1 :: tokenListF fuel p.2.rest p.2.line p.2.column

/-- Token stream of an input text, with canonical (sufficient) fuel. -/
def tokens (t : List Char) : List token_t :=
  tokenListF (t.length + 1) t 1 1

/-- Fuelled list of pull points: the suffixes of the input at which a token
pull begins (the token boundaries of the text). -/
def pullSuffixesF : ℕ → List Char → ℕ → ℕ → List (List Char)
  | 0, _, _, _ => []
  | fuel + 1, rest, line, column =>
    let p := tokenizer_get_next_token rest line column
    if stopToken p.1 then [rest]
    else rest :: pullSuffixesF fuel p.2.rest p.2.line p.2.column

/-- Token boundaries of an input text (canonical fuel). -/
def pullSuffixes (t : List Char) : List (List Char) :=
  pullSuffixesF (t.length + 1) t 1 1

/-- Parser context, mirroring `parser_t`: lexer position plus the single
lookahead token. -/
structure parser_t where
  rest : List Char
  line : ℕ
  column : ℕ
  current_token : token_t
deriving DecidableEq

/-- Mirrors `parser->current_token = tokenizer_get_next_token(parser)`. -/
def parser_advance (p : parser_t) : parser_t :=
  let n := tokenizer_get_next_token p.rest p.line p.column
  ⟨n.2.rest, n.2.line, n.2.column, n.1⟩

/-- Mirrors `parser_initialize`: line/column start at 1 and the first token
is pulled immediately. -/
def parser_initialize (input : List Char) : parser_t :=
  let n := tokenizer_get_next_token input 1 1
  ⟨n.2.rest, n.2.line, n.2.column, n.1⟩

/-- JSON value tree, mirroring `json_value_t`; the `json_member_t` /
`json_element_t` linked lists become Lean lists in insertion order. -/
inductive json_value where
  | JSON_OBJECT : List (List Char × json_value) → json_value
  | JSON_ARRAY : List json_value → json_value
  | JSON_STRING : List Char → json_value
  | JSON_NUMBER : ℚ → json_value
  | JSON_BOOLEAN : Bool → json_value
  | JSON_NULL : json_value

open json_value

/-- Number of live heap blocks of a value tree: one `json_value_t` node per
value, plus the string buffer of a `JSON_STRING`, plus one `json_member_t`
and one key buffer per object member and one `json_element_t` per array
element.  `json_memory_free_value` releases exactly this many blocks. -/
def heapSize : json_value → ℤ
  | JSON_OBJECT members => 1 + heapMembers members
  | JSON_ARRAY elements => 1 + heapElements elements
  | JSON_STRING _ => 2
  | JSON_NUMBER _ => 1
  | JSON_BOOLEAN _ => 1
  | JSON_NULL => 1
where
  /-- Heap blocks of an object member list. -/
  heapMembers : List (List Char × json_value) → ℤ
    | [] => 0
    | (_, v) :: rest => 2 + heapSize v + heapMembers rest
  /-- Heap blocks of an array element list. -/
  heapElements : List json_value → ℤ
    | [] => 0
    | v :: rest => 1 + heapSize v + heapElements rest

/-- Heap blocks of an object member list (top-level abbreviation). -/
def heapMembers (ms : List (List Char × json_value)) : ℤ :=
  heapSize.heapMembers ms

/-- Heap blocks of an array element list (top-level abbreviation). -/
def heapElements (es : List json_value) : ℤ :=
  heapSize.heapElements es

mutual

/-- Mirrors `json_parser_parse_value`.  The result pairs the C return value
(`NULL` = `none`) with the ghost count of live heap blocks; `live` is the
count on entry.  The initial `malloc(sizeof(json_value_t))` is `+1`; the
container cases free it again before delegating; the `TOKEN_STRING` case
allocates the copied string buffer.  Fuel `0` fails before any allocation. -/
def json_parser_parse_value : ℕ → parser_t → ℤ → Option (json_value × parser_t) × ℤ
  | 0, _, live => (none, live)
  | fuel + 1, p, live =>
    let live1 := live + 1
    match p.current_token.type with
    | TOKEN_LBRACE => json_parser_parse_object fuel p (live1 - 1)
    | TOKEN_LBRACKET => json_parser_parse_array fuel p (live1 - 1)
    | TOKEN_STRING =>
      (some (JSON_STRING p.current_token.value, parser_advance p), live1 + 1)
    | TOKEN_NUMBER =>
      (some (JSON_NUMBER p.current_token.number_value, parser_advance p), live1)
    | TOKEN_TRUE => (some (JSON_BOOLEAN true, parser_advance p), live1)
    | TOKEN_FALSE => (some (JSON_BOOLEAN false, parser_advance p), live1)
    | TOKEN_NULL => (some (JSON_NULL, parser_advance p), live1)
    | _ => (none, live1 - 1)

/-- Mirrors `json_parser_parse_object`: allocate the object node, skip `{`,
recognize the immediate-`}` empty object, otherwise run the member loop.
Fuel `0` fails before any allocation. -/
def json_parser_parse_object : ℕ → parser_t → ℤ → Option (json_value × parser_t) × ℤ
  | 0, _, live => (none, live)
  | fuel + 1, p, live =>
    let live1 := live + 1
    let p1 := parser_advance p
    if p1.current_token.type = TOKEN_RBRACE then
      (some (JSON_OBJECT [], parser_advance p1), live1)
    else json_parser_parse_object_loop fuel [] p1 live1

/-- Mirrors the member loop of `json_parser_parse_object` (`while
(current_token.type != TOKEN_EOF)`): `acc` is the member list built so far
(owned by the object node, whose block is included in `live`).  Every failure
path mirrors the C frees (`free(member->key)`, `free(member)`,
`json_memory_free_value(object)`); fuel exhaustion takes the same free path. -/
def json_parser_parse_object_loop :
    ℕ → List (List Char × json_value) → parser_t → ℤ → Option (json_value × parser_t) × ℤ
  | 0, acc, _, live => (none, live - (1 + heapMembers acc))
  | fuel + 1, acc, p, live =>
    if p.current_token.type = TOKEN_EOF then
      (some (JSON_OBJECT acc, p), live)
    else if p.current_token.type ≠ TOKEN_STRING then
      (none, live - (1 + heapMembers acc))
    else
      let key := p.current_token.value
      let live1 := live + 2
      let p1 := parser_advance p
      if p1.current_token.type ≠ TOKEN_COLON then
        (none, live1 - 2 - (1 + heapMembers acc))
      else
        let p2 := parser_advance p1
        match json_parser_parse_value fuel p2 live1 with
        | (none, live2) => (none, live2 - 2 - (1 + heapMembers acc))
        | (some (v, p3), live2) =>
          let acc2 := acc ++ [(key, v)]
          if p3.current_token.type = TOKEN_COMMA then
            json_parser_parse_object_loop fuel acc2 (parser_advance p3) live2
          else if p3.current_token.type = TOKEN_RBRACE then
            (some (JSON_OBJECT acc2, parser_advance p3), live2)
          else (none, live2 - (1 + heapMembers acc2))

/-- Mirrors `json_parser_parse_array`: allocate the array node, skip `[`,
recognize the immediate-`]` empty array, otherwise run the element loop. -/
def json_parser_parse_array : ℕ → parser_t → ℤ → Option (json_value × parser_t) × ℤ
  | 0, _, live => (none, live)
  | fuel + 1, p, live =>
    let live1 := live + 1
    let p1 := parser_advance p
    if p1.current_token.type = TOKEN_RBRACKET then
      (some (JSON_ARRAY [], parser_advance p1), live1)
    else json_parser_parse_array_loop fuel [] p1 live1

/-- Mirrors the element loop of `json_parser_parse_array`; the element node
is allocated before its value is parsed, exactly as in C. -/
def json_parser_parse_array_loop :
    ℕ → List json_value → parser_t → ℤ → Option (json_value × parser_t) × ℤ
  | 0, acc, _, live => (none, live - (1 + heapElements acc))
  | fuel + 1, acc, p, live =>
    if p.current_token.type = TOKEN_EOF then
      (some (JSON_ARRAY acc, p), live)
    else
      let live1 := live + 1
      match json_parser_parse_value fuel p live1 with
      | (none, live2) => (none, live2 - 1 - (1 + heapElements acc))
      | (some (v, p2), live2) =>
        let acc2 := acc ++ [v]
        if p2.current_token.type = TOKEN_COMMA then
          json_parser_parse_array_loop fuel acc2 (parser_advance p2) live2
        else if p2.current_token.type = TOKEN_RBRACKET then
          (some (JSON_ARRAY acc2, parser_advance p2), live2)
        else (none, live2 - (1 + heapElements acc2))

end

/-- Mirrors `json_parser_parse_document` (a direct call to
`json_parser_parse_value`). -/
def json_parser_parse_document (fuel : ℕ) (p : parser_t) (live : ℤ) :
    Option (json_value × parser_t) × ℤ :=
  json_parser_parse_value fuel p live

/-- Canonical fuel for a given input: proved sufficient below. -/
def parseFuel (t : List Char) : ℕ := 3 * t.length + 8

/-- Whole-input parse: initialize the parser on the text (pulling the first
token) and parse one document, starting from an empty heap. -/
def parse_top (t : List Char) : Option (json_value × parser_t) × ℤ :=
  json_parser_parse_document (parseFuel t) ( parser_initialize t) 0

/-- Mirrors `output_formatter_write_indentation`: two spaces per depth level. -/
def output_formatter_write_indentation (indentation_level : ℕ) : String :=
  String.mk (List.replicate (2 * indentation_level) ' ')

/-- Per-character escaping of `string_utils_escape_for_lisp`: exactly `"`,
`\`, newline, carriage return and tab are escaped, all other bytes pass
through unchanged. -/
def escape_for_lisp_char (c : Char) : List Char :=
  if c = '"' then ['\\', '"']
  else if c = '\\' then ['\\', '\\']
  else if c = '\n' then ['\\', 'n']
  else if c = '\r' then ['\\', 'r']
  else if c = '\t' then ['\\', 't']
  else [c]

/-- Mirrors `string_utils_escape_for_lisp`: quote-delimited, escaped text. -/
def string_utils_escape_for_lisp (input_string : List Char) : String :=
  String.mk ('"' :: input_string.foldr (fun c acc => escape_for_lisp_char c ++ acc) ['"'])

/-- Truncation toward zero of a rational, modelling the C cast
`(long long)number_value` (defined behaviour for doubles in the 64-bit
integer range; `Nat` division truncates the magnitude). -/
def rat_trunc (q : ℚ) : ℤ :=
  if 0 ≤ q.num then ((q.num.natAbs / q.den : ℕ) : ℤ)
  else -((q.num.natAbs / q.den : ℕ) : ℤ)

/-- Decimal digit count of a natural number (`0` has one digit). -/
def decDigits (n : ℕ) : ℕ := (Nat.toDigits 10 n).length

/-- Comparison `10 ^ e ≤ n / d` by cross multiplication (`d ≠ 0`). -/
def tenPowLe (n d : ℕ) (e : ℤ) : Bool :=
  if 0 ≤ e then d * Nat.pow 10 e.toNat ≤ n else Nat.pow 10 (-e).toNat * n ≥ d

/-- Strip trailing decimal zeros (fuelled by the digit count). -/
def stripZeros : ℕ → ℕ → ℕ
  | 0, m => m
  | fuel + 1, m => if m % 10 = 0 && m ≥ 10 then stripZeros fuel (m / 10) else m

/-- Modelled from the C library: `fprintf(output, "%.15g", v)` for a positive
rational `n/d` — 15 significant digits, rounded, trailing zeros stripped,
fixed notation for decimal exponents in `[-4, 15)` and scientific notation
(two-digit exponent minimum) otherwise.  Only determinism and the branch
structure of `sexpr_writer_write_value` matter to the claims below; the
digit pipeline is a faithful sketch of `%.15g`. -/
def g15_pos (n d : ℕ) : String :=
  let c0 : ℤ := (decDigits n : ℤ) - (decDigits d : ℤ) - 1
  let e10 : ℤ := if tenPowLe n d (c0 + 1) then c0 + 1 else c0
  -- scaled = round(n/d * 10^(14 - e10)) via integer arithmetic
  let shift : ℤ := 14 - e10
  let num2 : ℕ := if 0 ≤ shift then 2 * n * Nat.pow 10 shift.toNat else 2 * n
  let den2 : ℕ := if 0 ≤ shift then 2 * d else 2 * d * Nat.pow 10 (-shift).toNat
  let m0 : ℕ := (num2 + d) / den2
  let m : ℕ := if m0 = Nat.pow 10 15 then Nat.pow 10 14 else m0
  let e : ℤ := if m0 = Nat.pow 10 15 then e10 + 1 else e10
  let sig : ℕ := stripZeros 15 m
  let sigStr : List Char := Nat.toDigits 10 sig
  if e < -4 || 15 ≤ e then
    let headStr : String := String.mk [sigStr.headD '0']
    let tailStr : String :=
      if sigStr.length ≤ 1 then "" else "." ++ String.mk sigStr.tail
    let eAbs : ℕ := e.natAbs
    let eDigits : List Char := Nat.toDigits 10 eAbs
    let ePad : List Char := if eDigits.length < 2 then '0' :: eDigits else eDigits
    headStr ++ tailStr ++ (if 0 ≤ e then "e+" else "e-") ++ String.mk ePad
  else if 0 ≤ e then
    let ip : List Char := sigStr.take (e.toNat + 1)
    let ipPad : List Char := ip ++ List.replicate (e.toNat + 1 - ip.length) '0'
    let fp : List Char := sigStr.drop (e.toNat + 1)
    String.mk ipPad ++ (if fp = [] then "" else "." ++ String.mk fp)
  else
    "0." ++ String.mk (List.replicate (-e - 1).toNat '0') ++ String.mk sigStr

/-- Modelled from the C library: `%.15g` for an arbitrary rational. -/
def sprintf_g15 (q : ℚ) : String :=
  if q.num = 0 then "0"
  else if q.num < 0 then "-" ++ g15_pos q.num.natAbs q.den
  else g15_pos q.num.natAbs q.den

/-- Mirrors the `JSON_NUMBER` case of `sexpr_writer_write_value`: print a
plain signed integer when the value equals its own truncation toward zero,
otherwise use `%.15g`. -/
def write_number (q : ℚ) : String :=
  let integer_value : ℤ := rat_trunc q
  if q = mkRat integer_value 1 then toString integer_value else sprintf_g15 q

mutual

/-- Mirrors `sexpr_writer_write_value` (the `NULL`-pointer fallback branch is
not modelled: the parser never produces null child pointers, see
`json_parser_parse_object`/`_array`, which only link fully built values). -/
def sexpr_writer_write_value : json_value → ℕ → String
  | JSON_OBJECT members, indentation_level =>
    match members with
    | [] => "(json:object)"
    | m :: ms =>
      "(json:object\n" ++ output_formatter_write_indentation (indentation_level + 1) ++
        sexpr_writer_write_object_members (m :: ms) (indentation_level + 1) ++ ")"
  | JSON_ARRAY elements, indentation_level =>
    match elements with
    | [] => "(json:array)"
    | e :: es =>
      "(json:array\n" ++ output_formatter_write_indentation (indentation_level + 1) ++
        sexpr_writer_write_array_elements (e :: es) (indentation_level + 1) ++ ")"
  | JSON_STRING s, _ => string_utils_escape_for_lisp s
  | JSON_NUMBER q, _ => write_number q
  | JSON_BOOLEAN b, _ => if b then "#t" else "#f"
  | JSON_NULL, _ => "nil"

/-- Mirrors `sexpr_writer_write_object_members`: members separated by
newline plus indentation, each `(json:<key> <value>)` with the value at
depth `indentation_level + 1`. -/
def sexpr_writer_write_object_members :
    List (List Char × json_value) → ℕ → String
  | [], _ => ""
  | (key, v) :: ms, indentation_level =>
    "(json:" ++ String.mk key ++ " " ++
      sexpr_writer_write_value v (indentation_level + 1) ++ ")" ++
      (match ms with
       | [] => ""
       | _ :: _ =>
         "\n" ++ output_formatter_write_indentation indentation_level ++
           sexpr_writer_write_object_members ms indentation_level)

/-- Mirrors `sexpr_writer_write_array_elements`: elements separated by
newline plus indentation, rendered at the array's `indentation_level`. -/
def sexpr_writer_write_array_elements : List json_value → ℕ → String
  | [], _ => ""
  | v :: es, indentation_level =>
    sexpr_writer_write_value v indentation_level ++
      (match es with
       | [] => ""
       | _ :: _ =>
         "\n" ++ output_formatter_write_indentation indentation_level ++
           sexpr_writer_write_array_elements es indentation_level)

end

/-- Model of the post-parse part of `main`: `none` when the parse failed
(exit code 1, no output); otherwise the produced output text (fixed header
line, blank line, rendered value at depth 0, trailing newline) together with
whether the extra-content warning was printed (`current_token` not `EOF`). -/
def run_main (t : List Char) : Option (String × Bool) :=
  match parse_top t with
  | (none, _) => none
  | (some (v, p), _) =>
    some (";; JSON to S-expression conversion\n\n" ++ sexpr_writer_write_value v 0 ++ "\n",
      p.current_token.type ≠ TOKEN_EOF)

/-- The end-of-input token produced by `tokenizer_get_next_token`. -/
def eofTok : token_t := ⟨TOKEN_EOF, [], 0⟩

/-- Token stream as seen by the parser from state `p`: the lookahead token
followed by the tokens of the remaining text (a stop lookahead ends the
stream, matching `tokenListF`). -/
def ptoks (p : parser_t) : List token_t :=
  if stopToken p.current_token then [p.current_token]
  else p.current_token :: tokenListF (p.rest.length + 1) p.rest p.line p.column

/-- Grammar nonterminals: `value` is the `value` production of section 4.2 of
the specification; the others name the parser positions inside a container
(after the opening token, and the member/element loops). -/
inductive NT where
  | value
  | objtail
  | memloop
  | arrtail
  | elemloop
deriving DecidableEq

/-- Derivations of the grammar of specification section 4.2 over the token
stream (`Deriv nt ts rest` reads: from token list `ts` one `nt` can be
derived, leaving `rest`):

```
value  := object | array | string | number | true | false | null
object := '{' (member (',' member)*)? '}'
member := string ':' value
array  := '[' (value (',' value)*)? ']'
```

extended by the two end-of-input leniencies the parser actually implements
(rules `memEof` and `elemEof`): inside an object or array, reaching the
`TOKEN_EOF` lookahead immediately after `{` / `[` or immediately after a
consumed comma ends the container successfully without its closing
delimiter. -/
inductive Deriv : NT → List token_t → List token_t → Prop where
  | str (v : List Char) (q : ℚ) (ts : List token_t) :
      Deriv .value (⟨TOKEN_STRING, v, q⟩ :: ts) ts
  | num (v : List Char) (q : ℚ) (ts : List token_t) :
      Deriv .value (⟨TOKEN_NUMBER, v, q⟩ :: ts) ts
  | tru (v : List Char) (q : ℚ) (ts : List token_t) :
      Deriv .value (⟨TOKEN_TRUE, v, q⟩ :: ts) ts
  | fls (v : List Char) (q : ℚ) (ts : List token_t) :
      Deriv .value (⟨TOKEN_FALSE, v, q⟩ :: ts) ts
  | nul (v : List Char) (q : ℚ) (ts : List token_t) :
      Deriv .value (⟨TOKEN_NULL, v, q⟩ :: ts) ts
  | obj (v : List Char) (q : ℚ) (ts rest : List token_t) :
      Deriv .objtail ts rest → Deriv .value (⟨TOKEN_LBRACE, v, q⟩ :: ts) rest
  | arr (v : List Char) (q : ℚ) (ts rest : List token_t) :
      Deriv .arrtail ts rest → Deriv .value (⟨TOKEN_LBRACKET, v, q⟩ :: ts) rest
  | objEmpty (v : List Char) (q : ℚ) (ts : List token_t) :
      Deriv .objtail (⟨TOKEN_RBRACE, v, q⟩ :: ts) ts
  | objLoop (ts rest : List token_t) :
      Deriv .memloop ts rest → Deriv .objtail ts rest
  | memEof (v : List Char) (q : ℚ) (ts : List token_t) :
      Deriv .memloop (⟨TOKEN_EOF, v, q⟩ :: ts) (⟨TOKEN_EOF, v, q⟩ :: ts)
  | memMemberComma (k cv sv : List Char) (kq cq sq : ℚ)
      (ts us rest : List token_t) :
      Deriv .value ts (⟨TOKEN_COMMA, sv, sq⟩ :: us) →
      Deriv .memloop us rest →
      Deriv .memloop (⟨TOKEN_STRING, k, kq⟩ :: ⟨TOKEN_COLON, cv, cq⟩ :: ts) rest
  | memMemberClose (k cv sv : List Char) (kq cq sq : ℚ)
      (ts rest : List token_t) :
      Deriv .value ts (⟨TOKEN_RBRACE, sv, sq⟩ :: rest) →
      Deriv .memloop (⟨TOKEN_STRING, k, kq⟩ :: ⟨TOKEN_COLON, cv, cq⟩ :: ts) rest
  | arrEmpty (v : List Char) (q : ℚ) (ts : List token_t) :
      Deriv .arrtail (⟨TOKEN_RBRACKET, v, q⟩ :: ts) ts
  | arrLoop (ts rest : List token_t) :
      Deriv .elemloop ts rest → Deriv .arrtail ts rest
  | elemEof (v : List Char) (q : ℚ) (ts : List token_t) :
      Deriv .elemloop (⟨TOKEN_EOF, v, q⟩ :: ts) (⟨TOKEN_EOF, v, q⟩ :: ts)
  | elemComma (sv : List Char) (sq : ℚ) (ts us rest : List token_t) :
      Deriv .value ts (⟨TOKEN_COMMA, sv, sq⟩ :: us) →
      Deriv .elemloop us rest →
      Deriv .elemloop ts rest
  | elemClose (sv : List Char) (sq : ℚ) (ts rest : List token_t) :
      Deriv .value ts (⟨TOKEN_RBRACKET, sv, sq⟩ :: rest) →
      Deriv .elemloop ts rest

/-- The token stream of `t` begins with a grammar `value` (possibly leaving
trailing tokens). -/
def beginsWithValue (t : List Char) : Prop :=
  ∃ rest, Deriv .value (tokens t) rest

/-- The whole text is a single grammar `value` — the `document := value`
production of section 4.2 applied to the entire input (the token stream is
the value followed by end of input alone).  This is the claim C1 reading of
"the text matches the grammar". -/
def matchesDocumentGrammar (t : List Char) : Prop :=
  Deriv .value (tokens t) [eofTok]

/-- Characters accepted as whitespace between tokens. -/
def wsOnly (ws : List Char) : Prop :=
  ∀ c ∈ ws, c = ' ' ∨ c = '\t' ∨ c = '\r' ∨ c = '\n'

/-- Line/column update rule claimed by the specification for consumed
characters: a line feed sets the column to 1 and increments the line, every
other character advances the column by one. -/
def wsAdv (cs : List Char) (lc : ℕ × ℕ) : ℕ × ℕ :=
  cs.foldl (fun lc c => if c = '\n' then (lc.1 + 1, 1) else (lc.1, lc.2 + 1)) lc

/-- Unbounded decoder of a string literal body (the text after the opening
quote): returns the decoded content and the text after the closing quote,
or `none` when no closing quote is reached.  It follows exactly the escape
rules of `tokenizer_parse_string_literal` (`escape_written` at write index 0
is the uncapped escape resolution, reversed back to input order), with no
buffer cap. -/
def string_content_decode : List Char → Option (List Char × List Char)
  | [] => none
  | ch :: r =>
    if ch = '"' then some ([], r)
    else if ch = '\\' then
      match r with
      | escaped :: r2 =>
        (string_content_decode r2).map
          (fun p => ((escape_written escaped 0).reverse ++ p.1, p.2))
      | [] => none
    else (string_content_decode r).map (fun p => (ch :: p.1, p.2))

/-- Concrete input of claim C3: the text `{"a":1,"b":[true,false,null]}`. -/
def c3_input : List Char :=
  ['{', '"', 'a', '"', ':', '1', ',', '"', 'b', '"', ':', '[',
   't', 'r', 'u', 'e', ',', 'f', 'a', 'l', 's', 'e', ',', 'n', 'u', 'l', 'l', ']', '}']

/-!  Theorems.  Each claim C1–C10 has exactly one main theorem below, plus a
counterexample and/or witness where required. -/

/-- C7: the leading-zero rule of `tokenizer_parse_numeric_literal`: the
documents `01` and `-01` fail to parse, while `0`, `-0` and `0.5` parse to
the number values 0, −0 and 0.5 (in the exact-rational model of `double`,
−0 = 0, matching the C comparison semantics `-0.0 == 0.0`). -/
theorem C7_leading_zero_rule :
    (parse_top ['0', '1']).1 = none ∧
    (parse_top ['-', '0', '1']).1 = none ∧
    (parse_top ['0']).1.map (fun x => x.1) = some (JSON_NUMBER 0) ∧
    (parse_top ['-', '0']).1.map (fun x => x.1) = some (JSON_NUMBER (-0)) ∧
    (parse_top ['0', '.', '5']).1.map (fun x => x.1) = some (JSON_NUMBER (0.5 : ℚ)) := by
  refine ⟨rfl, rfl, rfl, ?_, ?_⟩
  · have h : (parse_top ['-', '0']).1.map (fun x => x.1) =
        some (JSON_NUMBER (mkRat 0 1)) := rfl
    rw [h]
    norm_num
  · have h : (parse_top ['0', '.', '5']).1.map (fun x => x.1) =
        some (JSON_NUMBER (mkRat 1 2)) := rfl
    rw [h, Rat.mkRat_eq_div]
    norm_num

/-- C8: trailing commas inside containers are rejected: `[1,2,]` and
`{"a":1,}` both fail to parse (after a comma the object loop demands a
string key and the array loop a value; the closing delimiter in that
position falls through to the error branch). -/
theorem C8_trailing_comma_rejected :
    (parse_top ['[', '1', ',', '2', ',', ']']).1 = none ∧
    (parse_top ['{', '"', 'a', '"', ':', '1', ',', '}']).1 = none :=
  ⟨rfl, rfl⟩

/-- C3 counterexample: the claimed rendering of `{"a":1,"b":[true,false,null]}`
places `#t`/`#f`/`nil` at 4 spaces of indentation; the code does not produce
that body (the nested array's elements are written at 6 spaces: the member
value renders at depth 2, so the array contents indent at depth 3). -/
theorem C3_counterexample :
    ¬ ((parse_top c3_input).1.map (fun x => sexpr_writer_write_value x.1 0) =
      some "(json:object\n  (json:a 1)\n  (json:b (json:array\n    #t\n    #f\n    nil)))") := by
  decide

/-- C3 amended: parsing `{"a":1,"b":[true,false,null]}` and serializing at
depth 0 produces exactly the body with members indented 2 spaces and the
nested array's elements `#t`, `#f`, `nil` each on its own line at 6 spaces
(depth 3), closing parentheses glued to the last child. -/
theorem C3_render_scenario :
    (parse_top c3_input).1.map (fun x => sexpr_writer_write_value x.1 0) =
      some "(json:object\n  (json:a 1)\n  (json:b (json:array\n      #t\n      #f\n      nil)))" :=
  rfl

/-- Step equation of the claimed line/column update rule. -/
theorem wsAdv_cons (ch : Char) (cs : List Char) (lc : ℕ × ℕ) :
    wsAdv (ch :: cs) lc =
      wsAdv cs (if ch = '\n' then (lc.1 + 1, 1) else (lc.1, lc.2 + 1)) := rfl

/-- Between tokens, `tokenizer_skip_whitespace` consumes exactly the leading
run of space/tab/CR/LF characters and updates line/column by the claimed
per-character rule (`wsAdv`). -/
theorem skipWs_eq (r : List Char) (l c : ℕ) :
    tokenizer_skip_whitespace r l c =
      ⟨r.dropWhile (fun ch => isWsChar ch || ch = '\n'),
       (wsAdv (r.takeWhile (fun ch => isWsChar ch || ch = '\n')) (l, c)).1,
       (wsAdv (r.takeWhile (fun ch => isWsChar ch || ch = '\n')) (l, c)).2⟩ := by
  induction r generalizing l c with
  | nil => rfl
  | cons ch rest ih =>
    by_cases h1 : ch = ' ' ∨ ch = '\t' ∨ ch = '\r'
    · have hw : isWsChar ch = true := by
        rcases h1 with h | h | h <;> simp [isWsChar, h]
      have hn : ch ≠ '\n' := by
        rcases h1 with h | h | h <;> simp [h]
      simp only [tokenizer_skip_whitespace, List.takeWhile, List.dropWhile, hw,
        Bool.true_or, if_pos, wsAdv_cons, hn, if_neg]
      have hcond : (ch = ' ' || ch = '\t' || ch = '\r') = true := by
        rcases h1 with h | h | h <;> simp [h]
      rw [hcond]
      simp only [if_true]
      exact ih l (c + 1)
    · by_cases h2 : ch = '\n'
      · subst h2
        have hcond : ('\n' = ' ' || '\n' = '\t' || '\n' = '\r') = false := by decide
        simp only [tokenizer_skip_whitespace, hcond, Bool.false_eq_true, if_false, if_pos]
        have hw : (isWsChar '\n' || '\n' = '\n') = true := by decide
        simp only [List.takeWhile, List.dropWhile, hw, wsAdv_cons, if_pos]
        exact ih (l + 1) 1
      · have hcond : (ch = ' ' || ch = '\t' || ch = '\r') = false := by
          simp only [Bool.or_eq_false_iff, decide_eq_false_iff_not]
          exact ⟨⟨fun h => h1 (Or.inl h), fun h => h1 (Or.inr (Or.inl h))⟩,
            fun h => h1 (Or.inr (Or.inr h))⟩
        have hic : isWsChar ch = false := hcond
        have hw : (isWsChar ch || ch = '\n') = false := by
          simp only [hic, Bool.false_or, decide_eq_false_iff_not]
          exact h2
        simp [tokenizer_skip_whitespace, hcond, h2, List.takeWhile, List.dropWhile, hic, hw,
          wsAdv]

/-- Inside a string literal every consumed character — a line feed included —
advances the column by exactly one (two for an escape pair) and never changes
the line: the final column plus the unconsumed length equals the starting
column plus the starting length. -/
theorem string_lit_loop_pos (rest : List Char) (l c : ℕ) (acc : List Char) (vp : ℕ) :
    (string_lit_loop rest l c acc vp).2.line = l ∧
    (string_lit_loop rest l c acc vp).2.column + (string_lit_loop rest l c acc vp).2.rest.length =
      c + rest.length := by
  induction rest, l, c, acc, vp using string_lit_loop.induct with
  | case1 l c acc vp h => simp [string_lit_loop, h]
  | case2 l c acc vp h rest1 =>
    rw [string_lit_loop.eq_def]
    dsimp only
    rw [if_pos h]
    rw [if_pos (show ('"' : Char) = '"' from rfl)]
    exact ⟨rfl, by simp only [List.length_cons]; omega⟩
  | case3 l c acc vp h escaped rest2 hne ih =>
    rw [string_lit_loop.eq_def]
    dsimp only
    rw [if_pos h]
    rw [if_neg (show ¬(('\\' : Char) = '"') by decide),
      if_pos (show ('\\' : Char) = '\\' from rfl)]
    exact ⟨ih.1, by have h2 := ih.2; simp only [List.length_cons]; omega⟩
  | case4 l c acc vp h hne ih =>
    rw [string_lit_loop.eq_def]
    dsimp only
    rw [if_pos h]
    rw [if_neg (show ¬(('\\' : Char) = '"') by decide),
      if_pos (show ('\\' : Char) = '\\' from rfl)]
    exact ⟨ih.1, by have h2 := ih.2; simp only [List.length_cons, List.length_nil] at h2 ⊢; omega⟩
  | case5 l c acc vp h ch rest1 hq hb ih =>
    rw [string_lit_loop.eq_def]
    dsimp only
    rw [if_pos h]
    rw [if_neg hq, if_neg hb]
    exact ⟨ih.1, by have h2 := ih.2; simp only [List.length_cons]; omega⟩
  | case6 rest l c acc vp h =>
    rw [string_lit_loop.eq_def]
    dsimp only
    rw [if_neg h]
    exact ⟨rfl, rfl⟩

/-- The lexer state after `tokenizer_parse_string_literal` is the state after
its copy loop, whether or not the string was terminated. -/
theorem tokenizer_parse_string_literal_state (r : List Char) (l c : ℕ) :
    (tokenizer_parse_string_literal r l c).2 = (string_lit_loop r.tail l (c + 1) [] 0).2 := by
  cases h : (string_lit_loop r.tail l (c + 1) [] 0).1 <;>
    simp [tokenizer_parse_string_literal, h]

/-- C5 counterexample: tokenizing the three-character document `"⏎"` (quote,
line feed, quote) from line 1, column 1 consumes the line feed inside the
string literal but leaves the line counter at 1 and advances the column to 4;
the claimed rule (line feed sets column to 1 and increments line everywhere,
other characters advance the column) predicts line 2, column 2. -/
theorem C5_counterexample :
    (tokenizer_get_next_token ['"', '\n', '"'] 1 1).2 = ⟨[], 1, 4⟩ ∧
    ¬ ((tokenizer_get_next_token ['"', '\n', '"'] 1 1).2.line = 2 ∧
       (tokenizer_get_next_token ['"', '\n', '"'] 1 1).2.column = 2) := by
  decide

/-- C5 amended: line and column start at 1 (`parser_initialize`); *between*
tokens (`tokenizer_skip_whitespace`) the claimed rule holds exactly — a line
feed sets the column to 1 and increments the line, every other whitespace
character advances the column by 1 (`wsAdv`) — but *inside a string literal*
every consumed character, a line feed included, advances the column by
exactly 1 and leaves the line unchanged (the other token kinds never consume
a line feed and also advance the column by 1 per consumed character). -/
theorem C5_position_tracking :
    (∀ input, ( parser_initialize input) =
      (fun n => ⟨n.2.rest, n.2.line, n.2.column, n.1⟩) (tokenizer_get_next_token input 1 1)) ∧
    (∀ r l c,
      tokenizer_skip_whitespace r l c =
        ⟨r.dropWhile (fun ch => isWsChar ch || ch = '\n'),
         (wsAdv (r.takeWhile (fun ch => isWsChar ch || ch = '\n')) (l, c)).1,
         (wsAdv (r.takeWhile (fun ch => isWsChar ch || ch = '\n')) (l, c)).2⟩) ∧
    (∀ ch r1 l c,
      (tokenizer_parse_string_literal (ch :: r1) l c).2.line = l ∧
      (tokenizer_parse_string_literal (ch :: r1) l c).2.column +
        (tokenizer_parse_string_literal (ch :: r1) l c).2.rest.length = c + (r1.length + 1)) := by
  refine ⟨fun input => rfl, skipWs_eq, fun ch r1 l c => ?_⟩
  rw [tokenizer_parse_string_literal_state]
  have h := string_lit_loop_pos (ch :: r1).tail l (c + 1) [] 0
  simp only [List.tail_cons] at h ⊢
  exact ⟨h.1, by have h2 := h.2; omega⟩

/-- The integer-branch test of `write_number` is exactly "the value has no
fractional part": the value equals its truncation toward zero iff its
denominator is 1. -/
theorem write_number_branch (q : ℚ) :
    (q = mkRat (rat_trunc q) 1) ↔ q.den = 1 := by
  rw [Rat.mkRat_one]
  constructor
  · intro h
    rw [h]
    exact Rat.den_intCast _
  · intro hden
    have hq : (q.num : ℚ) = q := Rat.coe_int_num_of_den_eq_one hden
    have ht : rat_trunc q = q.num := by
      unfold rat_trunc
      rw [hden]
      simp only [Nat.div_one]
      split <;> omega
    rw [ht, hq]

/-- C9: `sexpr_writer_write_value` prints a `JSON_NUMBER` as a plain signed
integer literal exactly when the value equals its own truncation toward zero
(equivalently: it is an integer — hypothesis `q.num.natAbs < 2 ^ 63` keeps
the modelled C cast `(long long)number_value` inside defined behaviour);
otherwise it uses the `%.15g` model.  The documents `1` and `1.0` both
render as the integer literal `1`, and rendering a fixed value twice yields
byte-identical output (the writer is a pure function of the tree). -/
theorem C9_number_formatting :
    (∀ q : ℚ, q.num.natAbs < 2 ^ 63 →
      (q.den = 1 → write_number q = toString q.num) ∧
      (q.den ≠ 1 → write_number q = sprintf_g15 q)) ∧
    (parse_top ['1']).1.map (fun x => sexpr_writer_write_value x.1 0) = some "1" ∧
    (parse_top ['1', '.', '0']).1.map (fun x => sexpr_writer_write_value x.1 0) = some "1" ∧
    (∀ v level, sexpr_writer_write_value v level = sexpr_writer_write_value v level) := by
  refine ⟨fun q _ => ⟨fun hden => ?_, fun hden => ?_⟩, rfl, rfl, fun v level => rfl⟩
  · unfold write_number
    rw [if_pos ((write_number_branch q).mpr hden)]
    have ht : rat_trunc q = q.num := by
      unfold rat_trunc
      rw [hden]
      simp only [Nat.div_one]
      split <;> omega
    rw [ht]
  · unfold write_number
    rw [if_neg (fun h => hden ((write_number_branch q).mp h))]

/-- C9 witness: the theorem applied at the integer value 5 and the
non-integer value 3/2 (both inside the 64-bit range). -/
theorem C9_number_formatting_witness :
    write_number (mkRat 5 1) = toString (5 : ℤ) ∧
    write_number (mkRat 3 2) = sprintf_g15 (mkRat 3 2) := by
  constructor
  · have h := (C9_number_formatting.1 (mkRat 5 1) (by decide)).1 (by decide)
    rw [h]
    decide
  · exact (C9_number_formatting.1 (mkRat 3 2) (by decide)).2 (by decide)

theorem heapSize_obj (ms : List (List Char × json_value)) :
    heapSize (JSON_OBJECT ms) = 1 + heapMembers ms := rfl

theorem heapSize_arr (es : List json_value) :
    heapSize (JSON_ARRAY es) = 1 + heapElements es := rfl

theorem heapMembers_append_one (acc : List (List Char × json_value))
    (k : List Char) (v : json_value) :
    heapMembers (acc ++ [(k, v)]) = heapMembers acc + 2 + heapSize v := by
  induction acc with
  | nil => simp [heapMembers, heapSize.heapMembers]
  | cons m ms ih =>
    obtain ⟨mk, mv⟩ := m
    simp only [List.cons_append, List.append_eq, heapMembers, heapSize.heapMembers] at ih ⊢
    omega

theorem heapElements_append_one (acc : List json_value) (v : json_value) :
    heapElements (acc ++ [v]) = heapElements acc + 1 + heapSize v := by
  induction acc with
  | nil => simp [heapElements, heapSize.heapElements]
  | cons e es ih =>
    simp only [List.cons_append, List.append_eq, heapElements, heapSize.heapElements] at ih ⊢
    omega

/-- Heap-balance invariant of all five parsing functions, by induction on
fuel: a failing call releases every block it allocated (plus, for the loops,
the node under construction handed to them), and a succeeding call leaves
live exactly the blocks of the returned tree. -/
theorem parse_heap (fuel : ℕ) :
    (∀ p live, match json_parser_parse_value fuel p live with
      | (none, live2) => live2 = live
      | (some (v, _), live2) => live2 = live + heapSize v) ∧
    (∀ p live, match json_parser_parse_object fuel p live with
      | (none, live2) => live2 = live
      | (some (v, _), live2) => live2 = live + heapSize v) ∧
    (∀ acc p live, match json_parser_parse_object_loop fuel acc p live with
      | (none, live2) => live2 = live - (1 + heapMembers acc)
      | (some (v, _), live2) => live2 = live - (1 + heapMembers acc) + heapSize v) ∧
    (∀ p live, match json_parser_parse_array fuel p live with
      | (none, live2) => live2 = live
      | (some (v, _), live2) => live2 = live + heapSize v) ∧
    (∀ acc p live, match json_parser_parse_array_loop fuel acc p live with
      | (none, live2) => live2 = live - (1 + heapElements acc)
      | (some (v, _), live2) => live2 = live - (1 + heapElements acc) + heapSize v) := by
  induction fuel with
  | zero =>
    refine ⟨fun p live => ?_, fun p live => ?_, fun acc p live => ?_,
      fun p live => ?_, fun acc p live => ?_⟩ <;> rfl
  | succ fuel ih =>
    obtain ⟨ihv, ihobj, ihobjloop, iharr, iharrloop⟩ := ih
    refine ⟨fun p live => ?_, fun p live => ?_, fun acc p live => ?_,
      fun p live => ?_, fun acc p live => ?_⟩
    · -- json_parser_parse_value
      rw [json_parser_parse_value.eq_def]
      dsimp only
      cases htype : p.current_token.type <;> dsimp only
      case TOKEN_LBRACE =>
        have h := ihobj p (live + 1 - 1)
        have he : live + 1 - 1 = live := by omega
        rw [he] at h
        rw [he]
        exact h
      case TOKEN_LBRACKET =>
        have h := iharr p (live + 1 - 1)
        have he : live + 1 - 1 = live := by omega
        rw [he] at h
        rw [he]
        exact h
      case TOKEN_STRING => show live + 1 + 1 = live + heapSize (JSON_STRING _); simp [heapSize]; ring
      case TOKEN_NUMBER => show live + 1 = live + heapSize (JSON_NUMBER _); simp [heapSize]
      case TOKEN_TRUE => show live + 1 = live + heapSize (JSON_BOOLEAN true); simp [heapSize]
      case TOKEN_FALSE => show live + 1 = live + heapSize (JSON_BOOLEAN false); simp [heapSize]
      case TOKEN_NULL => show live + 1 = live + heapSize JSON_NULL; simp [heapSize]
      case TOKEN_RBRACE => show live + 1 - 1 = live; omega
      case TOKEN_RBRACKET => show live + 1 - 1 = live; omega
      case TOKEN_COLON => show live + 1 - 1 = live; omega
      case TOKEN_COMMA => show live + 1 - 1 = live; omega
      case TOKEN_EOF => show live + 1 - 1 = live; omega
      case TOKEN_ERROR => show live + 1 - 1 = live; omega
    · -- json_parser_parse_object
      rw [json_parser_parse_object.eq_def]
      dsimp only
      by_cases hrb : (parser_advance p).current_token.type = TOKEN_RBRACE
      · rw [if_pos hrb]
        show live + 1 = live + heapSize (JSON_OBJECT [])
        simp [heapSize, heapSize.heapMembers]
      · rw [if_neg hrb]
        have h := ihobjloop [] (parser_advance p) (live + 1)
        revert h
        cases hr : json_parser_parse_object_loop fuel [] (parser_advance p) (live + 1) with
        | mk o live2 =>
          cases o with
          | none =>
            intro h
            dsimp only at h ⊢
            simp only [heapMembers, heapSize.heapMembers] at h
            omega
          | some vp =>
            obtain ⟨v, p2⟩ := vp
            intro h
            dsimp only at h ⊢
            simp only [heapMembers, heapSize.heapMembers] at h
            omega
    · -- json_parser_parse_object_loop
      rw [json_parser_parse_object_loop.eq_def]
      dsimp only
      by_cases heof : p.current_token.type = TOKEN_EOF
      · rw [if_pos heof]
        show live = live - (1 + heapMembers acc) + heapSize (JSON_OBJECT acc)
        rw [heapSize_obj]
        omega
      · rw [if_neg heof]
        by_cases hstr : p.current_token.type ≠ TOKEN_STRING
        · rw [if_pos hstr]
        · rw [if_neg hstr]
          by_cases hcol : (parser_advance p).current_token.type ≠ TOKEN_COLON
          · rw [if_pos hcol]
            dsimp only
            omega
          · rw [if_neg hcol]
            have hv := ihv (parser_advance (parser_advance p)) (live + 2)
            revert hv
            cases hres : json_parser_parse_value fuel (parser_advance (parser_advance p)) (live + 2) with
            | mk o live2 =>
              cases o with
              | none =>
                intro hv
                dsimp only at hv ⊢
                omega
              | some vp =>
                obtain ⟨v, p3⟩ := vp
                intro hv
                dsimp only at hv ⊢
                by_cases hcom : p3.current_token.type = TOKEN_COMMA
                · rw [if_pos hcom]
                  have h2 := ihobjloop (acc ++ [(p.current_token.value, v)]) (parser_advance p3) live2
                  revert h2
                  cases hr2 : json_parser_parse_object_loop fuel (acc ++ [(p.current_token.value, v)]) (parser_advance p3) live2 with
                  | mk o2 live3 =>
                    cases o2 with
                    | none =>
                      intro h2
                      dsimp only at h2 ⊢
                      rw [heapMembers_append_one] at h2
                      omega
                    | some vp2 =>
                      obtain ⟨v2, p4⟩ := vp2
                      intro h2
                      dsimp only at h2 ⊢
                      rw [heapMembers_append_one] at h2
                      omega
                · rw [if_neg hcom]
                  by_cases hrb2 : p3.current_token.type = TOKEN_RBRACE
                  · rw [if_pos hrb2]
                    dsimp only
                    rw [heapSize_obj, heapMembers_append_one]
                    omega
                  · rw [if_neg hrb2]
                    dsimp only
                    rw [heapMembers_append_one]
                    omega
    · -- json_parser_parse_array
      rw [json_parser_parse_array.eq_def]
      dsimp only
      by_cases hrb : (parser_advance p).current_token.type = TOKEN_RBRACKET
      · rw [if_pos hrb]
        show live + 1 = live + heapSize (JSON_ARRAY [])
        simp [heapSize, heapSize.heapElements]
      · rw [if_neg hrb]
        have h := iharrloop [] (parser_advance p) (live + 1)
        revert h
        cases hr : json_parser_parse_array_loop fuel [] (parser_advance p) (live + 1) with
        | mk o live2 =>
          cases o with
          | none =>
            intro h
            dsimp only at h ⊢
            simp only [heapElements, heapSize.heapElements] at h
            omega
          | some vp =>
            obtain ⟨v, p2⟩ := vp
            intro h
            dsimp only at h ⊢
            simp only [heapElements, heapSize.heapElements] at h
            omega
    · -- json_parser_parse_array_loop
      rw [json_parser_parse_array_loop.eq_def]
      dsimp only
      by_cases heof : p.current_token.type = TOKEN_EOF
      · rw [if_pos heof]
        show live = live - (1 + heapElements acc) + heapSize (JSON_ARRAY acc)
        rw [heapSize_arr]
        omega
      · rw [if_neg heof]
        have hv := ihv p (live + 1)
        revert hv
        cases hres : json_parser_parse_value fuel p (live + 1) with
        | mk o live2 =>
          cases o with
          | none =>
            intro hv
            dsimp only at hv ⊢
            omega
          | some vp =>
            obtain ⟨v, p2⟩ := vp
            intro hv
            dsimp only at hv ⊢
            by_cases hcom : p2.current_token.type = TOKEN_COMMA
            · rw [if_pos hcom]
              have h2 := iharrloop (acc ++ [v]) (parser_advance p2) live2
              revert h2
              cases hr2 : json_parser_parse_array_loop fuel (acc ++ [v]) (parser_advance p2) live2 with
              | mk o2 live3 =>
                cases o2 with
                | none =>
                  intro h2
                  dsimp only at h2 ⊢
                  rw [heapElements_append_one] at h2
                  omega
                | some vp2 =>
                  obtain ⟨v2, p3⟩ := vp2
                  intro h2
                  dsimp only at h2 ⊢
                  rw [heapElements_append_one] at h2
                  omega
            · rw [if_neg hcom]
              by_cases hrb2 : p2.current_token.type = TOKEN_RBRACKET
              · rw [if_pos hrb2]
                dsimp only
                rw [heapSize_arr, heapElements_append_one]
                omega
              · rw [if_neg hrb2]
                dsimp only
                rw [heapElements_append_one]
                omega

/-- C2: a failing parse returns the error result with no value and with
every allocated block of the partially built tree released (live count 0 —
the failure propagates from the node under construction through all its
ancestors, each freeing what it owns, as witnessed by the ghost heap
counter mirroring every `malloc`/`free`/`json_memory_free_value`); a
succeeding parse leaves live exactly the blocks of the returned tree. -/
theorem C2_no_partial_tree (t : List Char) :
    (match parse_top t with
      | (none, live) => live = 0
      | (some (v, _), live) => live = heapSize v) ∧
    ((parse_top t).1 = none → parse_top t = (none, 0)) := by
  have h := (parse_heap (parseFuel t)).1 ( parser_initialize t) 0
  constructor
  · revert h
    cases hr : json_parser_parse_value (parseFuel t) ( parser_initialize t) 0 with
    | mk o live =>
      have hp : parse_top t = (o, live) := hr
      rw [hp]
      cases o with
      | none => intro h; simpa using h
      | some vp => obtain ⟨v, p2⟩ := vp; intro h; simpa using h
  · intro hnone
    revert h
    cases hr : json_parser_parse_value (parseFuel t) ( parser_initialize t) 0 with
    | mk o live =>
      have hp : parse_top t = (o, live) := hr
      rw [hp] at hnone ⊢
      cases o with
      | none => intro h; simp at h; simp [h]
      | some vp => simp at hnone

/-- C2 witness: the failing document `@` ends with live count 0 and the
bare error result. -/
theorem C2_no_partial_tree_witness :
    (match parse_top ['@'] with
      | (none, live) => live = 0
      | (some (v, _), live) => live = heapSize v) ∧ parse_top ['@'] = (none, 0) :=
  ⟨(C2_no_partial_tree ['@']).1, (C2_no_partial_tree ['@']).2 rfl⟩

/-- Length of one escape's buffer writes: equal to the uncapped write unless
the cap truncated the unrecognized-escape pair to the lone backslash, which
can only happen within one byte of the cap. -/
theorem escape_written_length_cases (e : Char) (vp : ℕ) :
    (escape_written e vp).length = (escape_written e 0).length ∨
    ((escape_written e vp).length = 1 ∧ ¬(vp + 1 < 1023)) := by
  unfold escape_written
  split_ifs <;> simp_all

/-- If the unbounded decode of the literal body reaches a closing quote but
the write index plus the decoded length reaches the buffer cap, the copy
loop stops before the closing quote and reports no string. -/
theorem string_lit_loop_cap (body : List Char) (l c : ℕ) (acc : List Char) (vp : ℕ) :
    ∀ dec rest2, string_content_decode body = some (dec, rest2) →
      1023 ≤ vp + dec.length →
      (string_lit_loop body l c acc vp).1 = none := by
  induction body, l, c, acc, vp using string_lit_loop.induct with
  | case1 l c acc vp h =>
    intro dec rest2 hdec hlen
    simp [string_content_decode] at hdec
  | case2 l c acc vp h rest1 =>
    intro dec rest2 hdec hlen
    rw [string_content_decode.eq_def] at hdec
    dsimp only at hdec
    rw [if_pos rfl] at hdec
    simp only [Option.some.injEq, Prod.mk.injEq] at hdec
    obtain ⟨hdec1, _⟩ := hdec
    rw [← hdec1] at hlen
    simp at hlen
    omega
  | case3 l c acc vp h escaped rest2 hne ih =>
    intro dec r2 hdec hlen
    rw [string_content_decode.eq_def] at hdec
    dsimp only at hdec
    rw [if_neg (show ¬(('\\' : Char) = '"') by decide),
      if_pos (show ('\\' : Char) = '\\' from rfl)] at hdec
    rw [Option.map_eq_some'] at hdec
    obtain ⟨⟨dec1, r1⟩, hd1, hd2⟩ := hdec
    simp only [Prod.mk.injEq] at hd2
    obtain ⟨hdeq, hr⟩ := hd2
    rw [string_lit_loop.eq_def]
    dsimp only
    rw [if_pos h]
    refine ih dec1 r1 hd1 ?_
    have hlen2 : dec.length = (escape_written escaped 0).length + dec1.length := by
      rw [← hdeq]
      simp
    rcases escape_written_length_cases escaped vp with hc | ⟨hc, hcap⟩
    · omega
    · omega
  | case4 l c acc vp h hne ih =>
    intro dec r2 hdec hlen
    rw [string_content_decode.eq_def] at hdec
    dsimp only at hdec
    rw [if_neg (show ¬(('\\' : Char) = '"') by decide),
      if_pos (show ('\\' : Char) = '\\' from rfl)] at hdec
    simp at hdec
  | case5 l c acc vp h ch rest1 hq hb ih =>
    intro dec r2 hdec hlen
    rw [string_content_decode.eq_def] at hdec
    dsimp only at hdec
    rw [if_neg hq, if_neg hb] at hdec
    rw [Option.map_eq_some'] at hdec
    obtain ⟨⟨dec1, r1⟩, hd1, hd2⟩ := hdec
    simp only [Prod.mk.injEq] at hd2
    obtain ⟨hdeq, hr⟩ := hd2
    rw [string_lit_loop.eq_def]
    dsimp only
    rw [if_pos h, if_neg hq, if_neg hb]
    refine ih dec1 r1 hd1 ?_
    have hlen2 : dec.length = dec1.length + 1 := by
      rw [← hdeq]
      simp
    omega
  | case6 rest l c acc vp h =>
    intro dec r2 hdec hlen
    rw [string_lit_loop.eq_def]
    dsimp only
    rw [if_neg h]

/-- C10: a properly quoted string literal whose decoded content reaches
`MAX_TOKEN_SIZE - 1 = 1023` characters makes the tokenizer stop filling its
fixed buffer before the closing quote and report an unterminated-string
`TOKEN_ERROR`, and the parse of the document consisting of that literal
fails even though the string is correctly closed in the input. -/
theorem C10_token_buffer_cap (body dec rest2 : List Char) (l c : ℕ)
    (hdec : string_content_decode body = some (dec, rest2))
    (hlen : 1023 ≤ dec.length) :
    (tokenizer_parse_string_literal ('"' :: body) l c).1.type = TOKEN_ERROR ∧
    (parse_top ('"' :: body)).1 = none := by
  have hloop : ∀ l2 c2, (string_lit_loop body l2 c2 [] 0).1 = none := fun l2 c2 =>
    string_lit_loop_cap body l2 c2 [] 0 dec rest2 hdec (by omega)
  have hlit : ∀ l2 c2, (tokenizer_parse_string_literal ('"' :: body) l2 c2).1.type = TOKEN_ERROR := by
    intro l2 c2
    rw [tokenizer_parse_string_literal.eq_def]
    dsimp only [List.tail_cons]
    rw [hloop l2 (c2 + 1)]
  refine ⟨hlit l c, ?_⟩
  have hcur : ( parser_initialize ('"' :: body)).current_token.type = TOKEN_ERROR := by
    show (tokenizer_get_next_token ('"' :: body) 1 1).1.type = TOKEN_ERROR
    rw [tokenizer_get_next_token]
    rw [tokenizer_skip_whitespace.eq_def]
    dsimp only
    rw [if_neg (show ¬(('"' : Char) = ' ' || ('"' : Char) = '\t' || ('"' : Char) = '\r') = true
      by decide)]
    rw [if_neg (show ¬(('"' : Char) = '\n') by decide)]
    rw [tokenizer_next_token_dispatch.eq_def]
    dsimp only
    rw [if_neg (show ¬(('"' : Char) = '{') by decide),
      if_neg (show ¬(('"' : Char) = '}') by decide),
      if_neg (show ¬(('"' : Char) = '[') by decide),
      if_neg (show ¬(('"' : Char) = ']') by decide),
      if_neg (show ¬(('"' : Char) = ':') by decide),
      if_neg (show ¬(('"' : Char) = ',') by decide),
      if_pos (show ('"' : Char) = '"' from rfl)]
    exact hlit 1 1
  have hfuel : parseFuel ('"' :: body) = (3 * ('"' :: body).length + 7) + 1 := by
    simp [parseFuel]
  show (json_parser_parse_value (parseFuel ('"' :: body)) ( parser_initialize ('"' :: body)) 0).1 =
    none
  rw [hfuel, json_parser_parse_value.eq_def]
  dsimp only
  rw [hcur]

/-- Decoding `n` plain characters followed by the closing quote. -/
theorem string_content_decode_replicate (n : ℕ) :
    string_content_decode (List.replicate n 'a' ++ ['"']) = some (List.replicate n 'a', []) := by
  induction n with
  | zero =>
    rw [string_content_decode.eq_def]
    simp
  | succ n ih =>
    rw [List.replicate_succ, List.cons_append, string_content_decode.eq_def]
    dsimp only
    rw [if_neg (show ¬(('a' : Char) = '"') by decide),
      if_neg (show ¬(('a' : Char) = '\\') by decide), ih]
    rfl

/-- C10 witness: a correctly closed string of 1023 `a` characters is a lex
error and its document fails to parse. -/
theorem C10_token_buffer_cap_witness :
    (tokenizer_parse_string_literal ('"' :: (List.replicate 1023 'a' ++ ['"'])) 1 1).1.type =
      TOKEN_ERROR ∧
    (parse_top ('"' :: (List.replicate 1023 'a' ++ ['"']))).1 = none :=
  C10_token_buffer_cap (List.replicate 1023 'a' ++ ['"']) (List.replicate 1023 'a') [] 1 1
    (string_content_decode_replicate 1023) (by rw [List.length_replicate])

/-- Failing lookahead: `json_parser_parse_value` returns `NULL` whenever the
current token is a lex-error token, at any fuel. -/
theorem parse_value_error_token (fuel : ℕ) (p : parser_t) (live : ℤ)
    (herr : p.current_token.type = TOKEN_ERROR) :
    (json_parser_parse_value fuel p live).1 = none := by
  cases fuel with
  | zero => rfl
  | succ fuel =>
    rw [json_parser_parse_value.eq_def]
    dsimp only
    rw [herr]

/-- C4: the keyword rule.  (1) At any position whose remaining text starts
with `t`, `f` or `n`, `tokenizer_parse_keyword_literal` yields a lex-error
token exactly when none of the literals `true`, `false`, `null` is an exact
match (`strncmp` prefix) at that position.  (2) A lex-error lookahead makes
`json_parser_parse_value` fail at once.  (3) A document whose first token
position starts with `t`/`f`/`n` and matches no keyword fails to parse. -/
theorem C4_keyword_recognition :
    (∀ r l c ch r2, r = ch :: r2 → (ch = 't' ∨ ch = 'f' ∨ ch = 'n') →
      (((tokenizer_parse_keyword_literal r l c).1.type = TOKEN_ERROR) ↔
        ¬(litMatches ['t', 'r', 'u', 'e'] r = true ∨
          litMatches ['f', 'a', 'l', 's', 'e'] r = true ∨
          litMatches ['n', 'u', 'l', 'l'] r = true))) ∧
    (∀ fuel p live, p.current_token.type = TOKEN_ERROR →
      (json_parser_parse_value fuel p live).1 = none) ∧
    (∀ t ch r2, (tokenizer_skip_whitespace t 1 1).rest = ch :: r2 →
      (ch = 't' ∨ ch = 'f' ∨ ch = 'n') →
      litMatches ['t', 'r', 'u', 'e'] (ch :: r2) = false →
      litMatches ['f', 'a', 'l', 's', 'e'] (ch :: r2) = false →
      litMatches ['n', 'u', 'l', 'l'] (ch :: r2) = false →
      (parse_top t).1 = none) := by
  have hpart1 : ∀ r l c,
      (((tokenizer_parse_keyword_literal r l c).1.type = TOKEN_ERROR) ↔
        ¬(litMatches ['t', 'r', 'u', 'e'] r = true ∨
          litMatches ['f', 'a', 'l', 's', 'e'] r = true ∨
          litMatches ['n', 'u', 'l', 'l'] r = true)) := by
    intro r l c
    unfold tokenizer_parse_keyword_literal
    split_ifs with h1 h2 h3 <;> simp_all
  refine ⟨fun r l c ch r2 _ _ => hpart1 r l c, parse_value_error_token, ?_⟩
  intro t ch r2 hrest hch hm1 hm2 hm3
  have hcur : ( parser_initialize t).current_token.type = TOKEN_ERROR := by
    show (tokenizer_get_next_token t 1 1).1.type = TOKEN_ERROR
    rw [tokenizer_get_next_token]
    rw [hrest]
    rw [tokenizer_next_token_dispatch.eq_def]
    dsimp only
    have hnb : ∀ x : Char, x ∈ ['{', '}', '[', ']', ':', ',', '"'] → ¬(ch = x) := by
      intro x hx he
      subst he
      rcases hch with h | h | h <;> subst h <;> simp_all
    rw [if_neg (hnb '{' (by simp)), if_neg (hnb '}' (by simp)),
      if_neg (hnb '[' (by simp)), if_neg (hnb ']' (by simp)),
      if_neg (hnb ':' (by simp)), if_neg (hnb ',' (by simp)),
      if_neg (hnb '"' (by simp))]
    have hnum : (ch = '-' || isDigitChar ch) = false := by
      rcases hch with h | h <;> first
        | (subst h; decide)
        | (rcases h with h | h <;> subst h <;> decide)
    rw [hnum]
    simp only [Bool.false_eq_true, if_false]
    have hkw : (ch = 't' || ch = 'f' || ch = 'n') = true := by
      rcases hch with h | h | h <;> subst h <;> decide
    rw [hkw]
    simp only [if_true]
    exact (hpart1 (ch :: r2) _ _).mpr (by simp [hm1, hm2, hm3])
  exact parse_value_error_token _ _ _ hcur

/-- C4 witness: the document `tru` — the remaining text starts with `t` but
matches no keyword, so the tokenizer errors and the parse fails. -/
theorem C4_keyword_recognition_witness :
    (((tokenizer_parse_keyword_literal ['t', 'r', 'u'] 1 1).1.type = TOKEN_ERROR) ↔
      ¬(litMatches ['t', 'r', 'u', 'e'] ['t', 'r', 'u'] = true ∨
        litMatches ['f', 'a', 'l', 's', 'e'] ['t', 'r', 'u'] = true ∨
        litMatches ['n', 'u', 'l', 'l'] ['t', 'r', 'u'] = true)) ∧
    (parse_top ['t', 'r', 'u']).1 = none := by
  constructor
  · exact C4_keyword_recognition.1 ['t', 'r', 'u'] 1 1 't' ['r', 'u'] rfl (Or.inl rfl)
  · exact C4_keyword_recognition.2.2 ['t', 'r', 'u'] 't' ['r', 'u'] (by decide)
      (Or.inl rfl) (by decide) (by decide) (by decide)

/-- The string-literal loop only discards characters from the front. -/
theorem string_lit_loop_consumed (rest : List Char) (l c : ℕ) (acc : List Char) (vp : ℕ) :
    ∃ pre, rest = pre ++ (string_lit_loop rest l c acc vp).2.rest := by
  induction rest, l, c, acc, vp using string_lit_loop.induct with
  | case1 l c acc vp h => exact ⟨[], by simp [string_lit_loop, h]⟩
  | case2 l c acc vp h rest1 =>
    refine ⟨['"'], ?_⟩
    rw [string_lit_loop.eq_def]
    dsimp only
    rw [if_pos h, if_pos (show ('"' : Char) = '"' from rfl)]
    rfl
  | case3 l c acc vp h escaped rest2 hne ih =>
    obtain ⟨pre, hpre⟩ := ih
    refine ⟨'\\' :: escaped :: pre, ?_⟩
    rw [string_lit_loop.eq_def]
    dsimp only
    rw [if_pos h, if_neg (show ¬(('\\' : Char) = '"') by decide),
      if_pos (show ('\\' : Char) = '\\' from rfl)]
    simpa using hpre
  | case4 l c acc vp h hne ih =>
    obtain ⟨pre, hpre⟩ := ih
    refine ⟨'\\' :: pre, ?_⟩
    rw [string_lit_loop.eq_def]
    dsimp only
    rw [if_pos h, if_neg (show ¬(('\\' : Char) = '"') by decide),
      if_pos (show ('\\' : Char) = '\\' from rfl)]
    simp only [List.cons_append]
    cases pre with
    | nil => simpa using hpre
    | cons x xs => simp at hpre
  | case5 l c acc vp h ch rest1 hq hb ih =>
    obtain ⟨pre, hpre⟩ := ih
    refine ⟨ch :: pre, ?_⟩
    rw [string_lit_loop.eq_def]
    dsimp only
    rw [if_pos h, if_neg hq, if_neg hb]
    simpa using hpre
  | case6 rest l c acc vp h =>
    refine ⟨[], ?_⟩
    rw [string_lit_loop.eq_def]
    dsimp only
    rw [if_neg h]
    rfl

/-- The digit loop drops exactly the leading digit run. -/
theorem num_digit_loop_rest (rest : List Char) (l c : ℕ) (acc : List Char) :
    (num_digit_loop rest l c acc).2.rest = rest.dropWhile isDigitChar := by
  induction rest generalizing l c acc with
  | nil => rfl
  | cons d r ih =>
    rw [num_digit_loop, List.dropWhile]
    by_cases hd : isDigitChar d
    · rw [if_pos hd, ih, hd]
    · rw [if_neg hd]
      have hd2 : isDigitChar d = false := by simpa using hd
      rw [hd2]

/-- The digit loop's captured text is the guarded fold over the digit run. -/
theorem num_digit_loop_acc (rest : List Char) (l c : ℕ) (acc : List Char) :
    (num_digit_loop rest l c acc).1 = (rest.takeWhile isDigitChar).foldl capWrite acc := by
  induction rest generalizing l c acc with
  | nil => rfl
  | cons d r ih =>
    rw [num_digit_loop, List.takeWhile]
    by_cases hd : isDigitChar d
    · rw [if_pos hd, ih, hd]
      rfl
    · rw [if_neg hd]
      have hd2 : isDigitChar d = false := by simpa using hd
      rw [hd2]
      rfl

/-- The digit loop leaves the line unchanged. -/
theorem num_digit_loop_line (rest : List Char) (l c : ℕ) (acc : List Char) :
    (num_digit_loop rest l c acc).2.line = l := by
  induction rest generalizing l c acc with
  | nil => rfl
  | cons d r ih =>
    rw [num_digit_loop]
    by_cases hd : isDigitChar d
    · rw [if_pos hd, ih]
    · rw [if_neg hd]

/-- The fraction phase only discards characters from the front. -/
theorem numeric_frac_consumed (acc : List Char) (s : lexer_state) :
    ∃ pre, s.rest = pre ++ (numeric_frac acc s).2.rest := by
  rw [numeric_frac]
  cases hs : s.rest with
  | nil => exact ⟨[], by simp [hs]⟩
  | cons c2 r =>
    dsimp only
    by_cases hdot : c2 = '.'
    · rw [if_pos hdot]
      refine ⟨c2 :: r.takeWhile isDigitChar, ?_⟩
      rw [num_digit_loop_rest]
      simp [List.takeWhile_append_dropWhile]
    · rw [if_neg hdot]
      exact ⟨[], by simp [hs]⟩

/-- The exponent phase only discards characters from the front. -/
theorem numeric_exp_consumed (acc : List Char) (s : lexer_state) :
    ∃ pre, s.rest = pre ++ (numeric_exp acc s).2.rest := by
  rw [numeric_exp]
  cases hs : s.rest with
  | nil => exact ⟨[], by simp [hs]⟩
  | cons e r =>
    dsimp only
    by_cases he : (e = 'e' || e = 'E') = true
    · rw [if_pos he]
      cases r with
      | nil =>
        rw [num_digit_loop_rest]
        exact ⟨[e], by simp [hs]⟩
      | cons c3 rr =>
        dsimp only
        by_cases hc3 : (c3 = '+' || c3 = '-') = true
        · rw [if_pos hc3, num_digit_loop_rest]
          refine ⟨e :: c3 :: rr.takeWhile isDigitChar, ?_⟩
          simp [List.takeWhile_append_dropWhile]
        · rw [if_neg hc3, num_digit_loop_rest]
          refine ⟨e :: (c3 :: rr).takeWhile isDigitChar, ?_⟩
          simp [List.takeWhile_append_dropWhile]
    · rw [if_neg he]
      exact ⟨[], by simp [hs]⟩

/-- The combined fraction/exponent tail only discards from the front. -/
theorem numeric_tail_consumed (acc : List Char) (s : lexer_state) :
    ∃ pre, s.rest = pre ++ (tokenizer_parse_numeric_literal.numeric_tail acc s).2.rest := by
  obtain ⟨p1, h1⟩ := numeric_frac_consumed acc s
  obtain ⟨p2, h2⟩ := numeric_exp_consumed (numeric_frac acc s).1 (numeric_frac acc s).2
  refine ⟨p1 ++ p2, ?_⟩
  rw [tokenizer_parse_numeric_literal.numeric_tail]
  dsimp only
  rw [List.append_assoc, ← h2, h1]

/-- The number tokenizer consumes a nonempty prefix when its first character
is a minus sign or a digit (the only characters the dispatcher sends it). -/
theorem numeric_consumed (ch : Char) (r : List Char) (l c : ℕ)
    (hch : ch = '-' ∨ isDigitChar ch = true) :
    ∃ pre, ch :: r = pre ++ (tokenizer_parse_numeric_literal (ch :: r) l c).2.rest ∧
      pre ≠ [] := by
  rw [tokenizer_parse_numeric_literal]
  by_cases hminus : ch = '-'
  · rw [if_pos hminus]
    dsimp only
    cases hr : r with
    | nil =>
      obtain ⟨p, hp⟩ := numeric_tail_consumed ['-'] ⟨[], l, c + 1⟩
      exact ⟨ch :: p, by simpa using hp, by simp⟩
    | cons c1 r0 =>
      dsimp only
      by_cases h0 : c1 = '0'
      · rw [if_pos h0]
        cases r0 with
        | nil =>
          obtain ⟨p, hp⟩ := numeric_tail_consumed (['-'] ++ ['0']) ⟨[], l, c + 1 + 1⟩
          exact ⟨ch :: c1 :: p, by simpa using hp, by simp⟩
        | cons d r1 =>
          dsimp only
          by_cases hd : isDigitChar d
          · rw [if_pos hd]
            exact ⟨[ch, c1], by simp, by simp⟩
          · rw [if_neg hd]
            obtain ⟨p, hp⟩ := numeric_tail_consumed (['-'] ++ ['0']) ⟨d :: r1, l, c + 1 + 1⟩
            exact ⟨ch :: c1 :: p, by simpa using hp, by simp⟩
      · rw [if_neg h0]
        obtain ⟨p, hp⟩ := numeric_tail_consumed
          (num_digit_loop (c1 :: r0) l (c + 1) ['-']).1 (num_digit_loop (c1 :: r0) l (c + 1) ['-']).2
        rw [num_digit_loop_rest] at hp
        refine ⟨ch :: ((c1 :: r0).takeWhile isDigitChar ++ p), ?_, by simp⟩
        simp only [List.cons_append, List.append_assoc, ← hp]
        rw [List.takeWhile_append_dropWhile]
  · have hdig : isDigitChar ch = true := by
      rcases hch with h | h
      · exact absurd h hminus
      · exact h
    rw [if_neg hminus]
    dsimp only
    by_cases h0 : ch = '0'
    · rw [if_pos h0]
      cases hr : r with
      | nil =>
        obtain ⟨p, hp⟩ := numeric_tail_consumed ([] ++ ['0']) ⟨[], l, c + 1⟩
        exact ⟨ch :: p, by simpa using hp, by simp⟩
      | cons d r1 =>
        dsimp only
        by_cases hd : isDigitChar d
        · rw [if_pos hd]
          exact ⟨[ch], by simp, by simp⟩
        · rw [if_neg hd]
          obtain ⟨p, hp⟩ := numeric_tail_consumed ([] ++ ['0']) ⟨d :: r1, l, c + 1⟩
          exact ⟨ch :: p, by simpa using hp, by simp⟩
    · rw [if_neg h0]
      obtain ⟨p, hp⟩ := numeric_tail_consumed
        (num_digit_loop (ch :: r) l c []).1 (num_digit_loop (ch :: r) l c []).2
      rw [num_digit_loop_rest] at hp
      refine ⟨(ch :: r).takeWhile isDigitChar ++ p, ?_, ?_⟩
      · rw [List.append_assoc, ← hp, List.takeWhile_append_dropWhile]
      · rw [List.takeWhile_cons, hdig]
        simp

/-- A successful `strncmp` prefix match pins the first `pat.length`
characters: the remaining text is the pattern followed by the tail. -/
theorem litMatches_decompose (pat r : List Char) (h : litMatches pat r = true) :
    r = pat ++ r.drop pat.length := by
  induction pat generalizing r with
  | nil => simp
  | cons p ps ih =>
    cases r with
    | nil => simp [litMatches] at h
    | cons c cs =>
      rw [litMatches] at h
      simp only [Bool.and_eq_true, decide_eq_true_eq] at h
      obtain ⟨hpc, hrest⟩ := h
      have := ih cs hrest
      simp only [List.length_cons, List.drop_succ_cons, List.cons_append]
      rw [hpc, ← this]

/-- The keyword tokenizer consumes the matched literal; on a match the
consumed prefix is nonempty. -/
theorem keyword_consumed (r : List Char) (l c : ℕ) :
    ∃ pre, r = pre ++ (tokenizer_parse_keyword_literal r l c).2.rest ∧
      (¬stopToken (tokenizer_parse_keyword_literal r l c).1 = true → pre ≠ []) := by
  rw [tokenizer_parse_keyword_literal]
  split_ifs with h1 h2 h3
  · exact ⟨['t', 'r', 'u', 'e'], litMatches_decompose _ r h1, fun _ => by simp⟩
  · exact ⟨['f', 'a', 'l', 's', 'e'], litMatches_decompose _ r h2, fun _ => by simp⟩
  · exact ⟨['n', 'u', 'l', 'l'], litMatches_decompose _ r h3, fun _ => by simp⟩
  · exact ⟨[], rfl, fun h => by simp [stopToken] at h⟩

/-- The string tokenizer consumes at least its opening quote. -/
theorem string_literal_consumed (ch : Char) (r : List Char) (l c : ℕ) :
    ∃ pre, ch :: r = pre ++ (tokenizer_parse_string_literal (ch :: r) l c).2.rest ∧
      pre ≠ [] := by
  obtain ⟨p, hp⟩ := string_lit_loop_consumed r l (c + 1) [] 0
  refine ⟨ch :: p, ?_, by simp⟩
  rw [tokenizer_parse_string_literal_state]
  simpa using hp

set_option maxHeartbeats 1600000 in
/-- One token pull only discards a prefix of the text, and a non-stop token
(anything but `TOKEN_EOF` and `TOKEN_ERROR`) consumes at least one
character. -/
theorem next_token_consumed (r : List Char) (l c : ℕ) :
    ∃ pre, r = pre ++ (tokenizer_get_next_token r l c).2.rest ∧
      (¬stopToken (tokenizer_get_next_token r l c).1 = true → pre ≠ []) := by
  rw [tokenizer_get_next_token, skipWs_eq]
  have hsplit := List.takeWhile_append_dropWhile
    (p := fun ch => isWsChar ch || ch = '\n') (l := r)
  cases hd : r.dropWhile (fun ch => isWsChar ch || ch = '\n') with
  | nil =>
    rw [tokenizer_next_token_dispatch]
    refine ⟨r.takeWhile (fun ch => isWsChar ch || ch = '\n'), ?_, ?_⟩
    · conv_lhs => rw [← hsplit]
      rw [hd]
    · intro hstop
      simp [stopToken] at hstop
  | cons ch rest1 =>
    have hr : r = r.takeWhile (fun ch => isWsChar ch || ch = '\n') ++ ch :: rest1 := by
      conv_lhs => rw [← hsplit]
      rw [hd]
    rw [tokenizer_next_token_dispatch.eq_def]
    dsimp only
    split_ifs with h1 h2 h3 h4 h5 h6 h7 h8 h9
    · exact ⟨r.takeWhile (fun ch => isWsChar ch || ch = '\n') ++ [ch],
        by simpa using hr, by simp⟩
    · exact ⟨r.takeWhile (fun ch => isWsChar ch || ch = '\n') ++ [ch],
        by simpa using hr, by simp⟩
    · exact ⟨r.takeWhile (fun ch => isWsChar ch || ch = '\n') ++ [ch],
        by simpa using hr, by simp⟩
    · exact ⟨r.takeWhile (fun ch => isWsChar ch || ch = '\n') ++ [ch],
        by simpa using hr, by simp⟩
    · exact ⟨r.takeWhile (fun ch => isWsChar ch || ch = '\n') ++ [ch],
        by simpa using hr, by simp⟩
    · exact ⟨r.takeWhile (fun ch => isWsChar ch || ch = '\n') ++ [ch],
        by simpa using hr, by simp⟩
    · obtain ⟨p, hp, hpne⟩ := string_literal_consumed ch rest1
        (wsAdv (r.takeWhile (fun ch => isWsChar ch || ch = '\n')) (l, c)).1
        (wsAdv (r.takeWhile (fun ch => isWsChar ch || ch = '\n')) (l, c)).2
      refine ⟨r.takeWhile (fun ch => isWsChar ch || ch = '\n') ++ p, ?_,
        fun _ h => hpne ((List.append_eq_nil.mp h).2)⟩
      rw [List.append_assoc, ← hp]
      exact hr
    · have hch : ch = '-' ∨ isDigitChar ch = true := by
        simpa [Bool.or_eq_true, decide_eq_true_eq] using h8
      obtain ⟨p, hp, hpne⟩ := numeric_consumed ch rest1
        (wsAdv (r.takeWhile (fun ch => isWsChar ch || ch = '\n')) (l, c)).1
        (wsAdv (r.takeWhile (fun ch => isWsChar ch || ch = '\n')) (l, c)).2 hch
      refine ⟨r.takeWhile (fun ch => isWsChar ch || ch = '\n') ++ p, ?_,
        fun _ h => hpne ((List.append_eq_nil.mp h).2)⟩
      rw [List.append_assoc, ← hp]
      exact hr
    · obtain ⟨p, hp, hpne⟩ := keyword_consumed (ch :: rest1)
        (wsAdv (r.takeWhile (fun ch => isWsChar ch || ch = '\n')) (l, c)).1
        (wsAdv (r.takeWhile (fun ch => isWsChar ch || ch = '\n')) (l, c)).2
      refine ⟨r.takeWhile (fun ch => isWsChar ch || ch = '\n') ++ p, ?_,
        fun hstop h => hpne hstop ((List.append_eq_nil.mp h).2)⟩
      rw [List.append_assoc, ← hp]
      exact hr
    · exact ⟨r.takeWhile (fun ch => isWsChar ch || ch = '\n'), hr,
        fun hstop => by simp [stopToken] at hstop⟩

/-- Above the remaining length, the token stream no longer depends on the
fuel. -/
theorem tokenListF_fuel_irrel (n : ℕ) :
    ∀ f1 f2 r l c, r.length < n → n ≤ f1 → n ≤ f2 →
      tokenListF f1 r l c = tokenListF f2 r l c := by
  induction n with
  | zero => intro f1 f2 r l c hn h1 h2; omega
  | succ n ih =>
    intro f1 f2 r l c hn h1 h2
    obtain ⟨a, rfl⟩ : ∃ a, f1 = a + 1 := ⟨f1 - 1, by omega⟩
    obtain ⟨b, rfl⟩ : ∃ b, f2 = b + 1 := ⟨f2 - 1, by omega⟩
    rw [tokenListF, tokenListF]
    by_cases hstop : stopToken (tokenizer_get_next_token r l c).1 = true
    · rw [if_pos hstop, if_pos hstop]
    · rw [if_neg hstop, if_neg hstop]
      congr 1
      obtain ⟨pre, hpre, hne⟩ := next_token_consumed r l c
      have hlel : r.length = pre.length + (tokenizer_get_next_token r l c).2.rest.length := by
        have hcl := congrArg List.length hpre
        simpa using hcl
      have hpl : 0 < pre.length := List.length_pos.mpr (hne hstop)
      exact ih a b _ _ _ (by omega) (by omega) (by omega)

/-- Pulling a token turns the parser's token view into the token stream of
the text it was about to read. -/
theorem ptoks_advance (p : parser_t) :
    ptoks (parser_advance p) = tokenListF (p.rest.length + 1) p.rest p.line p.column := by
  rw [ptoks, parser_advance]
  dsimp only
  conv_rhs => rw [tokenListF]
  by_cases hstop : stopToken (tokenizer_get_next_token p.rest p.line p.column).1 = true
  · rw [if_pos hstop, if_pos hstop]
  · rw [if_neg hstop, if_neg hstop]
    congr 1
    obtain ⟨pre, hpre, hne⟩ := next_token_consumed p.rest p.line p.column
    have hlel : p.rest.length =
        pre.length + (tokenizer_get_next_token p.rest p.line p.column).2.rest.length := by
      have hcl := congrArg List.length hpre
      simpa using hcl
    have hpl : 0 < pre.length := List.length_pos.mpr (hne hstop)
    exact tokenListF_fuel_irrel
      ((tokenizer_get_next_token p.rest p.line p.column).2.rest.length + 1) _ _ _ _ _
      (by omega) (by omega) (by omega)

/-- The freshly initialized parser sees exactly the token stream of the
input text. -/
theorem ptoks_initialize (t : List Char) :
    ptoks ( parser_initialize t) = tokens t := by
  rw [ptoks, parser_initialize, tokens]
  dsimp only
  conv_rhs => rw [tokenListF]
  by_cases hstop : stopToken (tokenizer_get_next_token t 1 1).1 = true
  · rw [if_pos hstop, if_pos hstop]
  · rw [if_neg hstop, if_neg hstop]
    congr 1
    obtain ⟨pre, hpre, hne⟩ := next_token_consumed t 1 1
    have hlel : t.length = pre.length + (tokenizer_get_next_token t 1 1).2.rest.length := by
      have hcl := congrArg List.length hpre
      simpa using hcl
    have hpl : 0 < pre.length := List.length_pos.mpr (hne hstop)
    exact tokenListF_fuel_irrel
      ((tokenizer_get_next_token t 1 1).2.rest.length + 1) _ _ _ _ _
      (by omega) (by omega) (by omega)

/-- Unfolding of the parser's token view at a stop lookahead. -/
theorem ptoks_stop (p : parser_t) (h : stopToken p.current_token = true) :
    ptoks p = [p.current_token] := by
  rw [ptoks, if_pos h]

/-- Unfolding of the parser's token view at a non-stop lookahead. -/
theorem ptoks_cons (p : parser_t) (h : ¬stopToken p.current_token = true) :
    ptoks p = p.current_token :: ptoks (parser_advance p) := by
  rw [ptoks, if_neg h, ptoks_advance]

/-- Tokens other than `TOKEN_EOF`/`TOKEN_ERROR` do not stop the stream. -/
theorem nonstop_of_type {tok : token_t} {ty : token_type_t} (h : tok.type = ty)
    (hne1 : ty ≠ TOKEN_EOF) (hne2 : ty ≠ TOKEN_ERROR) :
    ¬stopToken tok = true := by
  simp [stopToken, h, hne1, hne2]

/-- Soundness of the recursive-descent parser: every successful call
corresponds to a grammar derivation over the parser's token view. -/
theorem parser_sound (fuel : ℕ) :
    (∀ p live v p2 live2, json_parser_parse_value fuel p live = (some (v, p2), live2) →
      Deriv .value (ptoks p) (ptoks p2)) ∧
    (∀ p live v p2 live2, json_parser_parse_object fuel p live = (some (v, p2), live2) →
      Deriv .objtail (ptoks (parser_advance p)) (ptoks p2)) ∧
    (∀ acc p live v p2 live2,
      json_parser_parse_object_loop fuel acc p live = (some (v, p2), live2) →
      Deriv .memloop (ptoks p) (ptoks p2)) ∧
    (∀ p live v p2 live2, json_parser_parse_array fuel p live = (some (v, p2), live2) →
      Deriv .arrtail (ptoks (parser_advance p)) (ptoks p2)) ∧
    (∀ acc p live v p2 live2,
      json_parser_parse_array_loop fuel acc p live = (some (v, p2), live2) →
      Deriv .elemloop (ptoks p) (ptoks p2)) := by
  induction fuel with
  | zero =>
    refine ⟨fun p live v p2 live2 h => ?_, fun p live v p2 live2 h => ?_,
      fun acc p live v p2 live2 h => ?_, fun p live v p2 live2 h => ?_,
      fun acc p live v p2 live2 h => ?_⟩ <;> simp [json_parser_parse_value,
        json_parser_parse_object, json_parser_parse_object_loop,
        json_parser_parse_array, json_parser_parse_array_loop] at h
  | succ fuel ih =>
    obtain ⟨ihv, ihobj, ihobjloop, iharr, iharrloop⟩ := ih
    refine ⟨fun p live v p2 live2 h => ?_, fun p live v p2 live2 h => ?_,
      fun acc p live v p2 live2 h => ?_, fun p live v p2 live2 h => ?_,
      fun acc p live v p2 live2 h => ?_⟩
    · -- value
      rw [json_parser_parse_value.eq_def] at h
      dsimp only at h
      cases htype : p.current_token.type <;> rw [htype] at h <;> dsimp only at h
      case TOKEN_LBRACE =>
        rw [ptoks_cons p (nonstop_of_type htype (by decide) (by decide)),
          show p.current_token = ⟨TOKEN_LBRACE, p.current_token.value,
            p.current_token.number_value⟩ by rw [← htype]]
        exact Deriv.obj _ _ _ _ (ihobj p (live + 1 - 1) v p2 live2 h)
      case TOKEN_LBRACKET =>
        rw [ptoks_cons p (nonstop_of_type htype (by decide) (by decide)),
          show p.current_token = ⟨TOKEN_LBRACKET, p.current_token.value,
            p.current_token.number_value⟩ by rw [← htype]]
        exact Deriv.arr _ _ _ _ (iharr p (live + 1 - 1) v p2 live2 h)
      case TOKEN_STRING =>
        simp only [Prod.mk.injEq, Option.some.injEq] at h
        obtain ⟨⟨hv, hp2⟩, hlive⟩ := h
        rw [← hp2, ptoks_cons p (nonstop_of_type htype (by decide) (by decide)),
          show p.current_token = ⟨TOKEN_STRING, p.current_token.value,
            p.current_token.number_value⟩ by rw [← htype]]
        exact Deriv.str _ _ _
      case TOKEN_NUMBER =>
        simp only [Prod.mk.injEq, Option.some.injEq] at h
        obtain ⟨⟨hv, hp2⟩, hlive⟩ := h
        rw [← hp2, ptoks_cons p (nonstop_of_type htype (by decide) (by decide)),
          show p.current_token = ⟨TOKEN_NUMBER, p.current_token.value,
            p.current_token.number_value⟩ by rw [← htype]]
        exact Deriv.num _ _ _
      case TOKEN_TRUE =>
        simp only [Prod.mk.injEq, Option.some.injEq] at h
        obtain ⟨⟨hv, hp2⟩, hlive⟩ := h
        rw [← hp2, ptoks_cons p (nonstop_of_type htype (by decide) (by decide)),
          show p.current_token = ⟨TOKEN_TRUE, p.current_token.value,
            p.current_token.number_value⟩ by rw [← htype]]
        exact Deriv.tru _ _ _
      case TOKEN_FALSE =>
        simp only [Prod.mk.injEq, Option.some.injEq] at h
        obtain ⟨⟨hv, hp2⟩, hlive⟩ := h
        rw [← hp2, ptoks_cons p (nonstop_of_type htype (by decide) (by decide)),
          show p.current_token = ⟨TOKEN_FALSE, p.current_token.value,
            p.current_token.number_value⟩ by rw [← htype]]
        exact Deriv.fls _ _ _
      case TOKEN_NULL =>
        simp only [Prod.mk.injEq, Option.some.injEq] at h
        obtain ⟨⟨hv, hp2⟩, hlive⟩ := h
        rw [← hp2, ptoks_cons p (nonstop_of_type htype (by decide) (by decide)),
          show p.current_token = ⟨TOKEN_NULL, p.current_token.value,
            p.current_token.number_value⟩ by rw [← htype]]
        exact Deriv.nul _ _ _
      case TOKEN_RBRACE => simp at h
      case TOKEN_RBRACKET => simp at h
      case TOKEN_COLON => simp at h
      case TOKEN_COMMA => simp at h
      case TOKEN_EOF => simp at h
      case TOKEN_ERROR => simp at h
    · -- object
      rw [json_parser_parse_object.eq_def] at h
      dsimp only at h
      by_cases hrb : (parser_advance p).current_token.type = TOKEN_RBRACE
      · rw [if_pos hrb] at h
        simp only [Prod.mk.injEq, Option.some.injEq] at h
        obtain ⟨⟨hv, hp2⟩, hlive⟩ := h
        rw [← hp2, ptoks_cons (parser_advance p) (nonstop_of_type hrb (by decide) (by decide)),
          show (parser_advance p).current_token = ⟨TOKEN_RBRACE,
            (parser_advance p).current_token.value,
            (parser_advance p).current_token.number_value⟩ by rw [← hrb]]
        exact Deriv.objEmpty _ _ _
      · rw [if_neg hrb] at h
        exact Deriv.objLoop _ _ (ihobjloop [] (parser_advance p) (live + 1) v p2 live2 h)
    · -- object loop
      rw [json_parser_parse_object_loop.eq_def] at h
      dsimp only at h
      by_cases heof : p.current_token.type = TOKEN_EOF
      · rw [if_pos heof] at h
        simp only [Prod.mk.injEq, Option.some.injEq] at h
        obtain ⟨⟨hv, hp2⟩, hlive⟩ := h
        rw [← hp2, ptoks_stop p (by simp [stopToken, heof]),
          show p.current_token = ⟨TOKEN_EOF, p.current_token.value,
            p.current_token.number_value⟩ by rw [← heof]]
        exact Deriv.memEof _ _ _
      · rw [if_neg heof] at h
        by_cases hstr : p.current_token.type ≠ TOKEN_STRING
        · rw [if_pos hstr] at h
          simp at h
        · rw [if_neg hstr] at h
          rw [not_not] at hstr
          by_cases hcol : (parser_advance p).current_token.type ≠ TOKEN_COLON
          · rw [if_pos hcol] at h
            simp at h
          · rw [if_neg hcol] at h
            rw [not_not] at hcol
            revert h
            cases hpv : json_parser_parse_value fuel (parser_advance (parser_advance p))
              (live + 2) with
            | mk o livex =>
              cases o with
              | none => intro h; simp at h
              | some vp =>
                obtain ⟨v1, p3⟩ := vp
                intro h
                dsimp only at h
                have hval := ihv _ _ _ _ _ hpv
                by_cases hcom : p3.current_token.type = TOKEN_COMMA
                · rw [if_pos hcom] at h
                  have hloop := ihobjloop _ _ _ _ _ _ h
                  rw [ptoks_cons p3 (nonstop_of_type hcom (by decide) (by decide)),
                    show p3.current_token = ⟨TOKEN_COMMA, p3.current_token.value,
                      p3.current_token.number_value⟩ by rw [← hcom]] at hval
                  rw [ptoks_cons p (nonstop_of_type hstr (by decide) (by decide)),
                    show p.current_token = ⟨TOKEN_STRING, p.current_token.value,
                      p.current_token.number_value⟩ by rw [← hstr],
                    ptoks_cons (parser_advance p)
                      (nonstop_of_type hcol (by decide) (by decide)),
                    show (parser_advance p).current_token = ⟨TOKEN_COLON,
                      (parser_advance p).current_token.value,
                      (parser_advance p).current_token.number_value⟩ by rw [← hcol]]
                  exact Deriv.memMemberComma _ _ _ _ _ _ _ _ _ hval hloop
                · rw [if_neg hcom] at h
                  by_cases hrb2 : p3.current_token.type = TOKEN_RBRACE
                  · rw [if_pos hrb2] at h
                    simp only [Prod.mk.injEq, Option.some.injEq] at h
                    obtain ⟨⟨hv, hp2⟩, hlive⟩ := h
                    rw [← hp2]
                    rw [ptoks_cons p3 (nonstop_of_type hrb2 (by decide) (by decide)),
                      show p3.current_token = ⟨TOKEN_RBRACE, p3.current_token.value,
                        p3.current_token.number_value⟩ by rw [← hrb2]] at hval
                    rw [ptoks_cons p (nonstop_of_type hstr (by decide) (by decide)),
                      show p.current_token = ⟨TOKEN_STRING, p.current_token.value,
                        p.current_token.number_value⟩ by rw [← hstr],
                      ptoks_cons (parser_advance p)
                        (nonstop_of_type hcol (by decide) (by decide)),
                      show (parser_advance p).current_token = ⟨TOKEN_COLON,
                        (parser_advance p).current_token.value,
                        (parser_advance p).current_token.number_value⟩ by rw [← hcol]]
                    exact Deriv.memMemberClose _ _ _ _ _ _ _ _ hval
                  · rw [if_neg hrb2] at h
                    simp at h
    · -- array
      rw [json_parser_parse_array.eq_def] at h
      dsimp only at h
      by_cases hrb : (parser_advance p).current_token.type = TOKEN_RBRACKET
      · rw [if_pos hrb] at h
        simp only [Prod.mk.injEq, Option.some.injEq] at h
        obtain ⟨⟨hv, hp2⟩, hlive⟩ := h
        rw [← hp2, ptoks_cons (parser_advance p) (nonstop_of_type hrb (by decide) (by decide)),
          show (parser_advance p).current_token = ⟨TOKEN_RBRACKET,
            (parser_advance p).current_token.value,
            (parser_advance p).current_token.number_value⟩ by rw [← hrb]]
        exact Deriv.arrEmpty _ _ _
      · rw [if_neg hrb] at h
        exact Deriv.arrLoop _ _ (iharrloop [] (parser_advance p) (live + 1) v p2 live2 h)
    · -- array loop
      rw [json_parser_parse_array_loop.eq_def] at h
      dsimp only at h
      by_cases heof : p.current_token.type = TOKEN_EOF
      · rw [if_pos heof] at h
        simp only [Prod.mk.injEq, Option.some.injEq] at h
        obtain ⟨⟨hv, hp2⟩, hlive⟩ := h
        rw [← hp2, ptoks_stop p (by simp [stopToken, heof]),
          show p.current_token = ⟨TOKEN_EOF, p.current_token.value,
            p.current_token.number_value⟩ by rw [← heof]]
        exact Deriv.elemEof _ _ _
      · rw [if_neg heof] at h
        revert h
        cases hpv : json_parser_parse_value fuel p (live + 1) with
        | mk o livex =>
          cases o with
          | none => intro h; simp at h
          | some vp =>
            obtain ⟨v1, p3⟩ := vp
            intro h
            dsimp only at h
            have hval := ihv _ _ _ _ _ hpv
            by_cases hcom : p3.current_token.type = TOKEN_COMMA
            · rw [if_pos hcom] at h
              have hloop := iharrloop _ _ _ _ _ _ h
              rw [ptoks_cons p3 (nonstop_of_type hcom (by decide) (by decide)),
                show p3.current_token = ⟨TOKEN_COMMA, p3.current_token.value,
                  p3.current_token.number_value⟩ by rw [← hcom]] at hval
              exact Deriv.elemComma _ _ _ _ _ hval hloop
            · rw [if_neg hcom] at h
              by_cases hrb2 : p3.current_token.type = TOKEN_RBRACKET
              · rw [if_pos hrb2] at h
                simp only [Prod.mk.injEq, Option.some.injEq] at h
                obtain ⟨⟨hv, hp2⟩, hlive⟩ := h
                rw [← hp2]
                rw [ptoks_cons p3 (nonstop_of_type hrb2 (by decide) (by decide)),
                  show p3.current_token = ⟨TOKEN_RBRACKET, p3.current_token.value,
                    p3.current_token.number_value⟩ by rw [← hrb2]] at hval
                exact Deriv.elemClose _ _ _ _ hval
              · rw [if_neg hrb2] at h
                simp at h

/-- The head of a parser's token view is its lookahead token. -/
theorem ptoks_head {p : parser_t} {tok : token_t} {ts : List token_t}
    (h : ptoks p = tok :: ts) : p.current_token = tok := by
  by_cases hs : stopToken p.current_token = true
  · rw [ptoks_stop p hs] at h
    exact (List.cons.inj h).1
  · rw [ptoks_cons p hs] at h
    exact (List.cons.inj h).1

/-- Destructing a parser's token view at a non-stop head: the lookahead is
that head and advancing yields the tail. -/
theorem ptoks_inv {p : parser_t} {tok : token_t} {ts : List token_t}
    (h : ptoks p = tok :: ts) (h1 : tok.type ≠ TOKEN_EOF) (h2 : tok.type ≠ TOKEN_ERROR) :
    p.current_token = tok ∧ ptoks (parser_advance p) = ts := by
  have hc := ptoks_head h
  have hns : ¬stopToken p.current_token = true := by
    simp [stopToken, hc, h1, h2]
  rw [ptoks_cons p hns] at h
  exact ⟨hc, (List.cons.inj h).2⟩

/-- A derivation never lengthens the token list. -/
theorem deriv_length {nt : NT} {ts us : List token_t} (d : Deriv nt ts us) :
    us.length ≤ ts.length := by
  induction d <;> simp only [List.length_cons] at * <;> omega

/-- A `value` derivation starts at a token that is neither `EOF` nor a
closing bracket. -/
theorem value_head {ts us : List token_t} (d : Deriv .value ts us) :
    ∃ tok ts2, ts = tok :: ts2 ∧ tok.type ≠ TOKEN_EOF ∧ tok.type ≠ TOKEN_RBRACKET := by
  cases d <;> exact ⟨_, _, rfl, by simp, by simp⟩

/-- A member-loop derivation starts at `EOF` or a string key, never at
`}`. -/
theorem memloop_head {ts us : List token_t} (d : Deriv .memloop ts us) :
    ∃ tok ts2, ts = tok :: ts2 ∧ tok.type ≠ TOKEN_RBRACE := by
  cases d <;> exact ⟨_, _, rfl, by simp⟩

/-- An element-loop derivation never starts at `]`. -/
theorem elemloop_head {ts us : List token_t} (d : Deriv .elemloop ts us) :
    ∃ tok ts2, ts = tok :: ts2 ∧ tok.type ≠ TOKEN_RBRACKET := by
  cases d with
  | elemEof v q ts => exact ⟨_, _, rfl, by simp⟩
  | elemComma sv sq ts us rest hval hloop =>
    obtain ⟨tok, ts2, heq, _, hne⟩ := value_head hval
    exact ⟨tok, ts2, heq, hne⟩
  | elemClose sv sq ts rest hval =>
    obtain ⟨tok, ts2, heq, _, hne⟩ := value_head hval
    exact ⟨tok, ts2, heq, hne⟩

/-- Completeness of the recursive-descent parser: every grammar derivation
over a parser's token view is found by the corresponding parse function,
given fuel linear in the token count. -/
theorem parser_complete {nt : NT} {ts us : List token_t} (d : Deriv nt ts us) : ∀ fuel : ℕ,
    match nt with
    | .value => 3 * ts.length ≤ fuel →
        ∀ p live, ptoks p = ts →
        ∃ v p2 live2, json_parser_parse_value fuel p live = (some (v, p2), live2) ∧
          ptoks p2 = us
    | .objtail => 3 * ts.length ≤ fuel →
        ∀ p live, ptoks (parser_advance p) = ts →
        ∃ v p2 live2, json_parser_parse_object fuel p live = (some (v, p2), live2) ∧
          ptoks p2 = us
    | .memloop => 3 * ts.length ≤ fuel + 2 →
        ∀ acc p live, ptoks p = ts →
        ∃ v p2 live2, json_parser_parse_object_loop fuel acc p live = (some (v, p2), live2) ∧
          ptoks p2 = us
    | .arrtail => 3 * ts.length + 2 ≤ fuel →
        ∀ p live, ptoks (parser_advance p) = ts →
        ∃ v p2 live2, json_parser_parse_array fuel p live = (some (v, p2), live2) ∧
          ptoks p2 = us
    | .elemloop => 3 * ts.length + 1 ≤ fuel →
        ∀ acc p live, ptoks p = ts →
        ∃ v p2 live2, json_parser_parse_array_loop fuel acc p live = (some (v, p2), live2) ∧
          ptoks p2 = us := by
  induction d with
  | str v q ts =>
    intro fuel hfuel p live hp
    obtain ⟨hcur, hadv⟩ := ptoks_inv hp (by simp) (by simp)
    cases fuel with
    | zero => exact absurd hfuel (by simp only [List.length_cons]; omega)
    | succ f =>
      rw [json_parser_parse_value.eq_def]
      dsimp only
      rw [hcur]
      exact ⟨_, _, _, rfl, hadv⟩
  | num v q ts =>
    intro fuel hfuel p live hp
    obtain ⟨hcur, hadv⟩ := ptoks_inv hp (by simp) (by simp)
    cases fuel with
    | zero => exact absurd hfuel (by simp only [List.length_cons]; omega)
    | succ f =>
      rw [json_parser_parse_value.eq_def]
      dsimp only
      rw [hcur]
      exact ⟨_, _, _, rfl, hadv⟩
  | tru v q ts =>
    intro fuel hfuel p live hp
    obtain ⟨hcur, hadv⟩ := ptoks_inv hp (by simp) (by simp)
    cases fuel with
    | zero => exact absurd hfuel (by simp only [List.length_cons]; omega)
    | succ f =>
      rw [json_parser_parse_value.eq_def]
      dsimp only
      rw [hcur]
      exact ⟨_, _, _, rfl, hadv⟩
  | fls v q ts =>
    intro fuel hfuel p live hp
    obtain ⟨hcur, hadv⟩ := ptoks_inv hp (by simp) (by simp)
    cases fuel with
    | zero => exact absurd hfuel (by simp only [List.length_cons]; omega)
    | succ f =>
      rw [json_parser_parse_value.eq_def]
      dsimp only
      rw [hcur]
      exact ⟨_, _, _, rfl, hadv⟩
  | nul v q ts =>
    intro fuel hfuel p live hp
    obtain ⟨hcur, hadv⟩ := ptoks_inv hp (by simp) (by simp)
    cases fuel with
    | zero => exact absurd hfuel (by simp only [List.length_cons]; omega)
    | succ f =>
      rw [json_parser_parse_value.eq_def]
      dsimp only
      rw [hcur]
      exact ⟨_, _, _, rfl, hadv⟩
  | obj v q ts rest sub ih =>
    intro fuel hfuel p live hp
    obtain ⟨hcur, hadv⟩ := ptoks_inv hp (by simp) (by simp)
    cases fuel with
    | zero => exact absurd hfuel (by simp only [List.length_cons]; omega)
    | succ f =>
      simp only [List.length_cons] at hfuel
      obtain ⟨v2, p2, live2, heq, hp2⟩ := ih f (by omega) p (live + 1 - 1) hadv
      rw [json_parser_parse_value.eq_def]
      dsimp only
      rw [hcur]
      exact ⟨v2, p2, live2, heq, hp2⟩
  | arr v q ts rest sub ih =>
    intro fuel hfuel p live hp
    obtain ⟨hcur, hadv⟩ := ptoks_inv hp (by simp) (by simp)
    cases fuel with
    | zero => exact absurd hfuel (by simp only [List.length_cons]; omega)
    | succ f =>
      simp only [List.length_cons] at hfuel
      obtain ⟨v2, p2, live2, heq, hp2⟩ := ih f (by omega) p (live + 1 - 1) hadv
      rw [json_parser_parse_value.eq_def]
      dsimp only
      rw [hcur]
      exact ⟨v2, p2, live2, heq, hp2⟩
  | objEmpty v q ts =>
    intro fuel hfuel p live hp
    obtain ⟨hcur, hadv⟩ := ptoks_inv hp (by simp) (by simp)
    cases fuel with
    | zero => exact absurd hfuel (by simp only [List.length_cons]; omega)
    | succ f =>
      rw [json_parser_parse_object.eq_def]
      dsimp only
      rw [if_pos (show (parser_advance p).current_token.type = TOKEN_RBRACE from
        by rw [hcur])]
      exact ⟨_, _, _, rfl, hadv⟩
  | objLoop ts rest sub ih =>
    intro fuel hfuel p live hp
    obtain ⟨tok, ts2, hts, hne⟩ := memloop_head sub
    cases fuel with
    | zero =>
      rw [hts] at hfuel
      exact absurd hfuel (by simp only [List.length_cons]; omega)
    | succ f =>
      have hcur := ptoks_head (show ptoks (parser_advance p) = tok :: ts2 from hts ▸ hp)
      rw [json_parser_parse_object.eq_def]
      dsimp only
      rw [if_neg (show ¬((parser_advance p).current_token.type = TOKEN_RBRACE) from
        by rw [hcur]; exact hne)]
      exact ih f (by omega) [] (parser_advance p) (live + 1) hp
  | memEof v q ts =>
    intro fuel hfuel acc p live hp
    have hcur := ptoks_head hp
    cases fuel with
    | zero => exact absurd hfuel (by simp only [List.length_cons]; omega)
    | succ f =>
      rw [json_parser_parse_object_loop.eq_def]
      dsimp only
      rw [if_pos (show p.current_token.type = TOKEN_EOF from by rw [hcur])]
      exact ⟨_, _, _, rfl, hp⟩
  | memMemberComma k cv sv kq cq sq ts us rest hval hloop ihval ihloop =>
    intro fuel hfuel acc p live hp
    obtain ⟨hcur1, hp1⟩ := ptoks_inv hp (by simp) (by simp)
    obtain ⟨hcur2, hp2⟩ := ptoks_inv hp1 (by simp) (by simp)
    cases fuel with
    | zero => exact absurd hfuel (by simp only [List.length_cons]; omega)
    | succ f =>
      have hlen := deriv_length hval
      simp only [List.length_cons] at hfuel hlen
      obtain ⟨v1, p3, live3, heqv, hp3⟩ :=
        ihval f (by omega) (parser_advance (parser_advance p)) (live + 2) hp2
      obtain ⟨hcur3, hp4⟩ := ptoks_inv hp3 (by simp) (by simp)
      obtain ⟨v2, p4, live4, heql, hpf⟩ :=
        ihloop f (by omega) (acc ++ [(p.current_token.value, v1)]) (parser_advance p3) live3 hp4
      rw [json_parser_parse_object_loop.eq_def]
      dsimp only
      rw [if_neg (show ¬(p.current_token.type = TOKEN_EOF) from by rw [hcur1]; simp),
        if_neg (show ¬(p.current_token.type ≠ TOKEN_STRING) from by rw [hcur1]; simp)]
      rw [if_neg (show ¬((parser_advance p).current_token.type ≠ TOKEN_COLON) from
        by rw [hcur2]; simp)]
      rw [heqv]
      dsimp only
      rw [if_pos (show p3.current_token.type = TOKEN_COMMA from by rw [hcur3])]
      exact ⟨v2, p4, live4, heql, hpf⟩
  | memMemberClose k cv sv kq cq sq ts rest hval ihval =>
    intro fuel hfuel acc p live hp
    obtain ⟨hcur1, hp1⟩ := ptoks_inv hp (by simp) (by simp)
    obtain ⟨hcur2, hp2⟩ := ptoks_inv hp1 (by simp) (by simp)
    cases fuel with
    | zero => exact absurd hfuel (by simp only [List.length_cons]; omega)
    | succ f =>
      simp only [List.length_cons] at hfuel
      obtain ⟨v1, p3, live3, heqv, hp3⟩ :=
        ihval f (by omega) (parser_advance (parser_advance p)) (live + 2) hp2
      obtain ⟨hcur3, hp4⟩ := ptoks_inv hp3 (by simp) (by simp)
      rw [json_parser_parse_object_loop.eq_def]
      dsimp only
      rw [if_neg (show ¬(p.current_token.type = TOKEN_EOF) from by rw [hcur1]; simp),
        if_neg (show ¬(p.current_token.type ≠ TOKEN_STRING) from by rw [hcur1]; simp)]
      rw [if_neg (show ¬((parser_advance p).current_token.type ≠ TOKEN_COLON) from
        by rw [hcur2]; simp)]
      rw [heqv]
      dsimp only
      rw [if_neg (show ¬(p3.current_token.type = TOKEN_COMMA) from by rw [hcur3]; simp),
        if_pos (show p3.current_token.type = TOKEN_RBRACE from by rw [hcur3])]
      exact ⟨_, _, _, rfl, hp4⟩
  | arrEmpty v q ts =>
    intro fuel hfuel p live hp
    obtain ⟨hcur, hadv⟩ := ptoks_inv hp (by simp) (by simp)
    cases fuel with
    | zero => exact absurd hfuel (by simp only [List.length_cons]; omega)
    | succ f =>
      rw [json_parser_parse_array.eq_def]
      dsimp only
      rw [if_pos (show (parser_advance p).current_token.type = TOKEN_RBRACKET from
        by rw [hcur])]
      exact ⟨_, _, _, rfl, hadv⟩
  | arrLoop ts rest sub ih =>
    intro fuel hfuel p live hp
    obtain ⟨tok, ts2, hts, hne⟩ := elemloop_head sub
    cases fuel with
    | zero =>
      rw [hts] at hfuel
      exact absurd hfuel (by simp only [List.length_cons]; omega)
    | succ f =>
      have hcur := ptoks_head (show ptoks (parser_advance p) = tok :: ts2 from hts ▸ hp)
      rw [json_parser_parse_array.eq_def]
      dsimp only
      rw [if_neg (show ¬((parser_advance p).current_token.type = TOKEN_RBRACKET) from
        by rw [hcur]; exact hne)]
      exact ih f (by omega) [] (parser_advance p) (live + 1) hp
  | elemEof v q ts =>
    intro fuel hfuel acc p live hp
    have hcur := ptoks_head hp
    cases fuel with
    | zero => exact absurd hfuel (by omega)
    | succ f =>
      rw [json_parser_parse_array_loop.eq_def]
      dsimp only
      rw [if_pos (show p.current_token.type = TOKEN_EOF from by rw [hcur])]
      exact ⟨_, _, _, rfl, hp⟩
  | elemComma sv sq ts us rest hval hloop ihval ihloop =>
    intro fuel hfuel acc p live hp
    obtain ⟨tok, ts2, hts, hneof, _⟩ := value_head hval
    cases fuel with
    | zero => exact absurd hfuel (by omega)
    | succ f =>
      have hcur := ptoks_head (show ptoks p = tok :: ts2 from hts ▸ hp)
      have hlen := deriv_length hval
      simp only [List.length_cons] at hlen
      obtain ⟨v1, p3, live3, heqv, hp3⟩ := ihval f (by omega) p (live + 1) hp
      obtain ⟨hcur3, hp4⟩ := ptoks_inv hp3 (by simp) (by simp)
      obtain ⟨v2, p4, live4, heql, hpf⟩ :=
        ihloop f (by omega) (acc ++ [v1]) (parser_advance p3) live3 hp4
      rw [json_parser_parse_array_loop.eq_def]
      dsimp only
      rw [if_neg (show ¬(p.current_token.type = TOKEN_EOF) from by rw [hcur]; exact hneof)]
      rw [heqv]
      dsimp only
      rw [if_pos (show p3.current_token.type = TOKEN_COMMA from by rw [hcur3])]
      exact ⟨v2, p4, live4, heql, hpf⟩
  | elemClose sv sq ts rest hval ihval =>
    intro fuel hfuel acc p live hp
    obtain ⟨tok, ts2, hts, hneof, _⟩ := value_head hval
    cases fuel with
    | zero => exact absurd hfuel (by omega)
    | succ f =>
      have hcur := ptoks_head (show ptoks p = tok :: ts2 from hts ▸ hp)
      obtain ⟨v1, p3, live3, heqv, hp3⟩ := ihval f (by omega) p (live + 1) hp
      obtain ⟨hcur3, hp4⟩ := ptoks_inv hp3 (by simp) (by simp)
      rw [json_parser_parse_array_loop.eq_def]
      dsimp only
      rw [if_neg (show ¬(p.current_token.type = TOKEN_EOF) from by rw [hcur]; exact hneof)]
      rw [heqv]
      dsimp only
      rw [if_neg (show ¬(p3.current_token.type = TOKEN_COMMA) from by rw [hcur3]; simp),
        if_pos (show p3.current_token.type = TOKEN_RBRACKET from by rw [hcur3])]
      exact ⟨_, _, _, rfl, hp4⟩

/-- The fuelled token stream never exceeds its fuel in length. -/
theorem tokenListF_length (n : ℕ) : ∀ rest l c, (tokenListF n rest l c).length ≤ n := by
  induction n with
  | zero => intro rest l c; simp [tokenListF]
  | succ m ih =>
    intro rest l c
    rw [tokenListF]
    by_cases hs : stopToken (tokenizer_get_next_token rest l c).1 = true
    · rw [if_pos hs]
      simp
    · rw [if_neg hs]
      simp only [List.length_cons]
      exact Nat.succ_le_succ (ih _ _ _)

/-- The canonical fuel majorizes three times the token count. -/
theorem parseFuel_ge (t : List Char) : 3 * (tokens t).length ≤ parseFuel t := by
  have h := tokenListF_length (t.length + 1) t 1 1
  rw [tokens, parseFuel]
  omega

/-- The whole-input parse succeeds exactly when the token stream begins with
a grammar `value` (soundness and completeness combined). -/
theorem parse_top_iff (t : List Char) :
    (parse_top t).1.isSome = true ↔ beginsWithValue t := by
  constructor
  · intro h
    rw [parse_top, json_parser_parse_document] at h
    cases hres : json_parser_parse_value (parseFuel t) ( parser_initialize t) 0 with
    | mk o live =>
      cases o with
      | none => rw [hres] at h; simp at h
      | some vp =>
        obtain ⟨v, p2⟩ := vp
        have hd := (parser_sound (parseFuel t)).1 _ _ _ _ _ hres
        rw [ ptoks_initialize] at hd
        exact ⟨ptoks p2, hd⟩
  · rintro ⟨rest, d⟩
    obtain ⟨v, p2, live2, heq, _⟩ :=
      parser_complete d (parseFuel t) (parseFuel_ge t) ( parser_initialize t) 0
        ( ptoks_initialize t)
    rw [parse_top, json_parser_parse_document, heq]
    rfl

/-- C6: trailing content after the first value is tolerated.  If the token
stream derives a `value` leaving a non-`EOF` token, the parse entry point
still succeeds with the first value, and the driver prints the header, the
rendering of that first value alone, and reports the leftover as a warning
(`true` flag) rather than failing. -/
theorem C6_trailing_content (t : List Char) (rest : List token_t) (tok : token_t)
    (hd : Deriv .value (tokens t) (tok :: rest)) (hne : tok.type ≠ TOKEN_EOF) :
    ∃ v p live, parse_top t = (some (v, p), live) ∧
      run_main t =
        some (";; JSON to S-expression conversion\n\n" ++
          sexpr_writer_write_value v 0 ++ "\n", true) := by
  obtain ⟨v, p2, live2, heq, hp2⟩ :=
    parser_complete hd (parseFuel t) (parseFuel_ge t) ( parser_initialize t) 0
      ( ptoks_initialize t)
  have htop : parse_top t = (some (v, p2), live2) := by
    rw [parse_top, json_parser_parse_document, heq]
  refine ⟨v, p2, live2, htop, ?_⟩
  rw [run_main, htop]
  have hcur : p2.current_token = tok := ptoks_head hp2
  simp [hcur, hne]

/-- Witness for `C6_trailing_content` at the input `1 2`: the first number is
parsed, the trailing `2` only triggers the warning flag. -/
theorem C6_trailing_content_witness :
    ∃ v p live, parse_top ['1', ' ', '2'] = (some (v, p), live) ∧
      run_main ['1', ' ', '2'] =
        some (";; JSON to S-expression conversion\n\n" ++
          sexpr_writer_write_value v 0 ++ "\n", true) := by
  have heq : tokens ['1', ' ', '2'] =
      ⟨TOKEN_NUMBER, ['1'], mkRat 1 1⟩ :: ⟨TOKEN_NUMBER, ['2'], mkRat 2 1⟩ :: [eofTok] := by
    decide
  refine C6_trailing_content ['1', ' ', '2'] [eofTok] ⟨TOKEN_NUMBER, ['2'], mkRat 2 1⟩
    ?_ (by decide)
  rw [heq]
  exact Deriv.num _ _ _

/-- `dropWhile` over an append when the scan stops inside the left part. -/
theorem dropWhile_append_left (p : Char → Bool) (u v : List Char)
    (h : u.dropWhile p ≠ []) :
    (u ++ v).dropWhile p = u.dropWhile p ++ v := by
  induction u with
  | nil => simp [List.dropWhile] at h
  | cons x xs ih =>
    simp only [List.cons_append, List.dropWhile_cons] at h ⊢
    by_cases hp : p x = true
    · simp only [hp, if_true] at h ⊢
      exact ih h
    · simp [hp]

/-- `dropWhile` over an append when the whole left part is dropped. -/
theorem dropWhile_append_all (p : Char → Bool) (u v : List Char)
    (h : u.dropWhile p = []) :
    (u ++ v).dropWhile p = v.dropWhile p := by
  induction u with
  | nil => simp
  | cons x xs ih =>
    simp only [List.cons_append, List.dropWhile_cons] at h ⊢
    by_cases hp : p x = true
    · simp only [hp, if_true] at h ⊢
      exact ih h
    · simp [hp] at h

/-- `takeWhile` over an append when the scan stops inside the left part. -/
theorem takeWhile_append_left (p : Char → Bool) (u v : List Char)
    (h : u.dropWhile p ≠ []) :
    (u ++ v).takeWhile p = u.takeWhile p := by
  induction u with
  | nil => simp [List.dropWhile] at h
  | cons x xs ih =>
    simp only [List.dropWhile_cons, List.cons_append, List.takeWhile_cons] at h ⊢
    by_cases hp : p x = true
    · simp only [hp, if_true] at h ⊢
      rw [ih h]
    · simp [hp]

/-- `takeWhile` over an append when the whole left part is taken. -/
theorem takeWhile_append_all (p : Char → Bool) (u v : List Char)
    (h : u.dropWhile p = []) :
    (u ++ v).takeWhile p = u ++ v.takeWhile p := by
  induction u with
  | nil => simp
  | cons x xs ih =>
    simp only [List.dropWhile_cons, List.cons_append, List.takeWhile_cons] at h ⊢
    
    by_cases hp : p x = true
    · simp only [hp, if_true] at h ⊢
      rw [ih h]
    · simp [hp] at h

/-- The first character surviving `dropWhile` fails the predicate. -/
theorem dropWhile_head_false (p : Char → Bool) (u : List Char) (x : Char)
    (r : List Char) (h : u.dropWhile p = x :: r) : p x = false := by
  induction u with
  | nil => simp [List.dropWhile] at h
  | cons y ys ih =>
    simp only [List.dropWhile_cons] at h
    by_cases hp : p y = true
    · rw [if_pos hp] at h
      exact ih h
    · rw [if_neg hp] at h
      cases h
      simpa using hp

/-- Splitting an equation between appends when the right part is at least as
long on the left-hand side. -/
theorem append_split {pre s u x : List Char} (h : pre ++ s = u ++ x)
    (hl : x.length ≤ s.length) : ∃ m, u = pre ++ m ∧ s = m ++ x := by
  have hlen : pre.length + s.length = u.length + x.length := by
    have := congrArg List.length h
    simpa using this
  have hpu : pre.length ≤ u.length := by omega
  refine ⟨u.drop pre.length, ?_, ?_⟩
  · have h1 : pre = (u ++ x).take pre.length := by
      rw [← h, List.take_left]
    rw [List.take_append_of_le_length hpu] at h1
    conv_lhs => rw [← List.take_append_drop pre.length u]
    rw [← h1]
  · have h2 : s = (u ++ x).drop pre.length := by
      rw [← h, List.drop_left]
    rw [List.drop_append_of_le_length hpu] at h2
    exact h2

/-- The copy loop's decoded content and remaining input do not depend on the
line/column counters. -/
theorem string_lit_loop_out (rest : List Char) (l c : ℕ) (acc : List Char) (vp : ℕ)
    (l2 c2 : ℕ) :
    (string_lit_loop rest l c acc vp).1 = (string_lit_loop rest l2 c2 acc vp).1 ∧
    (string_lit_loop rest l c acc vp).2.rest =
      (string_lit_loop rest l2 c2 acc vp).2.rest := by
  induction rest, l, c, acc, vp using string_lit_loop.induct generalizing l2 c2 with
  | case1 l c acc vp h =>
    rw [string_lit_loop.eq_def, string_lit_loop.eq_def]
    dsimp only
    rw [if_pos h, if_pos h]
    exact ⟨rfl, rfl⟩
  | case2 l c acc vp h rest1 =>
    rw [string_lit_loop.eq_def, string_lit_loop.eq_def]
    dsimp only
    rw [if_pos h, if_pos h, if_pos (show ('"' : Char) = '"' from rfl),
      if_pos (show ('"' : Char) = '"' from rfl)]
    exact ⟨rfl, rfl⟩
  | case3 l c acc vp h escaped rest2 hne ih =>
    rw [string_lit_loop.eq_def, string_lit_loop.eq_def]
    dsimp only
    rw [if_pos h, if_pos h, if_neg (show ¬(('\\' : Char) = '"') by decide),
      if_neg (show ¬(('\\' : Char) = '"') by decide),
      if_pos (show ('\\' : Char) = '\\' from rfl),
      if_pos (show ('\\' : Char) = '\\' from rfl)]
    exact ih l2 (c2 + 2)
  | case4 l c acc vp h hne ih =>
    rw [string_lit_loop.eq_def, string_lit_loop.eq_def]
    dsimp only
    rw [if_pos h, if_pos h, if_neg (show ¬(('\\' : Char) = '"') by decide),
      if_neg (show ¬(('\\' : Char) = '"') by decide),
      if_pos (show ('\\' : Char) = '\\' from rfl),
      if_pos (show ('\\' : Char) = '\\' from rfl)]
    exact ih l2 (c2 + 1)
  | case5 l c acc vp h ch rest1 hq hb ih =>
    rw [string_lit_loop.eq_def, string_lit_loop.eq_def]
    dsimp only
    rw [if_pos h, if_pos h, if_neg hq, if_neg hq, if_neg hb, if_neg hb]
    exact ih l2 (c2 + 1)
  | case6 rest l c acc vp h =>
    rw [string_lit_loop.eq_def, string_lit_loop.eq_def]
    dsimp only
    rw [if_neg h, if_neg h]
    exact ⟨rfl, rfl⟩

/-- The fraction phase's captured text and remaining input do not depend on
the line/column counters. -/
theorem numeric_frac_out (acc : List Char) (r : List Char) (l c l2 c2 : ℕ) :
    (numeric_frac acc ⟨r, l, c⟩).1 = (numeric_frac acc ⟨r, l2, c2⟩).1 ∧
    (numeric_frac acc ⟨r, l, c⟩).2.rest = (numeric_frac acc ⟨r, l2, c2⟩).2.rest := by
  cases r with
  | nil => exact ⟨rfl, rfl⟩
  | cons x xs =>
    rw [numeric_frac, numeric_frac]
    dsimp only
    by_cases hx : x = '.'
    · rw [if_pos hx, if_pos hx]
      constructor
      · rw [num_digit_loop_acc, num_digit_loop_acc]
      · rw [num_digit_loop_rest, num_digit_loop_rest]
    · rw [if_neg hx, if_neg hx]
      exact ⟨rfl, rfl⟩

/-- The fraction phase on two states with the same remaining input. -/
theorem numeric_frac_out2 (acc : List Char) (s1 s2 : lexer_state)
    (h : s1.rest = s2.rest) :
    (numeric_frac acc s1).1 = (numeric_frac acc s2).1 ∧
    (numeric_frac acc s1).2.rest = (numeric_frac acc s2).2.rest := by
  obtain ⟨r1, ll1, cc1⟩ := s1
  obtain ⟨r2, ll2, cc2⟩ := s2
  cases h
  exact numeric_frac_out acc r1 ll1 cc1 ll2 cc2

/-- The exponent phase's captured text and remaining input do not depend on
the line/column counters. -/
theorem numeric_exp_out (acc : List Char) (r : List Char) (l c l2 c2 : ℕ) :
    (numeric_exp acc ⟨r, l, c⟩).1 = (numeric_exp acc ⟨r, l2, c2⟩).1 ∧
    (numeric_exp acc ⟨r, l, c⟩).2.rest = (numeric_exp acc ⟨r, l2, c2⟩).2.rest := by
  cases r with
  | nil => exact ⟨rfl, rfl⟩
  | cons x xs =>
    rw [numeric_exp, numeric_exp]
    dsimp only
    by_cases hx : (x = 'e' || x = 'E') = true
    · rw [if_pos hx, if_pos hx]
      cases xs with
      | nil =>
        constructor
        · rw [num_digit_loop_acc, num_digit_loop_acc]
        · rw [num_digit_loop_rest, num_digit_loop_rest]
      | cons y ys =>
        dsimp only
        by_cases hy : (y = '+' || y = '-') = true
        · rw [if_pos hy, if_pos hy]
          constructor
          · rw [num_digit_loop_acc, num_digit_loop_acc]
          · rw [num_digit_loop_rest, num_digit_loop_rest]
        · rw [if_neg hy, if_neg hy]
          constructor
          · rw [num_digit_loop_acc, num_digit_loop_acc]
          · rw [num_digit_loop_rest, num_digit_loop_rest]
    · rw [if_neg hx, if_neg hx]
      exact ⟨rfl, rfl⟩

/-- The exponent phase on two states with the same remaining input and equal
captured text. -/
theorem numeric_exp_out2 (acc1 acc2 : List Char) (s1 s2 : lexer_state)
    (ha : acc1 = acc2) (h : s1.rest = s2.rest) :
    (numeric_exp acc1 s1).1 = (numeric_exp acc2 s2).1 ∧
    (numeric_exp acc1 s1).2.rest = (numeric_exp acc2 s2).2.rest := by
  cases ha
  obtain ⟨r1, ll1, cc1⟩ := s1
  obtain ⟨r2, ll2, cc2⟩ := s2
  cases h
  exact numeric_exp_out acc1 r1 ll1 cc1 ll2 cc2

/-- The fraction-exponent tail on two states with the same remaining input:
same token, same remaining input. -/
theorem numeric_tail_out2 (acc : List Char) (s1 s2 : lexer_state)
    (h : s1.rest = s2.rest) :
    (tokenizer_parse_numeric_literal.numeric_tail acc s1).1 =
      (tokenizer_parse_numeric_literal.numeric_tail acc s2).1 ∧
    (tokenizer_parse_numeric_literal.numeric_tail acc s1).2.rest =
      (tokenizer_parse_numeric_literal.numeric_tail acc s2).2.rest := by
  rw [tokenizer_parse_numeric_literal.numeric_tail,
    tokenizer_parse_numeric_literal.numeric_tail]
  obtain ⟨hfa, hfr⟩ := numeric_frac_out2 acc s1 s2 h
  obtain ⟨hea, her⟩ := numeric_exp_out2 (numeric_frac acc s1).1 (numeric_frac acc s2).1
    (numeric_frac acc s1).2 (numeric_frac acc s2).2 hfa hfr
  exact ⟨by rw [hea], her⟩

/-- The numeric token and remaining input do not depend on the line/column
counters. -/
theorem numeric_literal_out (r : List Char) (l c l2 c2 : ℕ) :
    (tokenizer_parse_numeric_literal r l c).1 = (tokenizer_parse_numeric_literal r l2 c2).1 ∧
    (tokenizer_parse_numeric_literal r l c).2.rest =
      (tokenizer_parse_numeric_literal r l2 c2).2.rest := by
  rw [tokenizer_parse_numeric_literal.eq_def, tokenizer_parse_numeric_literal.eq_def]
  dsimp only
  cases r with
  | nil => exact numeric_tail_out2 [] _ _ rfl
  | cons c0 rr =>
    dsimp only
    by_cases h0 : c0 = '-'
    · rw [if_pos h0, if_pos h0]
      dsimp only
      cases rr with
      | nil => exact numeric_tail_out2 ['-'] _ _ rfl
      | cons c1 r0 =>
        dsimp only
        by_cases h1 : c1 = '0'
        · rw [if_pos h1, if_pos h1]
          cases r0 with
          | nil => exact numeric_tail_out2 (['-'] ++ ['0']) _ _ rfl
          | cons d ds =>
            dsimp only
            by_cases hd : isDigitChar d = true
            · rw [if_pos hd, if_pos hd]
              exact ⟨rfl, rfl⟩
            · rw [if_neg hd, if_neg hd]
              exact numeric_tail_out2 (['-'] ++ ['0']) _ _ rfl
        · rw [if_neg h1, if_neg h1]
          rw [num_digit_loop_acc, num_digit_loop_acc]
          exact numeric_tail_out2 _ _ _
            (by rw [num_digit_loop_rest, num_digit_loop_rest])
    · rw [if_neg h0, if_neg h0]
      dsimp only
      by_cases h1 : c0 = '0'
      · rw [if_pos h1, if_pos h1]
        cases rr with
        | nil => exact numeric_tail_out2 ([] ++ ['0']) _ _ rfl
        | cons d ds =>
          dsimp only
          by_cases hd : isDigitChar d = true
          · rw [if_pos hd, if_pos hd]
            exact ⟨rfl, rfl⟩
          · rw [if_neg hd, if_neg hd]
            exact numeric_tail_out2 ([] ++ ['0']) _ _ rfl
      · rw [if_neg h1, if_neg h1]
        rw [num_digit_loop_acc, num_digit_loop_acc]
        exact numeric_tail_out2 _ _ _
          (by rw [num_digit_loop_rest, num_digit_loop_rest])

/-- The keyword token and remaining input do not depend on the line/column
counters. -/
theorem keyword_out (r : List Char) (l c l2 c2 : ℕ) :
    (tokenizer_parse_keyword_literal r l c).1 = (tokenizer_parse_keyword_literal r l2 c2).1 ∧
    (tokenizer_parse_keyword_literal r l c).2.rest =
      (tokenizer_parse_keyword_literal r l2 c2).2.rest := by
  rw [tokenizer_parse_keyword_literal, tokenizer_parse_keyword_literal]
  split_ifs <;> exact ⟨rfl, rfl⟩

/-- The string token and remaining input do not depend on the line/column
counters. -/
theorem string_literal_out (r : List Char) (l c l2 c2 : ℕ) :
    (tokenizer_parse_string_literal r l c).1 = (tokenizer_parse_string_literal r l2 c2).1 ∧
    (tokenizer_parse_string_literal r l c).2.rest =
      (tokenizer_parse_string_literal r l2 c2).2.rest := by
  obtain ⟨h1, h2⟩ := string_lit_loop_out r.tail l (c + 1) [] 0 l2 (c2 + 1)
  constructor
  · cases hres : (string_lit_loop r.tail l (c + 1) [] 0).1 with
    | none =>
      have hres2 : (string_lit_loop r.tail l2 (c2 + 1) [] 0).1 = none := by rw [← h1, hres]
      simp [tokenizer_parse_string_literal, hres, hres2]
    | some a =>
      have hres2 : (string_lit_loop r.tail l2 (c2 + 1) [] 0).1 = some a := by rw [← h1, hres]
      simp [tokenizer_parse_string_literal, hres, hres2]
  · rw [tokenizer_parse_string_literal_state, tokenizer_parse_string_literal_state]
    exact h2

/-- The dispatched token and remaining input do not depend on the line/column
counters. -/
theorem dispatch_out (r : List Char) (l c l2 c2 : ℕ) :
    (tokenizer_next_token_dispatch r l c).1 = (tokenizer_next_token_dispatch r l2 c2).1 ∧
    (tokenizer_next_token_dispatch r l c).2.rest =
      (tokenizer_next_token_dispatch r l2 c2).2.rest := by
  cases r with
  | nil => exact ⟨rfl, rfl⟩
  | cons ch rest =>
    rw [tokenizer_next_token_dispatch, tokenizer_next_token_dispatch]
    by_cases h1 : ch = '{'
    · rw [if_pos h1, if_pos h1]
      exact ⟨rfl, rfl⟩
    rw [if_neg h1, if_neg h1]
    by_cases h2 : ch = '}'
    · rw [if_pos h2, if_pos h2]
      exact ⟨rfl, rfl⟩
    rw [if_neg h2, if_neg h2]
    by_cases h3 : ch = '['
    · rw [if_pos h3, if_pos h3]
      exact ⟨rfl, rfl⟩
    rw [if_neg h3, if_neg h3]
    by_cases h4 : ch = ']'
    · rw [if_pos h4, if_pos h4]
      exact ⟨rfl, rfl⟩
    rw [if_neg h4, if_neg h4]
    by_cases h5 : ch = ':'
    · rw [if_pos h5, if_pos h5]
      exact ⟨rfl, rfl⟩
    rw [if_neg h5, if_neg h5]
    by_cases h6 : ch = ','
    · rw [if_pos h6, if_pos h6]
      exact ⟨rfl, rfl⟩
    rw [if_neg h6, if_neg h6]
    by_cases h7 : ch = '"'
    · rw [if_pos h7, if_pos h7]
      exact string_literal_out (ch :: rest) l c l2 c2
    rw [if_neg h7, if_neg h7]
    by_cases h8 : (ch = '-' || isDigitChar ch) = true
    · rw [if_pos h8, if_pos h8]
      exact numeric_literal_out (ch :: rest) l c l2 c2
    rw [if_neg h8, if_neg h8]
    by_cases h9 : (ch = 't' || ch = 'f' || ch = 'n') = true
    · rw [if_pos h9, if_pos h9]
      exact keyword_out (ch :: rest) l c l2 c2
    rw [if_neg h9, if_neg h9]
    exact ⟨rfl, rfl⟩

/-- The pulled token and remaining input do not depend on the line/column
counters. -/
theorem next_token_out (r : List Char) (l c l2 c2 : ℕ) :
    (tokenizer_get_next_token r l c).1 = (tokenizer_get_next_token r l2 c2).1 ∧
    (tokenizer_get_next_token r l c).2.rest =
      (tokenizer_get_next_token r l2 c2).2.rest := by
  rw [tokenizer_get_next_token, tokenizer_get_next_token, skipWs_eq, skipWs_eq]
  exact dispatch_out _ _ _ _ _

/-- The fuelled token stream does not depend on the starting line/column. -/
theorem tokenListF_pos (n : ℕ) :
    ∀ r l c l2 c2, tokenListF n r l c = tokenListF n r l2 c2 := by
  induction n with
  | zero => intro r l c l2 c2; rfl
  | succ m ih =>
    intro r l c l2 c2
    rw [tokenListF, tokenListF]
    obtain ⟨h1, h2⟩ := next_token_out r l c l2 c2
    rw [h1, h2]
    by_cases hs : stopToken (tokenizer_get_next_token r l2 c2).1 = true
    · rw [if_pos hs, if_pos hs]
    · rw [if_neg hs, if_neg hs]
      congr 1
      exact ih _ _ _ _ _

/-- Whitespace characters satisfy the skip predicate. -/
theorem wsOnly_dropWhile (ws : List Char) (hws : wsOnly ws) :
    ws.dropWhile (fun ch => isWsChar ch || ch = '\n') = [] := by
  rw [List.dropWhile_eq_nil_iff]
  intro x hx
  rcases hws x hx with h | h | h | h <;> simp [isWsChar, h]

/-- Prepending whitespace to the input does not change the pulled token nor
the input remaining after it. -/
theorem ws_prepend_pull (ws b : List Char) (hws : wsOnly ws) (l c l2 c2 : ℕ) :
    (tokenizer_get_next_token (ws ++ b) l2 c2).1 = (tokenizer_get_next_token b l c).1 ∧
    (tokenizer_get_next_token (ws ++ b) l2 c2).2.rest =
      (tokenizer_get_next_token b l c).2.rest := by
  rw [tokenizer_get_next_token, tokenizer_get_next_token, skipWs_eq, skipWs_eq]
  rw [show ((ws ++ b).dropWhile fun ch => isWsChar ch || ch = '\n') =
    (b.dropWhile fun ch => isWsChar ch || ch = '\n') from
    dropWhile_append_all _ _ _ (wsOnly_dropWhile ws hws)]
  exact dispatch_out _ _ _ _ _

/-- The copy loop cannot find a closing quote in an empty input. -/
theorem string_lit_loop_nil (l c : ℕ) (acc : List Char) (vp : ℕ) :
    (string_lit_loop [] l c acc vp).1 = none := by
  rw [string_lit_loop.eq_def]
  dsimp only
  by_cases h : vp < 1023
  · rw [if_pos h]
  · rw [if_neg h]

/-- A successful copy loop consumes at least the closing quote. -/
theorem string_lit_loop_some_shrink (rest : List Char) (l c : ℕ) (acc : List Char)
    (vp : ℕ) : ∀ a2 s, string_lit_loop rest l c acc vp = (some a2, s) →
    s.rest.length < rest.length := by
  induction rest, l, c, acc, vp using string_lit_loop.induct with
  | case1 l c acc vp hv =>
    intro a2 s h
    rw [string_lit_loop.eq_def] at h
    dsimp only at h
    rw [if_pos hv] at h
    simp at h
  | case2 l c acc vp hv rest1 =>
    intro a2 s h
    rw [string_lit_loop.eq_def] at h
    dsimp only at h
    rw [if_pos hv, if_pos (show ('"' : Char) = '"' from rfl)] at h
    simp only [Prod.mk.injEq, Option.some.injEq] at h
    obtain ⟨h1, h2⟩ := h
    rw [← h2]
    simp
  | case3 l c acc vp hv escaped rest2 hne ih =>
    intro a2 s h
    rw [string_lit_loop.eq_def] at h
    dsimp only at h
    rw [if_pos hv, if_neg (show ¬(('\\' : Char) = '"') by decide),
      if_pos (show ('\\' : Char) = '\\' from rfl)] at h
    have := ih a2 s h
    simp only [List.length_cons] at *
    omega
  | case4 l c acc vp hv hne ih =>
    intro a2 s h
    rw [string_lit_loop.eq_def] at h
    dsimp only at h
    rw [if_pos hv, if_neg (show ¬(('\\' : Char) = '"') by decide),
      if_pos (show ('\\' : Char) = '\\' from rfl)] at h
    have hnil := string_lit_loop_nil l (c + 1) ('\\' :: acc) (vp + 1)
    rw [h] at hnil
    simp at hnil
  | case5 l c acc vp hv ch rest1 hq hb ih =>
    intro a2 s h
    rw [string_lit_loop.eq_def] at h
    dsimp only at h
    rw [if_pos hv, if_neg hq, if_neg hb] at h
    have := ih a2 s h
    simp only [List.length_cons] at *
    omega
  | case6 rest l c acc vp hv =>
    intro a2 s h
    rw [string_lit_loop.eq_def] at h
    dsimp only at h
    rw [if_neg hv] at h
    simp at h

/-- Locality of a successful copy loop: a run that leaves the trailing text
`X` untouched behaves identically on the same prefix followed by anything
else. -/
theorem string_lit_loop_local (n : ℕ) :
    ∀ u X l c acc vp a2 s, u.length ≤ n →
      string_lit_loop (u ++ X) l c acc vp = (some a2, s) →
      X.length ≤ s.rest.length →
      ∃ m, s.rest = m ++ X ∧
        ∀ Y l2 c2, (string_lit_loop (u ++ Y) l2 c2 acc vp).1 = some a2 ∧
          (string_lit_loop (u ++ Y) l2 c2 acc vp).2.rest = m ++ Y := by
  induction n with
  | zero =>
    intro u X l c acc vp a2 s hn h hX
    have hu : u = [] := List.length_eq_zero.mp (Nat.le_zero.mp hn)
    subst hu
    simp only [List.nil_append] at h
    have := string_lit_loop_some_shrink X l c acc vp a2 s h
    omega
  | succ k ih =>
    intro u X l c acc vp a2 s hn h hX
    cases u with
    | nil =>
      simp only [List.nil_append] at h
      have := string_lit_loop_some_shrink X l c acc vp a2 s h
      omega
    | cons ch u1 =>
      rw [string_lit_loop.eq_def] at h
      simp only [List.cons_append] at h
      by_cases hv : vp < 1023
      · rw [if_pos hv] at h
        by_cases hq : ch = '"'
        · rw [if_pos hq] at h
          simp only [Prod.mk.injEq, Option.some.injEq] at h
          obtain ⟨h1, h2⟩ := h
          refine ⟨u1, by rw [← h2], ?_⟩
          intro Y l2 c2
          rw [string_lit_loop.eq_def]
          simp only [List.cons_append]
          rw [if_pos hv, if_pos hq]
          exact ⟨by rw [h1], rfl⟩
        · rw [if_neg hq] at h
          by_cases hb : ch = '\\'
          · rw [if_pos hb] at h
            cases u1 with
            | nil =>
              simp only [List.nil_append] at h
              cases X with
              | nil =>
                dsimp only at h
                have hnil := string_lit_loop_nil l (c + 1) ('\\' :: acc) (vp + 1)
                rw [h] at hnil
                simp at hnil
              | cons e X2 =>
                dsimp only at h
                obtain ⟨pre, hpre⟩ :=
                  string_lit_loop_consumed X2 l (c + 2)
                    (escape_written e vp ++ acc) (vp + (escape_written e vp).length)
                rw [h] at hpre
                have hlen := congrArg List.length hpre
                simp only [List.length_append, List.length_cons] at hlen hX
                omega
            | cons e u2 =>
              simp only [List.cons_append] at h
              simp only [List.length_cons] at hn
              obtain ⟨m, hm, hY⟩ := ih u2 X l (c + 2) (escape_written e vp ++ acc)
                (vp + (escape_written e vp).length) a2 s (by omega) h hX
              refine ⟨m, hm, ?_⟩
              intro Y l2 c2
              rw [string_lit_loop.eq_def]
              simp only [List.cons_append]
              rw [if_pos hv, if_neg hq, if_pos hb]
              exact hY Y l2 (c2 + 2)
          · rw [if_neg hb] at h
            simp only [List.length_cons] at hn
            obtain ⟨m, hm, hY⟩ := ih u1 X l (c + 1) (ch :: acc) (vp + 1) a2 s
              (by omega) h hX
            refine ⟨m, hm, ?_⟩
            intro Y l2 c2
            rw [string_lit_loop.eq_def]
            simp only [List.cons_append]
            rw [if_pos hv, if_neg hq, if_neg hb]
            exact hY Y l2 (c2 + 1)
      · rw [if_neg hv] at h
        simp at h

/-- Character facts about the whitespace class: whitespace starts no numeric
or keyword continuation. -/
theorem ws_char_props (w : Char) (h : w = ' ' ∨ w = '\t' ∨ w = '\r' ∨ w = '\n') :
    isDigitChar w = false ∧ w ≠ '.' ∧ ¬((w = 'e' || w = 'E') = true) ∧
      ¬((w = '+' || w = '-') = true) ∧ w ≠ '0' := by
  rcases h with h | h | h <;> try subst h
  · exact ⟨by decide, by decide, by decide, by decide, by decide⟩
  · exact ⟨by decide, by decide, by decide, by decide, by decide⟩
  · rcases h with h | h <;> subst h
    · exact ⟨by decide, by decide, by decide, by decide, by decide⟩
    · exact ⟨by decide, by decide, by decide, by decide, by decide⟩

/-- `dropWhile` never lengthens a list. -/
theorem dropWhile_len_le (p : Char → Bool) (l : List Char) :
    (l.dropWhile p).length ≤ l.length := by
  induction l with
  | nil => simp
  | cons x xs ih =>
    rw [List.dropWhile_cons]
    by_cases hp : p x = true
    · rw [if_pos hp]
      simp only [List.length_cons]
      omega
    · rw [if_neg hp]

/-- A list at most as long as its own `dropWhile` is left whole. -/
theorem dropWhile_ge_self (p : Char → Bool) (X : List Char)
    (h : X.length ≤ (X.dropWhile p).length) :
    X.dropWhile p = X ∧ X.takeWhile p = [] := by
  cases X with
  | nil => simp
  | cons x xs =>
    by_cases hp : p x = true
    · rw [List.dropWhile_cons, if_pos hp] at h
      have := dropWhile_len_le p xs
      simp only [List.length_cons] at h
      omega
    · rw [List.dropWhile_cons, if_neg hp, List.takeWhile_cons]
      simp [hp]

/-- Prepending characters that all fail the predicate in front of a list the
scan leaves whole leaves everything whole. -/
theorem dropWhile_eq_self_append (p : Char → Bool) (ws X : List Char)
    (hws : ∀ w ∈ ws, p w = false) (hX : X.dropWhile p = X) :
    (ws ++ X).dropWhile p = ws ++ X ∧ (ws ++ X).takeWhile p = [] := by
  cases ws with
  | nil =>
    simp only [List.nil_append]
    refine ⟨hX, ?_⟩
    cases X with
    | nil => simp
    | cons x xs =>
      by_cases hp : p x = true
      · rw [List.dropWhile_cons, if_pos hp] at hX
        have hle := dropWhile_len_le p xs
        have := congrArg List.length hX
        simp only [List.length_cons] at this
        omega
      · rw [List.takeWhile_cons]
        simp [hp]
  | cons w ws2 =>
    have hw : p w = false := hws w (by simp)
    rw [List.cons_append, List.dropWhile_cons, List.takeWhile_cons, hw]
    simp

/-- Locality of the digit loop: a run leaving `X` untouched consumes and
captures the same digits when whitespace is inserted before `X`. -/
theorem num_digit_loop_local (u X ws : List Char) (hws : wsOnly ws)
    (l c l2 c2 : ℕ) (acc : List Char)
    (hX : X.length ≤ (num_digit_loop (u ++ X) l c acc).2.rest.length) :
    ∃ m, (num_digit_loop (u ++ X) l c acc).2.rest = m ++ X ∧
      (num_digit_loop (u ++ (ws ++ X)) l2 c2 acc).1 = (num_digit_loop (u ++ X) l c acc).1 ∧
      (num_digit_loop (u ++ (ws ++ X)) l2 c2 acc).2.rest = m ++ (ws ++ X) := by
  have hwsf : ∀ w ∈ ws, isDigitChar w = false := fun w hw =>
    (ws_char_props w (hws w hw)).1
  simp only [num_digit_loop_rest, num_digit_loop_acc] at hX ⊢
  by_cases hdu : u.dropWhile isDigitChar = []
  · rw [dropWhile_append_all isDigitChar u X hdu] at hX
    obtain ⟨hdX, htX⟩ := dropWhile_ge_self _ _ hX
    obtain ⟨hd2, ht2⟩ := dropWhile_eq_self_append isDigitChar ws X hwsf hdX
    refine ⟨[], ?_, ?_, ?_⟩
    · rw [dropWhile_append_all isDigitChar u X hdu, hdX]
      simp
    · rw [takeWhile_append_all isDigitChar u (ws ++ X) hdu,
        takeWhile_append_all isDigitChar u X hdu, htX, ht2]
    · rw [dropWhile_append_all isDigitChar u (ws ++ X) hdu, hd2]
      simp
  · refine ⟨u.dropWhile isDigitChar, ?_, ?_, ?_⟩
    · rw [dropWhile_append_left isDigitChar u X hdu]
    · rw [takeWhile_append_left isDigitChar u (ws ++ X) hdu,
        takeWhile_append_left isDigitChar u X hdu]
    · rw [dropWhile_append_left isDigitChar u (ws ++ X) hdu]

/-- Locality of the fraction phase: a run leaving `X` untouched behaves the
same when whitespace is inserted before `X`. -/
theorem numeric_frac_local (acc u X ws : List Char) (hws : wsOnly ws)
    (s1 s2 : lexer_state) (h1 : s1.rest = u ++ X) (h2 : s2.rest = u ++ (ws ++ X))
    (hX : X.length ≤ (numeric_frac acc s1).2.rest.length) :
    ∃ m, (numeric_frac acc s1).2.rest = m ++ X ∧
      (numeric_frac acc s2).1 = (numeric_frac acc s1).1 ∧
      (numeric_frac acc s2).2.rest = m ++ (ws ++ X) := by
  obtain ⟨r1, ll1, cc1⟩ := s1
  obtain ⟨r2, ll2, cc2⟩ := s2
  dsimp only at h1 h2
  subst h1
  subst h2
  cases u with
  | cons x u1 =>
    rw [numeric_frac] at hX ⊢
    rw [numeric_frac]
    simp only [List.cons_append] at hX ⊢
    by_cases hx : x = '.'
    · rw [if_pos hx] at hX ⊢
      rw [if_pos hx]
      exact num_digit_loop_local u1 X ws hws ll1 (cc1 + 1) ll2 (cc2 + 1)
        (capWrite acc '.') hX
    · rw [if_neg hx] at hX ⊢
      rw [if_neg hx]
      exact ⟨x :: u1, rfl, rfl, rfl⟩
  | nil =>
    simp only [List.nil_append] at hX ⊢
    cases X with
    | nil =>
      cases ws with
      | nil => exact ⟨[], rfl, rfl, rfl⟩
      | cons w ws2 =>
        have hwp := ws_char_props w (hws w (by simp))
        rw [numeric_frac, numeric_frac]
        simp only [List.append_nil, List.cons_append]
        rw [if_neg hwp.2.1]
        exact ⟨[], rfl, rfl, by simp⟩
    | cons x xs =>
      rw [numeric_frac] at hX
      dsimp only at hX
      by_cases hx : x = '.'
      · rw [if_pos hx] at hX
        rw [num_digit_loop_rest] at hX
        have := dropWhile_len_le isDigitChar xs
        simp only [List.length_cons] at hX
        omega
      · rw [numeric_frac, numeric_frac]
        dsimp only
        rw [if_neg hx]
        cases ws with
        | nil =>
          simp only [List.nil_append]
          rw [if_neg hx]
          exact ⟨[], rfl, rfl, rfl⟩
        | cons w ws2 =>
          have hwp := ws_char_props w (hws w (by simp))
          simp only [List.cons_append]
          rw [if_neg hwp.2.1]
          exact ⟨[], rfl, rfl, rfl⟩

/-- Locality of the exponent phase: a run leaving `X` untouched behaves the
same when whitespace is inserted before `X`. -/
theorem numeric_exp_local (acc u X ws : List Char) (hws : wsOnly ws)
    (s1 s2 : lexer_state) (h1 : s1.rest = u ++ X) (h2 : s2.rest = u ++ (ws ++ X))
    (hX : X.length ≤ (numeric_exp acc s1).2.rest.length) :
    ∃ m, (numeric_exp acc s1).2.rest = m ++ X ∧
      (numeric_exp acc s2).1 = (numeric_exp acc s1).1 ∧
      (numeric_exp acc s2).2.rest = m ++ (ws ++ X) := by
  obtain ⟨r1, ll1, cc1⟩ := s1
  obtain ⟨r2, ll2, cc2⟩ := s2
  dsimp only at h1 h2
  subst h1
  subst h2
  cases u with
  | cons e0 u1 =>
    rw [numeric_exp] at hX ⊢
    rw [numeric_exp]
    simp only [List.cons_append] at hX ⊢
    by_cases he : (e0 = 'e' || e0 = 'E') = true
    · rw [if_pos he] at hX ⊢
      rw [if_pos he]
      cases u1 with
      | cons y u2 =>
        simp only [List.cons_append] at hX ⊢
        by_cases hy : (y = '+' || y = '-') = true
        · rw [if_pos hy] at hX ⊢
          rw [if_pos hy]
          exact num_digit_loop_local u2 X ws hws ll1 (cc1 + 2) ll2 (cc2 + 2)
            (capWrite (capWrite acc e0) y) hX
        · rw [if_neg hy] at hX ⊢
          rw [if_neg hy]
          exact num_digit_loop_local (y :: u2) X ws hws ll1 (cc1 + 1) ll2 (cc2 + 1)
            (capWrite acc e0) hX
      | nil =>
        simp only [List.nil_append] at hX ⊢
        cases X with
        | nil =>
          cases ws with
          | nil =>
            exact ⟨[], rfl, rfl, rfl⟩
          | cons w ws2 =>
            have hwp := ws_char_props w (hws w (by simp))
            simp only [List.append_nil, List.cons_append]
            rw [if_neg hwp.2.2.2.1]
            refine ⟨[], rfl, ?_, ?_⟩
            · rw [num_digit_loop_acc, num_digit_loop_acc]
              simp [List.takeWhile_cons, hwp.1]
            · rw [num_digit_loop_rest]
              simp [List.dropWhile_cons, hwp.1]
        | cons x xs =>
          dsimp only at hX ⊢
          by_cases hx : (x = '+' || x = '-') = true
          · rw [if_pos hx] at hX
            rw [num_digit_loop_rest] at hX
            have := dropWhile_len_le isDigitChar xs
            simp only [List.length_cons] at hX
            omega
          · rw [if_neg hx] at hX
            rw [num_digit_loop_rest] at hX
            by_cases hxd : isDigitChar x = true
            · rw [List.dropWhile_cons, if_pos hxd] at hX
              have := dropWhile_len_le isDigitChar xs
              simp only [List.length_cons] at hX
              omega
            · rw [if_neg hx]
              have hdX : List.dropWhile isDigitChar (x :: xs) = x :: xs := by
                rw [List.dropWhile_cons, if_neg hxd]
              have htX : List.takeWhile isDigitChar (x :: xs) = [] := by
                rw [List.takeWhile_cons]
                simp [hxd]
              cases ws with
              | nil =>
                simp only [List.nil_append]
                rw [if_neg hx]
                refine ⟨[], ?_, ?_, ?_⟩
                · rw [num_digit_loop_rest, hdX]
                  simp
                · rw [num_digit_loop_acc, num_digit_loop_acc]
                · rw [num_digit_loop_rest, hdX]
                  simp
              | cons w ws2 =>
                have hwp := ws_char_props w (hws w (by simp))
                simp only [List.cons_append]
                rw [if_neg hwp.2.2.2.1]
                obtain ⟨hd2, ht2⟩ := dropWhile_eq_self_append isDigitChar (w :: ws2)
                  (x :: xs) (fun v hv => (ws_char_props v (hws v hv)).1) hdX
                refine ⟨[], ?_, ?_, ?_⟩
                · rw [num_digit_loop_rest, hdX]
                  simp
                · rw [num_digit_loop_acc, num_digit_loop_acc, htX]
                  rw [show List.takeWhile isDigitChar (w :: (ws2 ++ x :: xs)) = [] from ht2]
                · rw [num_digit_loop_rest]
                  rw [show List.dropWhile isDigitChar (w :: (ws2 ++ x :: xs)) =
                    w :: (ws2 ++ x :: xs) from hd2]
                  simp
    · rw [if_neg he] at hX ⊢
      rw [if_neg he]
      exact ⟨e0 :: u1, rfl, rfl, rfl⟩
  | nil =>
    simp only [List.nil_append] at hX ⊢
    cases X with
    | nil =>
      cases ws with
      | nil => exact ⟨[], rfl, rfl, rfl⟩
      | cons w ws2 =>
        have hwp := ws_char_props w (hws w (by simp))
        rw [numeric_exp, numeric_exp]
        simp only [List.append_nil, List.cons_append]
        rw [if_neg hwp.2.2.1]
        exact ⟨[], rfl, rfl, by simp⟩
    | cons x xs =>
      rw [numeric_exp] at hX
      dsimp only at hX
      by_cases hx : (x = 'e' || x = 'E') = true
      · rw [if_pos hx] at hX
        cases xs with
        | nil =>
          rw [num_digit_loop_rest] at hX
          simp at hX
        | cons y ys =>
          dsimp only at hX
          by_cases hy : (y = '+' || y = '-') = true
          · rw [if_pos hy, num_digit_loop_rest] at hX
            have := dropWhile_len_le isDigitChar ys
            simp only [List.length_cons] at hX
            omega
          · rw [if_neg hy, num_digit_loop_rest] at hX
            have := dropWhile_len_le isDigitChar (y :: ys)
            simp only [List.length_cons] at hX this
            omega
      · rw [numeric_exp, numeric_exp]
        dsimp only
        rw [if_neg hx]
        cases ws with
        | nil =>
          simp only [List.nil_append]
          rw [if_neg hx]
          exact ⟨[], rfl, rfl, rfl⟩
        | cons w ws2 =>
          have hwp := ws_char_props w (hws w (by simp))
          simp only [List.cons_append]
          rw [if_neg hwp.2.2.1]
          exact ⟨[], rfl, rfl, rfl⟩

/-- Locality of the combined fraction/exponent tail. -/
theorem numeric_tail_local (acc u X ws : List Char) (hws : wsOnly ws)
    (s1 s2 : lexer_state) (h1 : s1.rest = u ++ X) (h2 : s2.rest = u ++ (ws ++ X))
    (hX : X.length ≤ (tokenizer_parse_numeric_literal.numeric_tail acc s1).2.rest.length) :
    ∃ m, (tokenizer_parse_numeric_literal.numeric_tail acc s1).2.rest = m ++ X ∧
      (tokenizer_parse_numeric_literal.numeric_tail acc s2).1 =
        (tokenizer_parse_numeric_literal.numeric_tail acc s1).1 ∧
      (tokenizer_parse_numeric_literal.numeric_tail acc s2).2.rest = m ++ (ws ++ X) := by
  rw [tokenizer_parse_numeric_literal.numeric_tail] at hX
  dsimp only at hX
  obtain ⟨p2, hp2⟩ := numeric_exp_consumed (numeric_frac acc s1).1 (numeric_frac acc s1).2
  have hXf : X.length ≤ (numeric_frac acc s1).2.rest.length := by
    have hl := congrArg List.length hp2
    simp only [List.length_append] at hl
    omega
  obtain ⟨m1, hm1, hfa, hfr⟩ := numeric_frac_local acc u X ws hws s1 s2 h1 h2 hXf
  obtain ⟨m2, hm2, hea, her⟩ := numeric_exp_local (numeric_frac acc s1).1 m1 X ws hws
    (numeric_frac acc s1).2 (numeric_frac acc s2).2 hm1 hfr hX
  refine ⟨m2, ?_, ?_, ?_⟩
  · rw [tokenizer_parse_numeric_literal.numeric_tail]
    exact hm2
  · rw [tokenizer_parse_numeric_literal.numeric_tail,
      tokenizer_parse_numeric_literal.numeric_tail, hfa, hea]
  · rw [tokenizer_parse_numeric_literal.numeric_tail, hfa]
    exact her

set_option maxHeartbeats 1600000 in
/-- Locality of the number tokenizer: a non-error number token that leaves
`X` untouched is read identically when whitespace is inserted before `X`. -/
theorem numeric_literal_local (u X ws : List Char) (hws : wsOnly ws) (l c l2 c2 : ℕ)
    (hu : u ≠ [])
    (herr : (tokenizer_parse_numeric_literal (u ++ X) l c).1.type ≠ TOKEN_ERROR)
    (hX : X.length ≤ (tokenizer_parse_numeric_literal (u ++ X) l c).2.rest.length) :
    ∃ m, (tokenizer_parse_numeric_literal (u ++ X) l c).2.rest = m ++ X ∧
      (tokenizer_parse_numeric_literal (u ++ (ws ++ X)) l2 c2).1 =
        (tokenizer_parse_numeric_literal (u ++ X) l c).1 ∧
      (tokenizer_parse_numeric_literal (u ++ (ws ++ X)) l2 c2).2.rest = m ++ (ws ++ X) := by
  cases u with
  | nil => exact absurd rfl hu
  | cons c0 u0 =>
    simp only [tokenizer_parse_numeric_literal.eq_def, List.cons_append] at herr hX ⊢
    by_cases h0 : c0 = '-'
    · rw [if_pos h0] at herr hX
      rw [if_pos h0, if_pos h0]
      dsimp only at herr hX ⊢
      cases u0 with
      | cons c1 u1 =>
        simp only [List.cons_append] at herr hX ⊢
        by_cases h1 : c1 = '0'
        · rw [if_pos h1] at herr hX
          rw [if_pos h1, if_pos h1]
          cases u1 with
          | cons d u2 =>
            simp only [List.cons_append] at herr hX ⊢
            by_cases hd : isDigitChar d = true
            · rw [if_pos hd] at herr
              exact absurd rfl herr
            · rw [if_neg hd] at hX
              rw [if_neg hd, if_neg hd]
              exact numeric_tail_local (['-'] ++ ['0']) (d :: u2) X ws hws _ _ rfl rfl hX
          | nil =>
            simp only [List.nil_append] at herr hX ⊢
            cases X with
            | nil =>
              cases ws with
              | nil =>
                exact numeric_tail_local (['-'] ++ ['0']) [] [] [] hws _ _ rfl rfl hX
              | cons w ws2 =>
                have hwp := ws_char_props w (hws w (by simp))
                simp only [List.append_nil, List.cons_append]
                rw [if_neg (show ¬(isDigitChar w = true) by simp [hwp.1])]
                obtain ⟨m, hA, hB, hC⟩ := numeric_tail_local (['-'] ++ ['0']) [] []
                  (w :: ws2) hws ⟨[], l, c + 1 + 1⟩ ⟨w :: ws2, l2, c2 + 1 + 1⟩ rfl
                  (by simp) hX
                exact ⟨m, by simpa using hA, hB, by simpa using hC⟩
            | cons x xs =>
              dsimp only at herr hX ⊢
              by_cases hx : isDigitChar x = true
              · rw [if_pos hx] at herr
                exact absurd rfl herr
              · rw [if_neg hx] at hX
                rw [if_neg hx]
                cases ws with
                | nil =>
                  simp only [List.nil_append]
                  rw [if_neg hx]
                  exact numeric_tail_local (['-'] ++ ['0']) [] (x :: xs) [] hws _ _ rfl rfl hX
                | cons w ws2 =>
                  have hwp := ws_char_props w (hws w (by simp))
                  simp only [List.cons_append]
                  rw [if_neg (show ¬(isDigitChar w = true) by simp [hwp.1])]
                  exact numeric_tail_local (['-'] ++ ['0']) [] (x :: xs) (w :: ws2) hws _ _
                    rfl rfl hX
        · rw [if_neg h1] at hX
          rw [if_neg h1, if_neg h1]
          obtain ⟨pt, hpt⟩ := numeric_tail_consumed
            (num_digit_loop (c1 :: (u1 ++ X)) l (c + 1) ['-']).1
            (num_digit_loop (c1 :: (u1 ++ X)) l (c + 1) ['-']).2
          have hXd : X.length ≤ (num_digit_loop ((c1 :: u1) ++ X) l (c + 1) ['-']).2.rest.length := by
            have hl := congrArg List.length hpt
            simp only [List.length_append, List.cons_append] at hl hX ⊢
            omega
          obtain ⟨m1, hm1, hda, hdr⟩ := num_digit_loop_local (c1 :: u1) X ws hws
            l (c + 1) l2 (c2 + 1) ['-'] hXd
          simp only [List.cons_append] at hm1 hda hdr
          rw [hda]
          exact numeric_tail_local _ m1 X ws hws _ _ hm1 hdr hX
      | nil =>
        simp only [List.nil_append] at herr hX ⊢
        cases X with
        | nil =>
          cases ws with
          | nil => exact numeric_tail_local ['-'] [] [] [] hws _ _ rfl rfl hX
          | cons w ws2 =>
            have hwp := ws_char_props w (hws w (by simp))
            simp only [List.append_nil, List.cons_append]
            rw [if_neg hwp.2.2.2.2]
            rw [num_digit_loop_acc]
            rw [show List.takeWhile isDigitChar (w :: ws2) = [] from by
              simp [List.takeWhile_cons, hwp.1]]
            simp only [List.foldl_nil]
            obtain ⟨m, hA, hB, hC⟩ := numeric_tail_local ['-'] [] [] (w :: ws2) hws
              ⟨[], l, c + 1⟩ (num_digit_loop (w :: ws2) l2 (c2 + 1) ['-']).2 rfl
              (by rw [num_digit_loop_rest]
                  rw [show List.dropWhile isDigitChar (w :: ws2) = w :: ws2 from by
                    simp [List.dropWhile_cons, hwp.1]]
                  simp) hX
            exact ⟨m, by simpa using hA, hB, by simpa using hC⟩
        | cons x xs =>
          dsimp only at herr hX ⊢
          by_cases hx0 : x = '0'
          · rw [if_pos hx0] at herr hX
            exfalso
            cases xs with
            | nil =>
              rw [show (tokenizer_parse_numeric_literal.numeric_tail (['-'] ++ ['0'])
                (⟨[], l, c + 1 + 1⟩ : lexer_state)).2.rest = [] from rfl] at hX
              simp at hX
            | cons d ds =>
              dsimp only at herr hX
              by_cases hd : isDigitChar d = true
              · rw [if_pos hd] at herr
                exact herr rfl
              · rw [if_neg hd] at hX
                obtain ⟨pt, hpt⟩ := numeric_tail_consumed (['-'] ++ ['0'])
                  (⟨d :: ds, l, c + 1 + 1⟩ : lexer_state)
                have hl := congrArg List.length hpt
                simp only [List.length_cons, List.length_append] at hl hX
                omega
          · rw [if_neg hx0] at hX
            rw [if_neg hx0]
            by_cases hx : isDigitChar x = true
            · exfalso
              obtain ⟨pt, hpt⟩ := numeric_tail_consumed
                (num_digit_loop (x :: xs) l (c + 1) ['-']).1
                (num_digit_loop (x :: xs) l (c + 1) ['-']).2
              have hl := congrArg List.length hpt
              rw [num_digit_loop_rest, List.dropWhile_cons, if_pos hx] at hl
              have hdl := dropWhile_len_le isDigitChar xs
              simp only [List.length_append, List.length_cons] at hl hX
              omega
            · have hno : List.dropWhile isDigitChar (x :: xs) = x :: xs := by
                simp [List.dropWhile_cons, hx]
              have hnt : List.takeWhile isDigitChar (x :: xs) = [] := by
                simp [List.takeWhile_cons, hx]
              rw [num_digit_loop_acc, hnt] at hX ⊢
              simp only [List.foldl_nil] at hX ⊢
              cases ws with
              | nil =>
                simp only [List.nil_append]
                rw [if_neg hx0]
                rw [num_digit_loop_acc, hnt]
                simp only [List.foldl_nil]
                obtain ⟨m, hA, hB, hC⟩ := numeric_tail_local ['-'] [] (x :: xs) [] hws
                  (num_digit_loop (x :: xs) l (c + 1) ['-']).2
                  (num_digit_loop (x :: xs) l2 (c2 + 1) ['-']).2
                  (by rw [num_digit_loop_rest, hno]
                      simp)
                  (by rw [num_digit_loop_rest, hno]
                      simp) hX
                exact ⟨m, by simpa using hA, hB, by simpa using hC⟩
              | cons w ws2 =>
                have hwp := ws_char_props w (hws w (by simp))
                simp only [List.cons_append]
                rw [if_neg hwp.2.2.2.2]
                obtain ⟨hd2, ht2⟩ := dropWhile_eq_self_append isDigitChar (w :: ws2)
                  (x :: xs) (fun v hv => (ws_char_props v (hws v hv)).1) hno
                rw [num_digit_loop_acc]
                rw [show List.takeWhile isDigitChar (w :: (ws2 ++ x :: xs)) = [] from ht2]
                simp only [List.foldl_nil]
                refine numeric_tail_local ['-'] [] (x :: xs) (w :: ws2) hws _ _ ?_ ?_ hX
                · rw [num_digit_loop_rest, hno]
                  simp
                · rw [num_digit_loop_rest]
                  rw [show List.dropWhile isDigitChar (w :: (ws2 ++ x :: xs)) =
                    w :: (ws2 ++ x :: xs) from hd2]
                  simp
    · rw [if_neg h0] at herr hX
      rw [if_neg h0, if_neg h0]
      dsimp only at herr hX ⊢
      by_cases h1 : c0 = '0'
      · rw [if_pos h1] at herr hX
        rw [if_pos h1, if_pos h1]
        cases u0 with
        | cons d u2 =>
          simp only [List.cons_append] at herr hX ⊢
          by_cases hd : isDigitChar d = true
          · rw [if_pos hd] at herr
            exact absurd rfl herr
          · rw [if_neg hd] at hX
            rw [if_neg hd, if_neg hd]
            exact numeric_tail_local ([] ++ ['0']) (d :: u2) X ws hws _ _ rfl rfl hX
        | nil =>
          simp only [List.nil_append] at herr hX ⊢
          cases X with
          | nil =>
            cases ws with
            | nil =>
              obtain ⟨m, hA, hB, hC⟩ := numeric_tail_local ([] ++ ['0']) [] [] [] hws
                ⟨[], l, c + 1⟩ ⟨[], l2, c2 + 1⟩ rfl rfl hX
              exact ⟨m, by simpa using hA, hB, by simpa using hC⟩
            | cons w ws2 =>
              have hwp := ws_char_props w (hws w (by simp))
              simp only [List.append_nil, List.cons_append]
              rw [if_neg (show ¬(isDigitChar w = true) by simp [hwp.1])]
              obtain ⟨m, hA, hB, hC⟩ := numeric_tail_local ([] ++ ['0']) [] []
                (w :: ws2) hws ⟨[], l, c + 1⟩ ⟨w :: ws2, l2, c2 + 1⟩ rfl
                (by simp) hX
              exact ⟨m, by simpa using hA, hB, by simpa using hC⟩
          | cons x xs =>
            dsimp only at herr hX ⊢
            by_cases hx : isDigitChar x = true
            · rw [if_pos hx] at herr
              exact absurd rfl herr
            · rw [if_neg hx] at hX
              rw [if_neg hx]
              cases ws with
              | nil =>
                simp only [List.nil_append]
                rw [if_neg hx]
                obtain ⟨m, hA, hB, hC⟩ := numeric_tail_local ['0'] [] (x :: xs)
                  [] hws ⟨x :: xs, l, c + 1⟩ ⟨x :: xs, l2, c2 + 1⟩ rfl rfl hX
                exact ⟨m, hA, hB, hC⟩
              | cons w ws2 =>
                have hwp := ws_char_props w (hws w (by simp))
                simp only [List.cons_append]
                rw [if_neg (show ¬(isDigitChar w = true) by simp [hwp.1])]
                obtain ⟨m, hA, hB, hC⟩ := numeric_tail_local ['0'] [] (x :: xs)
                  (w :: ws2) hws ⟨x :: xs, l, c + 1⟩ ⟨w :: (ws2 ++ x :: xs), l2, c2 + 1⟩
                  rfl (by simp) hX
                exact ⟨m, hA, hB, hC⟩
      · rw [if_neg h1] at hX
        rw [if_neg h1, if_neg h1]
        obtain ⟨pt, hpt⟩ := numeric_tail_consumed
          (num_digit_loop (c0 :: (u0 ++ X)) l c []).1
          (num_digit_loop (c0 :: (u0 ++ X)) l c []).2
        have hXd : X.length ≤ (num_digit_loop ((c0 :: u0) ++ X) l c []).2.rest.length := by
          have hl := congrArg List.length hpt
          simp only [List.length_append, List.cons_append] at hl hX ⊢
          omega
        obtain ⟨m1, hm1, hda, hdr⟩ := num_digit_loop_local (c0 :: u0) X ws hws
          l c l2 c2 [] hXd
        simp only [List.cons_append] at hm1 hda hdr
        rw [hda]
        exact numeric_tail_local _ m1 X ws hws _ _ hm1 hdr hX

/-- A prefix match of a fixed literal only looks at the first characters:
with the literal short enough, the continuation is irrelevant. -/
theorem litMatches_ext (pat : List Char) :
    ∀ u v w : List Char, pat.length ≤ u.length →
      litMatches pat (u ++ v) = litMatches pat (u ++ w) := by
  induction pat with
  | nil => intro u v w h; rfl
  | cons p ps ih =>
    intro u v w h
    cases u with
    | nil => simp at h
    | cons c cs =>
      simp only [List.cons_append, litMatches, List.append_eq]
      simp only [List.length_cons] at h
      rw [ih cs v w (by omega)]

/-- `drop` over an append staying inside the left part. -/
theorem drop_append_of_le (n : ℕ) :
    ∀ u v : List Char, n ≤ u.length → (u ++ v).drop n = u.drop n ++ v := by
  induction n with
  | zero => intro u v h; rfl
  | succ k ih =>
    intro u v h
    cases u with
    | nil => simp at h
    | cons c cs =>
      simp only [List.cons_append, List.drop_succ_cons]
      exact ih cs v (by simpa using h)

/-- A successful prefix match needs at least the literal's length. -/
theorem litMatches_length (pat : List Char) :
    ∀ r, litMatches pat r = true → pat.length ≤ r.length := by
  induction pat with
  | nil => intro r h; simp
  | cons p ps ih =>
    intro r h
    cases r with
    | nil => simp [litMatches] at h
    | cons c cs =>
      rw [litMatches] at h
      simp only [Bool.and_eq_true] at h
      have := ih cs h.2
      simp only [List.length_cons]
      omega

/-- Locality of the keyword tokenizer: a recognized keyword that leaves `X`
untouched is recognized identically with any continuation in place of `X`. -/
theorem keyword_local (u X : List Char) (l c : ℕ)
    (herr : (tokenizer_parse_keyword_literal (u ++ X) l c).1.type ≠ TOKEN_ERROR)
    (hX : X.length ≤ (tokenizer_parse_keyword_literal (u ++ X) l c).2.rest.length) :
    ∃ m, (tokenizer_parse_keyword_literal (u ++ X) l c).2.rest = m ++ X ∧
      ∀ Y l2 c2, (tokenizer_parse_keyword_literal (u ++ Y) l2 c2).1 =
          (tokenizer_parse_keyword_literal (u ++ X) l c).1 ∧
        (tokenizer_parse_keyword_literal (u ++ Y) l2 c2).2.rest = m ++ Y := by
  rw [tokenizer_parse_keyword_literal] at herr hX ⊢
  by_cases h1 : litMatches ['t', 'r', 'u', 'e'] (u ++ X) = true
  · rw [if_pos h1] at hX ⊢
    rw [List.length_drop] at hX
    simp only [List.length_append] at hX
    have hlm := litMatches_length ['t', 'r', 'u', 'e'] (u ++ X) h1
    simp only [List.length_append, List.length_cons, List.length_nil] at hlm
    have hu : 4 ≤ u.length := by omega
    refine ⟨u.drop 4, by rw [drop_append_of_le 4 u X hu], ?_⟩
    intro Y l2 c2
    rw [tokenizer_parse_keyword_literal,
      if_pos ((litMatches_ext ['t', 'r', 'u', 'e'] u Y X (by simpa using hu)).trans h1)]
    exact ⟨rfl, by rw [drop_append_of_le 4 u Y hu]⟩
  · rw [if_neg h1] at hX herr ⊢
    by_cases h2 : litMatches ['f', 'a', 'l', 's', 'e'] (u ++ X) = true
    · rw [if_pos h2] at hX ⊢
      rw [List.length_drop] at hX
      simp only [List.length_append] at hX
      have hlm := litMatches_length ['f', 'a', 'l', 's', 'e'] (u ++ X) h2
      simp only [List.length_append, List.length_cons, List.length_nil] at hlm
      have hu : 5 ≤ u.length := by omega
      refine ⟨u.drop 5, by rw [drop_append_of_le 5 u X hu], ?_⟩
      intro Y l2 c2
      rw [tokenizer_parse_keyword_literal,
        if_neg (show ¬(litMatches ['t', 'r', 'u', 'e'] (u ++ Y) = true) from by
          rw [litMatches_ext ['t', 'r', 'u', 'e'] u Y X (by simp; omega)]
          exact h1),
        if_pos ((litMatches_ext ['f', 'a', 'l', 's', 'e'] u Y X (by simpa using hu)).trans h2)]
      exact ⟨rfl, by rw [drop_append_of_le 5 u Y hu]⟩
    · rw [if_neg h2] at hX herr ⊢
      by_cases h3 : litMatches ['n', 'u', 'l', 'l'] (u ++ X) = true
      · rw [if_pos h3] at hX ⊢
        rw [List.length_drop] at hX
        simp only [List.length_append] at hX
        have hlm := litMatches_length ['n', 'u', 'l', 'l'] (u ++ X) h3
        simp only [List.length_append, List.length_cons, List.length_nil] at hlm
        have hu : 4 ≤ u.length := by omega
        have hdec := litMatches_decompose ['n', 'u', 'l', 'l'] (u ++ X) h3
        have hun : ∃ u4, u = 'n' :: u4 := by
          cases hu2 : u with
          | nil => rw [hu2] at hu; simp at hu
          | cons a as =>
            refine ⟨as, ?_⟩
            rw [hu2] at hdec
            simp only [List.cons_append] at hdec
            have := (List.cons.inj hdec).1
            rw [this]
        obtain ⟨u4, hu4⟩ := hun
        refine ⟨u.drop 4, by rw [drop_append_of_le 4 u X hu], ?_⟩
        intro Y l2 c2
        rw [tokenizer_parse_keyword_literal,
          if_neg (show ¬(litMatches ['t', 'r', 'u', 'e'] (u ++ Y) = true) from by
            rw [litMatches_ext ['t', 'r', 'u', 'e'] u Y X (by simp; omega)]
            exact h1),
          if_neg (show ¬(litMatches ['f', 'a', 'l', 's', 'e'] (u ++ Y) = true) from by
            rw [hu4]
            simp [litMatches]),
          if_pos ((litMatches_ext ['n', 'u', 'l', 'l'] u Y X (by simpa using hu)).trans h3)]
        exact ⟨rfl, by rw [drop_append_of_le 4 u Y hu]⟩
      · rw [if_neg h3] at herr
        exact absurd rfl herr

/-- Every recorded pull point is a suffix of the input. -/
theorem pullSuffixesF_suffix (n : ℕ) :
    ∀ r l c b, b ∈ pullSuffixesF n r l c → ∃ pre, r = pre ++ b := by
  induction n with
  | zero => intro r l c b h; simp [pullSuffixesF] at h
  | succ k ih =>
    intro r l c b h
    rw [pullSuffixesF] at h
    by_cases hs : stopToken (tokenizer_get_next_token r l c).1 = true
    · rw [if_pos hs] at h
      simp only [List.mem_singleton] at h
      exact ⟨[], by simp [h]⟩
    · rw [if_neg hs] at h
      simp only [List.mem_cons] at h
      rcases h with h | h
      · exact ⟨[], by simp [h]⟩
      · obtain ⟨pre2, hpre2⟩ := ih _ _ _ b h
        obtain ⟨pre1, hpre1, _⟩ := next_token_consumed r l c
        exact ⟨pre1 ++ pre2, by rw [hpre1, hpre2, List.append_assoc]⟩

/-- The dispatcher only discards from the front, and a non-stop token
consumes a nonempty prefix. -/
theorem dispatch_consumed (r : List Char) (l c : ℕ) :
    ∃ pre, r = pre ++ (tokenizer_next_token_dispatch r l c).2.rest ∧
      (¬stopToken (tokenizer_next_token_dispatch r l c).1 = true → pre ≠ []) := by
  cases r with
  | nil =>
    exact ⟨[], rfl, fun h => by simp [tokenizer_next_token_dispatch, stopToken] at h⟩
  | cons ch rest =>
    rw [tokenizer_next_token_dispatch]
    by_cases h1 : ch = '{'
    · rw [if_pos h1]
      exact ⟨[ch], rfl, fun _ => by simp⟩
    rw [if_neg h1]
    by_cases h2 : ch = '}'
    · rw [if_pos h2]
      exact ⟨[ch], rfl, fun _ => by simp⟩
    rw [if_neg h2]
    by_cases h3 : ch = '['
    · rw [if_pos h3]
      exact ⟨[ch], rfl, fun _ => by simp⟩
    rw [if_neg h3]
    by_cases h4 : ch = ']'
    · rw [if_pos h4]
      exact ⟨[ch], rfl, fun _ => by simp⟩
    rw [if_neg h4]
    by_cases h5 : ch = ':'
    · rw [if_pos h5]
      exact ⟨[ch], rfl, fun _ => by simp⟩
    rw [if_neg h5]
    by_cases h6 : ch = ','
    · rw [if_pos h6]
      exact ⟨[ch], rfl, fun _ => by simp⟩
    rw [if_neg h6]
    by_cases h7 : ch = '"'
    · rw [if_pos h7]
      obtain ⟨pre, hpre, hne⟩ := string_literal_consumed ch rest l c
      exact ⟨pre, hpre, fun _ => hne⟩
    rw [if_neg h7]
    by_cases h8 : (ch = '-' || isDigitChar ch) = true
    · rw [if_pos h8]
      obtain ⟨pre, hpre, hne⟩ := numeric_consumed ch rest l c (by simpa using h8)
      exact ⟨pre, hpre, fun _ => hne⟩
    rw [if_neg h8]
    by_cases h9 : (ch = 't' || ch = 'f' || ch = 'n') = true
    · rw [if_pos h9]
      exact keyword_consumed (ch :: rest) l c
    rw [if_neg h9]
    exact ⟨[], rfl, fun h => by simp [stopToken] at h⟩


set_option maxHeartbeats 1600000 in
/-- Locality of the token dispatcher: a non-stop token that leaves `b`
untouched is produced identically when whitespace is inserted before `b`. -/
theorem dispatch_local (A b ws : List Char) (hws : wsOnly ws) (L C L2 C2 : ℕ)
    (hstop : ¬stopToken (tokenizer_next_token_dispatch (A ++ b) L C).1 = true)
    (hsuf : b.length ≤ (tokenizer_next_token_dispatch (A ++ b) L C).2.rest.length) :
    ∃ m, (tokenizer_next_token_dispatch (A ++ b) L C).2.rest = m ++ b ∧
      (tokenizer_next_token_dispatch (A ++ (ws ++ b)) L2 C2).1 =
        (tokenizer_next_token_dispatch (A ++ b) L C).1 ∧
      (tokenizer_next_token_dispatch (A ++ (ws ++ b)) L2 C2).2.rest = m ++ (ws ++ b) := by
  cases A with
  | nil =>
    exfalso
    simp only [List.nil_append] at hstop hsuf
    obtain ⟨pre, hpre, hne⟩ := dispatch_consumed b L C
    have hpne := hne hstop
    have hlen := congrArg List.length hpre
    simp only [List.length_append] at hlen
    have hpos := List.length_pos.mpr hpne
    omega
  | cons ch a2 =>
    simp only [List.cons_append] at hstop hsuf ⊢
    rw [tokenizer_next_token_dispatch] at hstop hsuf
    rw [tokenizer_next_token_dispatch, tokenizer_next_token_dispatch]
    by_cases h1 : ch = '{'
    · rw [if_pos h1] at hstop hsuf ⊢
      rw [if_pos h1]
      exact ⟨a2, rfl, rfl, rfl⟩
    rw [if_neg h1] at hstop hsuf ⊢
    rw [if_neg h1]
    by_cases h2 : ch = '}'
    · rw [if_pos h2] at hstop hsuf ⊢
      rw [if_pos h2]
      exact ⟨a2, rfl, rfl, rfl⟩
    rw [if_neg h2] at hstop hsuf ⊢
    rw [if_neg h2]
    by_cases h3 : ch = '['
    · rw [if_pos h3] at hstop hsuf ⊢
      rw [if_pos h3]
      exact ⟨a2, rfl, rfl, rfl⟩
    rw [if_neg h3] at hstop hsuf ⊢
    rw [if_neg h3]
    by_cases h4 : ch = ']'
    · rw [if_pos h4] at hstop hsuf ⊢
      rw [if_pos h4]
      exact ⟨a2, rfl, rfl, rfl⟩
    rw [if_neg h4] at hstop hsuf ⊢
    rw [if_neg h4]
    by_cases h5 : ch = ':'
    · rw [if_pos h5] at hstop hsuf ⊢
      rw [if_pos h5]
      exact ⟨a2, rfl, rfl, rfl⟩
    rw [if_neg h5] at hstop hsuf ⊢
    rw [if_neg h5]
    by_cases h6 : ch = ','
    · rw [if_pos h6] at hstop hsuf ⊢
      rw [if_pos h6]
      exact ⟨a2, rfl, rfl, rfl⟩
    rw [if_neg h6] at hstop hsuf ⊢
    rw [if_neg h6]
    by_cases h7 : ch = '"'
    · rw [if_pos h7] at hstop hsuf ⊢
      rw [if_pos h7]
      rw [tokenizer_parse_string_literal_state] at hsuf
      simp only [List.tail_cons] at hsuf
      cases hres : (string_lit_loop (a2 ++ b) L (C + 1) [] 0).1 with
      | none =>
        exfalso
        rw [tokenizer_parse_string_literal] at hstop
        simp only [List.tail_cons] at hstop
        rw [hres] at hstop
        exact hstop (by simp [stopToken])
      | some accRev =>
        have heq : string_lit_loop (a2 ++ b) L (C + 1) [] 0 =
            (some accRev, (string_lit_loop (a2 ++ b) L (C + 1) [] 0).2) := by
          rw [← hres]
        obtain ⟨m, hm, hY⟩ := string_lit_loop_local a2.length a2 b L (C + 1) [] 0 accRev
          (string_lit_loop (a2 ++ b) L (C + 1) [] 0).2 le_rfl heq hsuf
        obtain ⟨hY1, hY2⟩ := hY (ws ++ b) L2 (C2 + 1)
        refine ⟨m, ?_, ?_, ?_⟩
        · rw [tokenizer_parse_string_literal_state]
          simp only [List.tail_cons]
          exact hm
        · rw [tokenizer_parse_string_literal, tokenizer_parse_string_literal]
          simp only [List.tail_cons]
          rw [hres, hY1]
        · rw [tokenizer_parse_string_literal_state]
          simp only [List.tail_cons]
          exact hY2
    rw [if_neg h7] at hstop hsuf ⊢
    rw [if_neg h7]
    by_cases h8 : (ch = '-' || isDigitChar ch) = true
    · rw [if_pos h8] at hstop hsuf ⊢
      rw [if_pos h8]
      have herr : (tokenizer_parse_numeric_literal ((ch :: a2) ++ b) L C).1.type ≠
          TOKEN_ERROR := by
        intro h
        refine hstop ?_
        simp only [stopToken, Bool.or_eq_true, decide_eq_true_eq]
        exact Or.inr h
      obtain ⟨m, hm, ha', hr'⟩ := numeric_literal_local (ch :: a2) b ws hws L C L2 C2
        (by simp) herr hsuf
      exact ⟨m, hm, ha', hr'⟩
    rw [if_neg h8] at hstop hsuf ⊢
    rw [if_neg h8]
    by_cases h9 : (ch = 't' || ch = 'f' || ch = 'n') = true
    · rw [if_pos h9] at hstop hsuf ⊢
      rw [if_pos h9]
      have herr : (tokenizer_parse_keyword_literal ((ch :: a2) ++ b) L C).1.type ≠
          TOKEN_ERROR := by
        intro h
        refine hstop ?_
        simp only [stopToken, Bool.or_eq_true, decide_eq_true_eq]
        exact Or.inr h
      obtain ⟨m, hm, hY⟩ := keyword_local (ch :: a2) b L C herr hsuf
      obtain ⟨hY1, hY2⟩ := hY (ws ++ b) L2 C2
      exact ⟨m, hm, hY1, hY2⟩
    rw [if_neg h9] at hstop
    exact absurd (by simp [stopToken]) hstop

/-- Locality of a full token pull: a non-stop pull that leaves `b` untouched
yields the same token when whitespace is inserted before `b`, leaving the
whitespace and `b` behind. -/
theorem pull_local (a b ws : List Char) (hws : wsOnly ws) (l c l2 c2 : ℕ)
    (hstop : ¬stopToken (tokenizer_get_next_token (a ++ b) l c).1 = true)
    (hsuf : b.length ≤ (tokenizer_get_next_token (a ++ b) l c).2.rest.length) :
    ∃ m, (tokenizer_get_next_token (a ++ b) l c).2.rest = m ++ b ∧
      (tokenizer_get_next_token (a ++ (ws ++ b)) l2 c2).1 =
        (tokenizer_get_next_token (a ++ b) l c).1 ∧
      (tokenizer_get_next_token (a ++ (ws ++ b)) l2 c2).2.rest = m ++ (ws ++ b) := by
  by_cases hA : a.dropWhile (fun ch => isWsChar ch || ch = '\n') = []
  · exfalso
    rw [tokenizer_get_next_token, skipWs_eq] at hstop hsuf
    rw [dropWhile_append_all _ _ _ hA] at hstop hsuf
    dsimp only at hstop hsuf
    obtain ⟨pre, hpre, hne⟩ := dispatch_consumed
      (b.dropWhile (fun ch => isWsChar ch || ch = '\n'))
      (wsAdv ((a ++ b).takeWhile (fun ch => isWsChar ch || ch = '\n')) (l, c)).1
      (wsAdv ((a ++ b).takeWhile (fun ch => isWsChar ch || ch = '\n')) (l, c)).2
    have hpne := hne hstop
    have hlen := congrArg List.length hpre
    simp only [List.length_append] at hlen
    have hpos := List.length_pos.mpr hpne
    have hdl := dropWhile_len_le (fun ch => isWsChar ch || ch = '\n') b
    omega
  · rw [tokenizer_get_next_token, skipWs_eq] at hstop hsuf
    rw [dropWhile_append_left _ _ _ hA] at hstop hsuf
    dsimp only at hstop hsuf
    obtain ⟨m, hm, h1, h2⟩ := dispatch_local (a.dropWhile (fun ch => isWsChar ch || ch = '\n'))
      b ws hws _ _
      (wsAdv ((a ++ (ws ++ b)).takeWhile (fun ch => isWsChar ch || ch = '\n')) (l2, c2)).1
      (wsAdv ((a ++ (ws ++ b)).takeWhile (fun ch => isWsChar ch || ch = '\n')) (l2, c2)).2
      hstop hsuf
    refine ⟨m, ?_, ?_, ?_⟩
    · rw [tokenizer_get_next_token, skipWs_eq, dropWhile_append_left _ _ _ hA]
      dsimp only
      exact hm
    · rw [tokenizer_get_next_token, tokenizer_get_next_token, skipWs_eq, skipWs_eq,
        dropWhile_append_left _ _ _ hA, dropWhile_append_left _ _ _ hA]
      dsimp only
      exact h1
    · rw [tokenizer_get_next_token, skipWs_eq, dropWhile_append_left _ _ _ hA]
      dsimp only
      exact h2

/-- Prepending whitespace to the whole input does not change the token
stream (at any fuel). -/
theorem ws_prepend_stream (ws b : List Char) (hws : wsOnly ws) (n : ℕ) (l c l2 c2 : ℕ) :
    tokenListF n (ws ++ b) l2 c2 = tokenListF n b l c := by
  cases n with
  | zero => rfl
  | succ k =>
    rw [tokenListF, tokenListF]
    obtain ⟨h1, h2⟩ := ws_prepend_pull ws b hws l c l2 c2
    rw [h1, h2]
    by_cases hs : stopToken (tokenizer_get_next_token b l c).1 = true
    · rw [if_pos hs, if_pos hs]
    · rw [if_neg hs, if_neg hs]
      congr 1
      exact tokenListF_pos k _ _ _ _ _

/-- Inserting whitespace at a recorded pull point does not change the token
stream read with the same fuel. -/
theorem tokens_insert_chain (ws : List Char) (hws : wsOnly ws) :
    ∀ n a b l c l2 c2, b ∈ pullSuffixesF n (a ++ b) l c →
      tokenListF n (a ++ (ws ++ b)) l2 c2 = tokenListF n (a ++ b) l c := by
  intro n
  induction n with
  | zero => intro a b l c l2 c2 h; simp [pullSuffixesF] at h
  | succ k ih =>
    intro a b l c l2 c2 h
    rw [pullSuffixesF] at h
    by_cases hs : stopToken (tokenizer_get_next_token (a ++ b) l c).1 = true
    · rw [if_pos hs] at h
      simp only [List.mem_singleton] at h
      have ha : a = [] := by
        have hlen := congrArg List.length h
        simp only [List.length_append] at hlen
        exact List.length_eq_zero.mp (by omega)
      subst ha
      simp only [List.nil_append]
      exact ws_prepend_stream ws b hws (k + 1) l c l2 c2
    · rw [if_neg hs] at h
      simp only [List.mem_cons] at h
      rcases h with h | h
      · have ha : a = [] := by
          have hlen := congrArg List.length h
          simp only [List.length_append] at hlen
          exact List.length_eq_zero.mp (by omega)
        subst ha
        simp only [List.nil_append]
        exact ws_prepend_stream ws b hws (k + 1) l c l2 c2
      · obtain ⟨pre2, hpre2⟩ := pullSuffixesF_suffix k _ _ _ b h
        have hsuf : b.length ≤ (tokenizer_get_next_token (a ++ b) l c).2.rest.length := by
          rw [hpre2]
          simp
        obtain ⟨m, hm, h1, h2⟩ := pull_local a b ws hws l c l2 c2 hs hsuf
        rw [hm] at h
        rw [tokenListF, tokenListF]
        rw [h1, h2, hm]
        rw [if_neg hs, if_neg hs]
        congr 1
        exact ih m b _ _ _ _ h

/-- The fuelled pull-point list is unchanged once the fuel exceeds the input
length. -/
theorem pullSuffixesF_fuel_irrel (n : ℕ) :
    ∀ f1 f2 r l c, r.length < n → n ≤ f1 → n ≤ f2 →
      pullSuffixesF f1 r l c = pullSuffixesF f2 r l c := by
  induction n with
  | zero => intro f1 f2 r l c hn h1 h2; omega
  | succ n ih =>
    intro f1 f2 r l c hn h1 h2
    obtain ⟨a, rfl⟩ : ∃ a, f1 = a + 1 := ⟨f1 - 1, by omega⟩
    obtain ⟨b, rfl⟩ : ∃ b, f2 = b + 1 := ⟨f2 - 1, by omega⟩
    rw [pullSuffixesF, pullSuffixesF]
    by_cases hstop : stopToken (tokenizer_get_next_token r l c).1 = true
    · rw [if_pos hstop, if_pos hstop]
    · rw [if_neg hstop, if_neg hstop]
      congr 1
      obtain ⟨pre, hpre, hne⟩ := next_token_consumed r l c
      have hlel : r.length = pre.length + (tokenizer_get_next_token r l c).2.rest.length := by
        have hcl := congrArg List.length hpre
        simpa using hcl
      have hpl : 0 < pre.length := List.length_pos.mpr (hne hstop)
      exact ih a b _ _ _ (by omega) (by omega) (by omega)

/-- Inserting whitespace at a token boundary leaves the token stream of the
text unchanged. -/
theorem tokens_ws_insert (a ws b : List Char) (hws : wsOnly ws)
    (hb : b ∈ pullSuffixes (a ++ b)) :
    tokens (a ++ (ws ++ b)) = tokens (a ++ b) := by
  have hmem : b ∈ pullSuffixesF ((a ++ (ws ++ b)).length + 1) (a ++ b) 1 1 := by
    rw [pullSuffixes] at hb
    rw [← pullSuffixesF_fuel_irrel ((a ++ b).length + 1) ((a ++ b).length + 1)
      ((a ++ (ws ++ b)).length + 1) (a ++ b) 1 1 (by omega) le_rfl
      (by simp only [List.length_append]; omega)]
    exact hb
  have hchain := tokens_insert_chain ws hws ((a ++ (ws ++ b)).length + 1) a b 1 1 1 1 hmem
  rw [tokens, tokens, hchain]
  exact tokenListF_fuel_irrel ((a ++ b).length + 1) _ _ _ _ _ (by omega)
    (by simp only [List.length_append]; omega) le_rfl

/-- C1 counterexample: the document `1 2` parses successfully (the parser
reads one value and stops), yet the text does not match the grammar of
section 4.2 read as `document := value` over the whole text — the claimed
equivalence "parse succeeds iff the text matches the grammar" fails. -/
theorem C1_counterexample :
    (parse_top ['1', ' ', '2']).1.isSome = true ∧
    ¬matchesDocumentGrammar ['1', ' ', '2'] := by
  have heq : tokens ['1', ' ', '2'] =
      [⟨TOKEN_NUMBER, ['1'], mkRat 1 1⟩, ⟨TOKEN_NUMBER, ['2'], mkRat 2 1⟩, eofTok] := by
    decide
  refine ⟨by decide, ?_⟩
  intro hd
  rw [matchesDocumentGrammar, heq] at hd
  cases hd

/-- C1 amended: the parse entry point succeeds exactly when the token stream
begins with a grammar `value` (the grammar of section 4.2 extended by the
parser's end-of-input leniencies, trailing tokens allowed), and this outcome
is unchanged by inserting whitespace at any token boundary. -/
theorem C1_parse_grammar_equivalence :
    (∀ t, (parse_top t).1.isSome = true ↔ beginsWithValue t) ∧
    (∀ a ws b, wsOnly ws → b ∈ pullSuffixes (a ++ b) →
      ((parse_top (a ++ (ws ++ b))).1.isSome = true ↔
        (parse_top (a ++ b)).1.isSome = true)) := by
  refine ⟨parse_top_iff, fun a ws b hws hb => ?_⟩
  rw [parse_top_iff, parse_top_iff, beginsWithValue, beginsWithValue,
    tokens_ws_insert a ws b hws hb]

/-- Witness for `C1_parse_grammar_equivalence`: the grammar reading of `1`,
and whitespace insertion between the brackets of `[]`. -/
theorem C1_parse_grammar_equivalence_witness :
    ((parse_top ['1']).1.isSome = true ↔ beginsWithValue ['1']) ∧
    ((parse_top ['[', ' ', ']']).1.isSome = true ↔
      (parse_top ['[', ']']).1.isSome = true) :=
  ⟨C1_parse_grammar_equivalence.1 ['1'],
   C1_parse_grammar_equivalence.2 ['['] [' '] [']']
     (by intro c hc; simp at hc; simp [hc]) (by decide)⟩
